import Mathlib

/-!
Verification of the `core-db` storage engine (values, ordering, schema
validation, tables, secondary indexes, database CRUD, transactions).

The Rust source is embedded shallowly:

* `ConvexValue` (values/mod.rs) becomes `Value`; machine `i64` payloads are
  modelled as `ℤ` (no arithmetic is performed on them, only comparison);
  `f64` payloads are modelled by `F64`, an idealized IEEE-754 double:
  NaN / infinities / signed zeros are explicit constructors and finite
  values carry exact rationals.  The cast `i64 as f64` is modelled exactly
  (rounding of huge integers is out of scope); it is strictly monotone,
  which is the only property the ordering proofs use.
* `BTreeMap` / `BTreeSet` become association lists ordered by the relevant
  comparator; the `entry().or_default()` behaviour of keeping the first
  inserted key representative is preserved.
* Fallible Rust functions returning `Result` become `Except CoreError`.
-/

set_option maxHeartbeats 1000000

/-! ## Comparator infrastructure -/

/-- Lexicographic comparison of lists, as Rust's `Ord for Vec<T>`/slice
comparison: elementwise, a strict prefix compares less. -/
def lexCmp (f : α → α → Ordering) : List α → List α → Ordering
  | [], [] => .eq
  | [], _ :: _ => .lt
  | _ :: _, [] => .gt
  | a :: as, b :: bs => (f a b).then (lexCmp f as bs)

/-- Comparison induced by a linear order (Rust `Ord` on primitives). -/
def cmpVia {α : Type _} [LinearOrder α] (a b : α) : Ordering :=
  if a < b then .lt else if a = b then .eq else .gt

/-- A comparator is lawful when it is antisymmetric under `Ordering.swap`
and its non-`gt` relation is transitive (the two laws from which all of
reflexivity, trichotomy and transitivity follow). -/
structure LawCmp (f : α → α → Ordering) : Prop where
  symm : ∀ a b, f b a = (f a b).swap
  isle : ∀ {a b c}, f a b ≠ .gt → f b c ≠ .gt → f a c ≠ .gt

/-- Single transitivity instance of the non-`gt` relation. -/
def TransAt (f : α → α → Ordering) (a b c : α) : Prop :=
  f a b ≠ .gt → f b c ≠ .gt → f a c ≠ .gt

/-- The four permuted transitivity instances the lexicographic step uses. -/
def Trans3 (f : α → α → Ordering) (a b c : α) : Prop :=
  TransAt f a b c ∧ TransAt f c b a ∧ TransAt f c a b ∧ TransAt f b c a

theorem ordering_swap_cases (o : Ordering) :
    o.swap = .lt ↔ o = .gt := by cases o <;> simp [Ordering.swap]

theorem then_swap (o p : Ordering) : (o.then p).swap = o.swap.then p.swap := by
  cases o <;> cases p <;> rfl

theorem ne_gt_cases {o : Ordering} (h : o ≠ .gt) : o = .lt ∨ o = .eq := by
  cases o <;> simp_all

theorem cmpVia_symm {α : Type _} [LinearOrder α] (a b : α) :
    cmpVia b a = (cmpVia a b).swap := by
  unfold cmpVia
  rcases lt_trichotomy a b with h | h | h
  · simp only [h, not_lt.mpr h.le, h.ne.symm, if_true, if_false]; rfl
  · simp only [h, lt_irrefl, if_false, if_true]; rfl
  · simp only [h, not_lt.mpr h.le, h.ne.symm, if_true, if_false]; rfl

theorem cmpVia_eq_iff {α : Type _} [LinearOrder α] {a b : α} :
    cmpVia a b = .eq ↔ a = b := by
  unfold cmpVia
  rcases lt_trichotomy a b with h | h | h
  · simp [h, h.ne]
  · simp [h]
  · simp [not_lt.mpr h.le, h.ne.symm]

theorem cmpVia_lt_iff {α : Type _} [LinearOrder α] {a b : α} :
    cmpVia a b = .lt ↔ a < b := by
  unfold cmpVia
  rcases lt_trichotomy a b with h | h | h
  · simp [h]
  · simp [h, lt_irrefl]
  · simp [not_lt.mpr h.le, h.ne.symm, not_lt.mpr h.le]

theorem cmpVia_gt_iff {α : Type _} [LinearOrder α] {a b : α} :
    cmpVia a b = .gt ↔ b < a := by
  rcases lt_trichotomy a b with h | h | h
  · simp [cmpVia, h, not_lt.mpr h.le, h.ne]
  · simp [cmpVia, h, lt_irrefl]
  · simp [cmpVia, not_lt.mpr h.le, h.ne.symm, h]

theorem lawCmp_cmpVia {α : Type _} [LinearOrder α] : LawCmp (cmpVia (α := α)) := by
  constructor
  · exact fun a b => cmpVia_symm a b
  · intro a b c hab hbc
    intro h
    rw [cmpVia_gt_iff] at h
    rcases ne_gt_cases hab with h1 | h1 <;> rcases ne_gt_cases hbc with h2 | h2
    · exact absurd (lt_trans (cmpVia_lt_iff.mp h1) (cmpVia_lt_iff.mp h2)) (not_lt.mpr h.le)
    · exact absurd (cmpVia_eq_iff.mp h2 ▸ cmpVia_lt_iff.mp h1) (not_lt.mpr h.le)
    · exact absurd (cmpVia_eq_iff.mp h1 ▸ cmpVia_lt_iff.mp h2) (not_lt.mpr h.le)
    · exact absurd (cmpVia_eq_iff.mp h1 ▸ cmpVia_eq_iff.mp h2 ▸ rfl) (ne_of_gt h)

namespace LawCmp

theorem refl {f : α → α → Ordering} (hf : LawCmp f) (a : α) : f a a = .eq := by
  have h := hf.symm a a
  cases hc : f a a <;> rw [hc] at h <;> first | rfl | exact absurd h (by decide)

theorem eq_symm {f : α → α → Ordering} (hf : LawCmp f) {a b : α}
    (h : f a b = .eq) : f b a = .eq := by
  rw [hf.symm, h]; rfl

theorem gt_iff {f : α → α → Ordering} (hf : LawCmp f) {a b : α} :
    f a b = .gt ↔ f b a = .lt := by
  rw [hf.symm a b]
  cases f a b <;> simp [Ordering.swap]

theorem lt_asymm {f : α → α → Ordering} (hf : LawCmp f) {a b : α}
    (h : f a b = .lt) : f b a ≠ .lt := by
  rw [hf.symm, h]; decide

theorem transAt {f : α → α → Ordering} (hf : LawCmp f) (a b c : α) :
    TransAt f a b c := fun h1 h2 => hf.isle h1 h2

theorem trans3 {f : α → α → Ordering} (hf : LawCmp f) (a b c : α) :
    Trans3 f a b c :=
  ⟨hf.transAt _ _ _, hf.transAt _ _ _, hf.transAt _ _ _, hf.transAt _ _ _⟩

end LawCmp

theorem swap_eq_gt {o : Ordering} : o.swap = .gt ↔ o = .lt := by
  cases o <;> decide

theorem swap_eq_lt {o : Ordering} : o.swap = .lt ↔ o = .gt := by
  cases o <;> decide

/-! Mini transitivity lemmas derived from `swap`-antisymmetry and
permuted non-`gt` transitivity instances. -/

theorem cmp_lt_trans_of {f : α → α → Ordering} {a b c : α}
    (hsym : ∀ x y, f y x = (f x y).swap)
    (t : TransAt f c a b)
    (hab : f a b = .lt) (hbc : f b c = .lt) : f a c = .lt := by
  by_contra h
  have hca : f c a ≠ .gt := fun hgt => h (swap_eq_gt.mp ((hsym a c) ▸ hgt))
  have hcb := t hca (by rw [hab]; decide)
  rw [hsym b c, hbc] at hcb
  exact hcb rfl

theorem cmp_lt_of_lt_of_eq {f : α → α → Ordering} {a b c : α}
    (hsym : ∀ x y, f y x = (f x y).swap)
    (t : TransAt f b c a)
    (hab : f a b = .lt) (hbc : f b c = .eq) : f a c = .lt := by
  by_contra h
  have hca : f c a ≠ .gt := fun hgt => h (swap_eq_gt.mp ((hsym a c) ▸ hgt))
  have hba := t (by rw [hbc]; decide) hca
  rw [hsym a b, hab] at hba
  exact hba rfl

theorem cmp_lt_of_eq_of_lt {f : α → α → Ordering} {a b c : α}
    (hsym : ∀ x y, f y x = (f x y).swap)
    (t : TransAt f c a b)
    (hab : f a b = .eq) (hbc : f b c = .lt) : f a c = .lt := by
  by_contra h
  have hca : f c a ≠ .gt := fun hgt => h (swap_eq_gt.mp ((hsym a c) ▸ hgt))
  have hcb := t hca (by rw [hab]; decide)
  rw [hsym b c, hbc] at hcb
  exact hcb rfl

theorem cmp_eq_trans_of {f : α → α → Ordering} {a b c : α}
    (hsym : ∀ x y, f y x = (f x y).swap)
    (t1 : TransAt f a b c) (t2 : TransAt f c b a)
    (hab : f a b = .eq) (hbc : f b c = .eq) : f a c = .eq := by
  have h1 : f a c ≠ .gt := t1 (by rw [hab]; decide) (by rw [hbc]; decide)
  have h2 : f c a ≠ .gt :=
    t2 (by rw [hsym b c, hbc]; decide) (by rw [hsym a b, hab]; decide)
  rcases ne_gt_cases h1 with h | h
  · rw [hsym a c] at h2
    exact absurd (show (f a c).swap = Ordering.gt by rw [h]; rfl) h2
  · exact h

/-- Lexicographic comparison flips under `swap` when the element
comparator does on all members. -/
theorem lexCmp_symm {f : α → α → Ordering} : ∀ {xs ys : List α},
    (∀ x ∈ xs, ∀ y ∈ ys, f y x = (f x y).swap) →
    lexCmp f ys xs = (lexCmp f xs ys).swap
  | [], [], _ => rfl
  | [], _ :: _, _ => rfl
  | _ :: _, [], _ => rfl
  | a :: as, b :: bs, h => by
    simp only [lexCmp, then_swap]
    rw [h a (by simp) b (by simp),
      lexCmp_symm (fun x hx y hy => h x (by simp [hx]) y (by simp [hy]))]

/-- Lexicographic comparison is non-`gt`-transitive when the element
comparator satisfies antisymmetry globally and the four permuted
transitivity instances on members. -/
theorem lexCmp_le_trans {f : α → α → Ordering}
    (hsym : ∀ x y, f y x = (f x y).swap) : ∀ {xs ys zs : List α},
    (∀ x ∈ xs, ∀ y ∈ ys, ∀ z ∈ zs, Trans3 f x y z) →
    TransAt (lexCmp f) xs ys zs
  | [], _, [], _ => by intro _ _; simp [lexCmp]
  | [], _, _ :: _, _ => by intro _ _; simp [lexCmp]
  | _ :: _, [], _, _ => by intro h1 _; cases h1 (by simp [lexCmp])
  | _ :: _, _ :: _, [], _ => by intro _ h2 _; exact h2 (by simp [lexCmp])
  | a :: as, b :: bs, c :: cs, ht => by
    intro h1 h2
    obtain ⟨tabc, tcba, tcab, tbca⟩ :=
      ht a (by simp) b (by simp) c (by simp)
    have htail : TransAt (lexCmp f) as bs cs :=
      lexCmp_le_trans hsym
        (fun x hx y hy z hz =>
          ht x (by simp [hx]) y (by simp [hy]) z (by simp [hz]))
    simp only [lexCmp] at h1 h2 ⊢
    have hab : f a b ≠ .gt := fun hg => by simp [hg, Ordering.then] at h1
    have hbc : f b c ≠ .gt := fun hg => by simp [hg, Ordering.then] at h2
    rcases ne_gt_cases hab with hab' | hab' <;>
      rcases ne_gt_cases hbc with hbc' | hbc'
    · rw [cmp_lt_trans_of hsym tcab hab' hbc']; simp [Ordering.then]
    · rw [cmp_lt_of_lt_of_eq hsym tbca hab' hbc']; simp [Ordering.then]
    · rw [cmp_lt_of_eq_of_lt hsym tcab hab' hbc']; simp [Ordering.then]
    · rw [cmp_eq_trans_of hsym tabc tcba hab' hbc']
      rw [hab'] at h1; rw [hbc'] at h2
      simp only [Ordering.then] at h1 h2 ⊢
      exact htail h1 h2

/-- `lexCmp` of lawful comparators is lawful. -/
theorem lexCmp_lawful {f : α → α → Ordering} (hf : LawCmp f) :
    LawCmp (lexCmp f) := by
  constructor
  · exact fun xs ys => lexCmp_symm (fun x _ y _ => hf.symm x y)
  · intro xs ys zs
    exact lexCmp_le_trans hf.symm (fun x _ y _ z _ => hf.trans3 x y z)

/-- A comparator obtained by precomposing a lawful comparator with any
key function is lawful. -/
theorem lawCmp_comap {f : β → β → Ordering} (hf : LawCmp f) (k : α → β) :
    LawCmp (fun a b => f (k a) (k b)) := by
  constructor
  · exact fun a b => hf.symm (k a) (k b)
  · intro a b c h1 h2; exact hf.isle h1 h2

/-- Lexicographic pair comparison combining two comparators with
`Ordering.then` is lawful when both components are. -/
theorem lawCmp_then2 {f : α → α → Ordering} {g : β → β → Ordering}
    (hf : LawCmp f) (hg : LawCmp g) :
    LawCmp (fun p q : α × β => (f p.1 q.1).then (g p.2 q.2)) := by
  constructor
  · intro p q
    rw [then_swap, hf.symm, hg.symm]
  · intro p q r h1 h2
    have hab : f p.1 q.1 ≠ .gt := fun hgt => by
      simp [hgt, Ordering.then] at h1
    have hbc : f q.1 r.1 ≠ .gt := fun hgt => by
      simp [hgt, Ordering.then] at h2
    rcases ne_gt_cases hab with hab' | hab' <;>
      rcases ne_gt_cases hbc with hbc' | hbc'
    · rw [cmp_lt_trans_of hf.symm (hf.transAt _ _ _) hab' hbc']; simp [Ordering.then]
    · rw [cmp_lt_of_lt_of_eq hf.symm (hf.transAt _ _ _) hab' hbc']; simp [Ordering.then]
    · rw [cmp_lt_of_eq_of_lt hf.symm (hf.transAt _ _ _) hab' hbc']; simp [Ordering.then]
    · rw [cmp_eq_trans_of hf.symm (hf.transAt _ _ _) (hf.transAt _ _ _) hab' hbc']
      rw [hab'] at h1; rw [hbc'] at h2
      simp only [Ordering.then] at h1 h2 ⊢
      exact hg.isle h1 h2

/-! ## Model of `f64` (IEEE-754 double, idealized)

`f64::total_cmp` orders doubles as
`-NaN < -inf < negative finites < -0.0 < +0.0 < positive finites < +inf < +NaN`.
Finite nonzero values are carried as exact rationals (the value set of the
model is a superset of the doubles; every concrete double used in the
claims is exactly representable). -/

inductive F64 where
  /-- A NaN payload; `neg` is the sign bit. -/
  | nan (neg : Bool)
  /-- An infinity; `neg` is the sign bit. -/
  | inf (neg : Bool)
  /-- A signed zero; `neg = true` is `-0.0`. -/
  | zero (neg : Bool)
  /-- A finite nonzero value, carried exactly. -/
  | fin (q : ℚ)
deriving DecidableEq

/-- The `total_cmp` sort key: bucket number, then rational payload. -/
def F64.key : F64 → ℤ × ℚ
  | .nan true => (0, 0)
  | .inf true => (1, 0)
  | .fin q => if q < 0 then (2, q) else (5, q)
  | .zero true => (3, 0)
  | .zero false => (4, 0)
  | .inf false => (6, 0)
  | .nan false => (7, 0)

/-- Pair comparison, first component then second. -/
def pairCmpZQ (x y : ℤ × ℚ) : Ordering :=
  (cmpVia x.1 y.1).then (cmpVia x.2 y.2)

/-- `f64::total_cmp` (values/mod.rs uses it for `Float64` ordering). -/
def fcmp (a b : F64) : Ordering := pairCmpZQ a.key b.key

theorem lawCmp_pairCmpZQ : LawCmp pairCmpZQ := lawCmp_then2 lawCmp_cmpVia lawCmp_cmpVia

theorem lawCmp_fcmp : LawCmp fcmp := lawCmp_comap lawCmp_pairCmpZQ F64.key

/-- IEEE `==` on doubles: `NaN != NaN`, `-0.0 == 0.0`, finite by value. -/
def feq : F64 → F64 → Bool
  | .nan _, _ => false
  | _, .nan _ => false
  | .inf s, .inf t => s == t
  | .inf _, _ => false
  | _, .inf _ => false
  | .zero _, .zero _ => true
  | .zero _, .fin q => q == 0
  | .fin q, .zero _ => q == 0
  | .fin p, .fin q => p == q

/-- The cast `i64 as f64`, idealized as exact (it is monotone; rounding of
integers beyond 2^53 is not modelled). `0i64` casts to `+0.0`. -/
def castF (i : ℤ) : F64 := if i = 0 then .zero false else .fin i

/-- On integer casts, `total_cmp` agrees with integer comparison (this is
why `Int64` vs `Int64` comparing by `i64::cmp` and via the float bucket
coincide). -/
theorem cmpVia_int_rat (i j : ℤ) : cmpVia (i : ℚ) (j : ℚ) = cmpVia i j := by
  unfold cmpVia
  rcases lt_trichotomy i j with h | h | h
  · simp [h, show (i : ℚ) < j from by exact_mod_cast h]
  · simp [h]
  · have h1 : ¬ (i : ℚ) < j := by exact_mod_cast not_lt.mpr h.le
    have h3 : (i : ℚ) ≠ j := by exact_mod_cast h.ne'
    simp [h1, not_lt.mpr h.le, h3, h.ne']

/-- On integer casts, `total_cmp` agrees with integer comparison (this is
why `Int64` vs `Int64` comparing by `i64::cmp` and via the float bucket
coincide). -/
theorem fcmp_castF (i j : ℤ) : fcmp (castF i) (castF j) = cmpVia i j := by
  have hneg : ∀ k : ℤ, k < 0 → (castF k).key = (2, (k : ℚ)) := by
    intro k hk
    simp [castF, hk.ne, F64.key, show (k : ℚ) < 0 from by exact_mod_cast hk]
  have hpos : ∀ k : ℤ, 0 < k → (castF k).key = (5, (k : ℚ)) := by
    intro k hk
    have : ¬ (k : ℚ) < 0 := not_lt.mpr (by exact_mod_cast hk.le)
    simp [castF, hk.ne', F64.key, this]
  have hzro : (castF 0).key = (4, 0) := by simp [castF, F64.key]
  have hthen : ∀ q r : ℚ, pairCmpZQ (2, q) (2, r) = cmpVia q r := by
    intro q r; simp [pairCmpZQ, cmpVia, Ordering.then]
  have hthen5 : ∀ q r : ℚ, pairCmpZQ (5, q) (5, r) = cmpVia q r := by
    intro q r; simp [pairCmpZQ, cmpVia, Ordering.then]
  unfold fcmp
  rcases lt_trichotomy i 0 with hi | hi | hi <;>
    rcases lt_trichotomy j 0 with hj | hj | hj
  · rw [hneg i hi, hneg j hj, hthen, cmpVia_int_rat]
  · subst hj
    rw [hneg i hi, hzro, show cmpVia i 0 = .lt from cmpVia_lt_iff.mpr hi]
    simp [pairCmpZQ, cmpVia, Ordering.then]
  · rw [hneg i hi, hpos j hj,
      show cmpVia i j = .lt from cmpVia_lt_iff.mpr (hi.trans hj)]
    simp [pairCmpZQ, cmpVia, Ordering.then]
  · subst hi
    rw [hzro, hneg j hj, show cmpVia (0 : ℤ) j = .gt from cmpVia_gt_iff.mpr hj]
    simp [pairCmpZQ, cmpVia, Ordering.then]
  · subst hi; subst hj
    rw [hzro, show cmpVia (0 : ℤ) 0 = .eq from cmpVia_eq_iff.mpr rfl]
    simp [pairCmpZQ, cmpVia, Ordering.then]
  · subst hi
    rw [hzro, hpos j hj, show cmpVia (0 : ℤ) j = .lt from cmpVia_lt_iff.mpr hj]
    simp [pairCmpZQ, cmpVia, Ordering.then]
  · rw [hpos i hi, hneg j hj,
      show cmpVia i j = .gt from cmpVia_gt_iff.mpr (hj.trans hi)]
    simp [pairCmpZQ, cmpVia, Ordering.then]
  · subst hj
    rw [hpos i hi, hzro, show cmpVia i 0 = .gt from cmpVia_gt_iff.mpr hi]
    simp [pairCmpZQ, cmpVia, Ordering.then]
  · rw [hpos i hi, hpos j hj, hthen5, cmpVia_int_rat]

/-! ## The value model (`ConvexValue`, values/mod.rs) -/

/-- `ConvexValue`.  `i64` payloads are modelled as `ℤ` (comparison only),
`f64` as `F64`, `Vec<u8>` as `List ℕ`, `BTreeMap<String, ConvexValue>` as
a key-sorted association list. -/
inductive Value where
  | null
  | int (i : ℤ)
  | float (f : F64)
  | boolean (b : Bool)
  | str (s : String)
  | bytes (bs : List ℕ)
  | arr (xs : List Value)
  | obj (kvs : List (String × Value))

/-- Rust `Ord for char`-compatible comparison (code points; for strings
this byte-lexicographic UTF-8 order equals code-point order). -/
def ccmp (c d : Char) : Ordering := cmpVia c.toNat d.toNat

/-- Rust `Ord for String`: lexicographic. -/
def scmp (s t : String) : Ordering := lexCmp ccmp s.data t.data

theorem lawCmp_ccmp : LawCmp ccmp := lawCmp_comap lawCmp_cmpVia Char.toNat

theorem lawCmp_scmp : LawCmp scmp :=
  lawCmp_comap (lexCmp_lawful lawCmp_ccmp) String.data

theorem lt_then (p : Ordering) : Ordering.lt.then p = .lt := rfl

theorem gt_then (p : Ordering) : Ordering.gt.then p = .gt := rfl

theorem eq_then (p : Ordering) : Ordering.eq.then p = p := rfl

theorem lexCmp_eq_iff {f : α → α → Ordering}
    (hf : ∀ x y, f x y = .eq ↔ x = y) :
    ∀ {xs ys : List α}, lexCmp f xs ys = .eq ↔ xs = ys
  | [], [] => by simp [lexCmp]
  | [], _ :: _ => by simp [lexCmp]
  | _ :: _, [] => by simp [lexCmp]
  | a :: as, b :: bs => by
    constructor
    · intro h
      simp only [lexCmp] at h
      have hab : f a b = .eq := by
        cases hfa : f a b
        · rw [hfa, lt_then] at h; exact absurd h (by decide)
        · rfl
        · rw [hfa, gt_then] at h; exact absurd h (by decide)
      have htl : lexCmp f as bs = .eq := by rw [hab, eq_then] at h; exact h
      rw [(hf a b).mp hab, ((lexCmp_eq_iff hf).mp htl)]
    · intro h
      injection h with h1 h2
      subst h1; subst h2
      simp only [lexCmp, (hf a a).mpr rfl, eq_then]
      exact (lexCmp_eq_iff hf).mpr rfl

theorem ccmp_eq_iff {c d : Char} : ccmp c d = .eq ↔ c = d := by
  unfold ccmp
  rw [cmpVia_eq_iff]
  exact ⟨fun h => Char.ext (UInt32.ext h), fun h => by rw [h]⟩

theorem scmp_eq_iff {s t : String} : scmp s t = .eq ↔ s = t := by
  unfold scmp
  rw [lexCmp_eq_iff (fun x y => ccmp_eq_iff)]
  exact ⟨fun h => String.ext h, fun h => by rw [h]⟩

/-- `type_order` of values/mod.rs: the cross-type sort bucket;
`Int64` and `Float64` share bucket 1. -/
def Value.typeOrder : Value → ℕ
  | .null => 0
  | .int _ => 1
  | .float _ => 1
  | .boolean _ => 2
  | .str _ => 3
  | .bytes _ => 4
  | .arr _ => 5
  | .obj _ => 6

mutual

/-- `impl Ord for ConvexValue` (values/mod.rs): first compare the type
buckets (`type_order`), then within a bucket: numbers via `total_cmp`
(`i64` casts to `f64`), booleans / strings / bytes by their `Ord`,
arrays lexicographically, objects by sorted `(key, value)` pairs with
proper prefixes less; the final catch-all mirrors the Rust
`_ => Ordering::Equal` arm. -/
def Value.cmp (a b : Value) : Ordering :=
  match cmpVia a.typeOrder b.typeOrder with
  | .lt => .lt
  | .gt => .gt
  | .eq =>
    match a, b with
    | .null, .null => .eq
    | .int x, .int y => cmpVia x y
    | .float x, .float y => fcmp x y
    | .int x, .float y => fcmp (castF x) y
    | .float x, .int y => fcmp x (castF y)
    | .boolean x, .boolean y => cmpVia x y
    | .str x, .str y => scmp x y
    | .bytes x, .bytes y => lexCmp (cmpVia (α := ℕ)) x y
    | .arr x, .arr y => Value.cmpList x y
    | .obj x, .obj y => Value.cmpObj x y
    | _, _ => .eq

/-- `Ord for Vec<ConvexValue>`, elementwise with prefix-less. -/
def Value.cmpList : List Value → List Value → Ordering
  | [], [] => .eq
  | [], _ :: _ => .lt
  | _ :: _, [] => .gt
  | a :: as, b :: bs => (Value.cmp a b).then (Value.cmpList as bs)

/-- The object comparison loop of `Ord::cmp`: `(key, value)` pairs in
sorted order, proper prefix less. -/
def Value.cmpObj : List (String × Value) → List (String × Value) → Ordering
  | [], [] => .eq
  | [], _ :: _ => .lt
  | _ :: _, [] => .gt
  | (ka, va) :: as, (kb, vb) :: bs =>
      ((scmp ka kb).then (Value.cmp va vb)).then (Value.cmpObj as bs)

end

/-- The same-bucket arm of `Ord::cmp`, split out for the ordering proofs. -/
def Value.cmpSame : Value → Value → Ordering
  | .null, .null => .eq
  | .int x, .int y => cmpVia x y
  | .float x, .float y => fcmp x y
  | .int x, .float y => fcmp (castF x) y
  | .float x, .int y => fcmp x (castF y)
  | .boolean x, .boolean y => cmpVia x y
  | .str x, .str y => scmp x y
  | .bytes x, .bytes y => lexCmp (cmpVia (α := ℕ)) x y
  | .arr x, .arr y => Value.cmpList x y
  | .obj x, .obj y => Value.cmpObj x y
  | _, _ => .eq

theorem cmp_eq_bucket (a b : Value) :
    Value.cmp a b =
      match cmpVia a.typeOrder b.typeOrder with
      | .lt => .lt
      | .gt => .gt
      | .eq => Value.cmpSame a b := by
  cases a <;> cases b <;> rfl

mutual

/-- `impl PartialEq for ConvexValue` (values/mod.rs): structural equality
except that `Float64` uses IEEE `==` (`NaN != NaN`); different variants are
never equal (`Int64(1) != Float64(1.0)`). -/
def Value.valueEq : Value → Value → Bool
  | .null, .null => true
  | .int x, .int y => x == y
  | .float x, .float y => feq x y
  | .boolean x, .boolean y => x == y
  | .str x, .str y => x == y
  | .bytes x, .bytes y => x == y
  | .arr x, .arr y => Value.valueEqList x y
  | .obj x, .obj y => Value.valueEqObj x y
  | _, _ => false

/-- `PartialEq for Vec<ConvexValue>`. -/
def Value.valueEqList : List Value → List Value → Bool
  | [], [] => true
  | a :: as, b :: bs => Value.valueEq a b && Value.valueEqList as bs
  | _, _ => false

/-- `PartialEq for BTreeMap<String, ConvexValue>`: same length, equal
`(key, value)` pairs in order. -/
def Value.valueEqObj : List (String × Value) → List (String × Value) → Bool
  | [], [] => true
  | (ka, va) :: as, (kb, vb) :: bs =>
      ka == kb && Value.valueEq va vb && Value.valueEqObj as bs
  | _, _ => false

end

/-- Key-then-value pair comparator used by the object comparison loop. -/
def pcmp (p q : String × Value) : Ordering :=
  (scmp p.1 q.1).then (Value.cmp p.2 q.2)

theorem cmpList_eq_lexCmp : ∀ xs ys : List Value,
    Value.cmpList xs ys = lexCmp Value.cmp xs ys
  | [], [] => rfl
  | [], _ :: _ => rfl
  | _ :: _, [] => rfl
  | a :: as, b :: bs => by
    simp only [Value.cmpList, lexCmp, cmpList_eq_lexCmp as bs]

theorem cmpObj_eq_lexCmp : ∀ xs ys : List (String × Value),
    Value.cmpObj xs ys = lexCmp pcmp xs ys
  | [], [] => rfl
  | [], _ :: _ => rfl
  | _ :: _, [] => rfl
  | (ka, va) :: as, (kb, vb) :: bs => by
    simp only [Value.cmpObj, lexCmp, cmpObj_eq_lexCmp as bs, pcmp]

/-- Swap-antisymmetry of `Ord::cmp`, by induction on size. -/
theorem cmp_symm_aux : ∀ (n : ℕ) (a b : Value), sizeOf a + sizeOf b ≤ n →
    Value.cmp b a = (Value.cmp a b).swap := by
  intro n
  induction n using Nat.strong_induction_on with
  | _ n IH =>
  intro a b hn
  rw [cmp_eq_bucket a b, cmp_eq_bucket b a, cmpVia_symm a.typeOrder b.typeOrder]
  cases hb : cmpVia a.typeOrder b.typeOrder
  · rfl
  · show Value.cmpSame b a = (Value.cmpSame a b).swap
    have harr : ∀ (xs ys : List Value),
        sizeOf (Value.arr xs) + sizeOf (Value.arr ys) ≤ n →
        Value.cmpList ys xs = (Value.cmpList xs ys).swap := by
      intro xs ys hsz
      rw [cmpList_eq_lexCmp, cmpList_eq_lexCmp]
      refine lexCmp_symm (fun x hx y hy => ?_)
      have h1 := List.sizeOf_lt_of_mem hx
      have h2 := List.sizeOf_lt_of_mem hy
      refine IH (sizeOf x + sizeOf y) ?_ x y le_rfl
      simp only [Value.arr.sizeOf_spec] at hsz
      omega
    have hobj : ∀ (xs ys : List (String × Value)),
        sizeOf (Value.obj xs) + sizeOf (Value.obj ys) ≤ n →
        Value.cmpObj ys xs = (Value.cmpObj xs ys).swap := by
      intro xs ys hsz
      rw [cmpObj_eq_lexCmp, cmpObj_eq_lexCmp]
      refine lexCmp_symm (fun x hx y hy => ?_)
      have h1 := List.sizeOf_lt_of_mem hx
      have h2 := List.sizeOf_lt_of_mem hy
      have hcv : Value.cmp y.2 x.2 = (Value.cmp x.2 y.2).swap := by
        refine IH (sizeOf x.2 + sizeOf y.2) ?_ x.2 y.2 le_rfl
        rcases x with ⟨xk, xv⟩; rcases y with ⟨yk, yv⟩
        simp only [Value.obj.sizeOf_spec, Prod.mk.sizeOf_spec] at hsz h1 h2 ⊢
        omega
      simp only [pcmp, then_swap, hcv, lawCmp_scmp.symm x.1 y.1]
    cases a <;> cases b <;>
      first
      | rfl
      | exact cmpVia_symm _ _
      | exact lawCmp_fcmp.symm _ _
      | exact lawCmp_scmp.symm _ _
      | exact (lexCmp_lawful (lawCmp_cmpVia (α := ℕ))).symm _ _
      | exact harr _ _ hn
      | exact hobj _ _ hn
  · rfl

/-- `Ord::cmp` flips under operand swap. -/
theorem Value.cmp_symm (a b : Value) : Value.cmp b a = (Value.cmp a b).swap :=
  cmp_symm_aux (sizeOf a + sizeOf b) a b le_rfl

/-- Numeric sort key: the shared `Int64`/`Float64` bucket compares through
`total_cmp` after casting integers. -/
def Value.numKey : Value → F64
  | .int i => castF i
  | .float f => f
  | _ => .nan false

theorem typeOrder_one {x : Value} (h : x.typeOrder = 1) :
    (∃ i, x = .int i) ∨ (∃ f, x = .float f) := by
  cases x <;> simp_all [Value.typeOrder]

theorem cmpSame_num {x y : Value} (hx : x.typeOrder = 1) (hy : y.typeOrder = 1) :
    Value.cmpSame x y = fcmp x.numKey y.numKey := by
  rcases typeOrder_one hx with ⟨i, rfl⟩ | ⟨f, rfl⟩ <;>
    rcases typeOrder_one hy with ⟨j, rfl⟩ | ⟨g, rfl⟩ <;>
      simp only [Value.cmpSame, Value.numKey]
  exact (fcmp_castF i j).symm

/-- Lift transitivity through a lawful-first-component `then`-pair
comparator (the shape of the object `(key, value)` comparison). -/
theorem then2_transAt {f : α → α → Ordering} {g : β → β → Ordering}
    (hf : LawCmp f) (p q r : α × β)
    (hg : TransAt g p.2 q.2 r.2) :
    TransAt (fun x y : α × β => (f x.1 y.1).then (g x.2 y.2)) p q r := by
  intro h1 h2
  have hab : f p.1 q.1 ≠ .gt := fun hgt => by
    simp only [hgt, gt_then] at h1; exact h1 rfl
  have hbc : f q.1 r.1 ≠ .gt := fun hgt => by
    simp only [hgt, gt_then] at h2; exact h2 rfl
  simp only at h1 h2 ⊢
  rcases ne_gt_cases hab with hab' | hab' <;>
    rcases ne_gt_cases hbc with hbc' | hbc'
  · rw [cmp_lt_trans_of hf.symm (hf.transAt _ _ _) hab' hbc', lt_then]; decide
  · rw [cmp_lt_of_lt_of_eq hf.symm (hf.transAt _ _ _) hab' hbc', lt_then]; decide
  · rw [cmp_lt_of_eq_of_lt hf.symm (hf.transAt _ _ _) hab' hbc', lt_then]; decide
  · rw [cmp_eq_trans_of hf.symm (hf.transAt _ _ _) (hf.transAt _ _ _) hab' hbc',
      eq_then]
    rw [hab', eq_then] at h1; rw [hbc', eq_then] at h2
    exact hg h1 h2

theorem typeOrder_zero {x : Value} (h : x.typeOrder = 0) : x = .null := by
  cases x <;> simp_all [Value.typeOrder]

theorem typeOrder_two {x : Value} (h : x.typeOrder = 2) : ∃ b, x = .boolean b := by
  cases x <;> simp_all [Value.typeOrder]

theorem typeOrder_three {x : Value} (h : x.typeOrder = 3) : ∃ s, x = .str s := by
  cases x <;> simp_all [Value.typeOrder]

theorem typeOrder_four {x : Value} (h : x.typeOrder = 4) : ∃ bs, x = .bytes bs := by
  cases x <;> simp_all [Value.typeOrder]

theorem typeOrder_five {x : Value} (h : x.typeOrder = 5) : ∃ xs, x = .arr xs := by
  cases x <;> simp_all [Value.typeOrder]

theorem typeOrder_six {x : Value} (h : x.typeOrder = 6) : ∃ kvs, x = .obj kvs := by
  cases x <;> simp_all [Value.typeOrder]

/-- Transitivity of the non-`gt` relation of `Ord::cmp`, by induction on
size. -/
theorem cmp_le_trans_aux : ∀ (n : ℕ) (a b c : Value),
    sizeOf a + sizeOf b + sizeOf c ≤ n →
    Value.cmp a b ≠ .gt → Value.cmp b c ≠ .gt → Value.cmp a c ≠ .gt := by
  intro n
  induction n using Nat.strong_induction_on with
  | _ n IH =>
  intro a b c hn h1 h2
  rw [cmp_eq_bucket] at h1 h2 ⊢
  cases hab : cmpVia a.typeOrder b.typeOrder <;> rw [hab] at h1 <;>
    cases hbc : cmpVia b.typeOrder c.typeOrder <;> rw [hbc] at h2
  · rw [show cmpVia a.typeOrder c.typeOrder = .lt from
      cmpVia_lt_iff.mpr ((cmpVia_lt_iff.mp hab).trans (cmpVia_lt_iff.mp hbc))]
    exact fun h => Ordering.noConfusion h
  · rw [show cmpVia a.typeOrder c.typeOrder = .lt from
      cmpVia_lt_iff.mpr (cmpVia_eq_iff.mp hbc ▸ cmpVia_lt_iff.mp hab)]
    exact fun h => Ordering.noConfusion h
  · exact absurd rfl h2
  · rw [show cmpVia a.typeOrder c.typeOrder = .lt from
      cmpVia_lt_iff.mpr (cmpVia_eq_iff.mp hab ▸ cmpVia_lt_iff.mp hbc)]
    exact fun h => Ordering.noConfusion h
  · -- all three in the same bucket
    rw [show cmpVia a.typeOrder c.typeOrder = .eq from
      cmpVia_eq_iff.mpr ((cmpVia_eq_iff.mp hab).trans (cmpVia_eq_iff.mp hbc))]
    have hta := cmpVia_eq_iff.mp hab
    have htb := cmpVia_eq_iff.mp hbc
    replace h1 : Value.cmpSame a b ≠ .gt := h1
    replace h2 : Value.cmpSame b c ≠ .gt := h2
    show Value.cmpSame a c ≠ .gt
    cases a with
    | null =>
      obtain rfl := typeOrder_zero hta.symm
      obtain rfl := typeOrder_zero htb.symm
      exact fun h => Ordering.noConfusion h
    | int i =>
      rw [cmpSame_num (show (Value.int i).typeOrder = 1 from rfl) hta.symm] at h1
      rw [cmpSame_num hta.symm (hta.trans htb).symm] at h2
      rw [cmpSame_num (show (Value.int i).typeOrder = 1 from rfl)
        (hta.trans htb).symm]
      exact lawCmp_fcmp.isle h1 h2
    | float f =>
      rw [cmpSame_num (show (Value.float f).typeOrder = 1 from rfl) hta.symm] at h1
      rw [cmpSame_num hta.symm (hta.trans htb).symm] at h2
      rw [cmpSame_num (show (Value.float f).typeOrder = 1 from rfl)
        (hta.trans htb).symm]
      exact lawCmp_fcmp.isle h1 h2
    | boolean x =>
      obtain ⟨y, rfl⟩ := typeOrder_two hta.symm
      obtain ⟨z, rfl⟩ := typeOrder_two htb.symm
      exact (lawCmp_cmpVia (α := Bool)).isle h1 h2
    | str sx =>
      obtain ⟨sy, rfl⟩ := typeOrder_three hta.symm
      obtain ⟨sz, rfl⟩ := typeOrder_three htb.symm
      exact lawCmp_scmp.isle h1 h2
    | bytes bx =>
      obtain ⟨bz, rfl⟩ := typeOrder_four hta.symm
      obtain ⟨bw, rfl⟩ := typeOrder_four htb.symm
      exact (lexCmp_lawful (lawCmp_cmpVia (α := ℕ))).isle h1 h2
    | arr xs =>
      obtain ⟨ys, rfl⟩ := typeOrder_five hta.symm
      obtain ⟨zs, rfl⟩ := typeOrder_five htb.symm
      replace h1 : Value.cmpList xs ys ≠ .gt := h1
      replace h2 : Value.cmpList ys zs ≠ .gt := h2
      show Value.cmpList xs zs ≠ .gt
      rw [cmpList_eq_lexCmp] at h1 h2 ⊢
      refine lexCmp_le_trans Value.cmp_symm ?_ h1 h2
      intro x hx y hy z hz
      have hx' := List.sizeOf_lt_of_mem hx
      have hy' := List.sizeOf_lt_of_mem hy
      have hz' := List.sizeOf_lt_of_mem hz
      simp only [Value.arr.sizeOf_spec] at hn
      refine ⟨?_, ?_, ?_, ?_⟩ <;> intro p q <;>
        exact IH _ (by omega) _ _ _ le_rfl p q
    | obj xs =>
      obtain ⟨ys, rfl⟩ := typeOrder_six hta.symm
      obtain ⟨zs, rfl⟩ := typeOrder_six htb.symm
      replace h1 : Value.cmpObj xs ys ≠ .gt := h1
      replace h2 : Value.cmpObj ys zs ≠ .gt := h2
      show Value.cmpObj xs zs ≠ .gt
      rw [cmpObj_eq_lexCmp] at h1 h2 ⊢
      have hpsym : ∀ p q : String × Value, pcmp q p = (pcmp p q).swap := by
        intro p q
        simp only [pcmp, then_swap, Value.cmp_symm p.2 q.2,
          lawCmp_scmp.symm p.1 q.1]
      refine lexCmp_le_trans hpsym ?_ h1 h2
      intro x hx y hy z hz
      have hx' := List.sizeOf_lt_of_mem hx
      have hy' := List.sizeOf_lt_of_mem hy
      have hz' := List.sizeOf_lt_of_mem hz
      simp only [Value.obj.sizeOf_spec] at hn
      obtain ⟨xk, xv⟩ := x; obtain ⟨yk, yv⟩ := y; obtain ⟨zk, zv⟩ := z
      simp only [Prod.mk.sizeOf_spec] at hx' hy' hz'
      have harg : ∀ u v w : Value,
          sizeOf u + sizeOf v + sizeOf w < n → TransAt Value.cmp u v w := by
        intro u v w hw p q
        exact IH _ hw _ _ _ le_rfl p q
      exact ⟨then2_transAt lawCmp_scmp _ _ _ (harg xv yv zv (by omega)),
        then2_transAt lawCmp_scmp _ _ _ (harg zv yv xv (by omega)),
        then2_transAt lawCmp_scmp _ _ _ (harg zv xv yv (by omega)),
        then2_transAt lawCmp_scmp _ _ _ (harg yv zv xv (by omega))⟩
  · exact absurd rfl h2
  · exact absurd rfl h1
  · exact absurd rfl h1
  · exact absurd rfl h1

/-- `Ord::cmp` on `ConvexValue` is a lawful comparator: antisymmetric under
swap and transitive. -/
theorem lawCmp_cmp : LawCmp Value.cmp :=
  ⟨Value.cmp_symm, fun {a b c} h1 h2 =>
    cmp_le_trans_aux (sizeOf a + sizeOf b + sizeOf c) a b c le_rfl h1 h2⟩

/-! ## Claim C1: totality of the value order -/

/-- C1 (counterexample): as stated, with `a = b` meaning *value equality*
(`PartialEq`), the trichotomy fails: `Int64(1)` and `Float64(1.0)` compare
`Equal` under `Ord::cmp` (shared numeric bucket) yet are *not* equal under
`PartialEq` (different variants are never equal), so none of `a<b`, `a=b`,
`a>b` holds. -/
theorem C1_counterexample :
    ¬ ((Value.cmp (.int 1) (.float (.fin 1)) = .lt
          ∧ Value.valueEq (.int 1) (.float (.fin 1)) ≠ true
          ∧ Value.cmp (.float (.fin 1)) (.int 1) ≠ .lt)
      ∨ (Value.cmp (.int 1) (.float (.fin 1)) ≠ .lt
          ∧ Value.valueEq (.int 1) (.float (.fin 1)) = true
          ∧ Value.cmp (.float (.fin 1)) (.int 1) ≠ .lt)
      ∨ (Value.cmp (.int 1) (.float (.fin 1)) ≠ .lt
          ∧ Value.valueEq (.int 1) (.float (.fin 1)) ≠ true
          ∧ Value.cmp (.float (.fin 1)) (.int 1) = .lt)) := by
  decide

/-- C1 (amended): comparison of `ConvexValue` is a total order consistent
with *comparison equality* (`cmp a b = Equal`, rather than `PartialEq`
value equality, which distinguishes `Int64` from `Float64` and makes
`NaN ≠ NaN`): for any values `a, b, c` exactly one of `a<b`,
`cmp a b = Equal`, `a>b` holds, `<` is transitive, the cross-type order is
Null < Number < Boolean < String < Bytes < Array < Object, and `Int64` and
`Float64` share one bucket, comparing numerically via `total_cmp` after
casting. -/
theorem C1_total_order_amended (a b c : Value) (i : ℤ) (g : F64) (x : Bool)
    (s : String) (bs : List ℕ) (xs : List Value)
    (kvs : List (String × Value)) :
    ((Value.cmp a b = .lt ∧ Value.cmp a b ≠ .eq ∧ Value.cmp b a ≠ .lt)
      ∨ (Value.cmp a b ≠ .lt ∧ Value.cmp a b = .eq ∧ Value.cmp b a ≠ .lt)
      ∨ (Value.cmp a b ≠ .lt ∧ Value.cmp a b ≠ .eq ∧ Value.cmp b a = .lt))
    ∧ (Value.cmp a b = .lt → Value.cmp b c = .lt → Value.cmp a c = .lt)
    ∧ (a.typeOrder < b.typeOrder → Value.cmp a b = .lt)
    ∧ (Value.cmp .null (.int i) = .lt
        ∧ Value.cmp .null (.float g) = .lt
        ∧ Value.cmp (.int i) (.boolean x) = .lt
        ∧ Value.cmp (.float g) (.boolean x) = .lt
        ∧ Value.cmp (.boolean x) (.str s) = .lt
        ∧ Value.cmp (.str s) (.bytes bs) = .lt
        ∧ Value.cmp (.bytes bs) (.arr xs) = .lt
        ∧ Value.cmp (.arr xs) (.obj kvs) = .lt)
    ∧ ((Value.int i).typeOrder = (Value.float g).typeOrder
        ∧ Value.cmp (.int i) (.float g) = fcmp (castF i) g
        ∧ Value.cmp (.float g) (.int i) = fcmp g (castF i)) := by
  refine ⟨?_, ?_, ?_, ⟨rfl, rfl, rfl, rfl, rfl, rfl, rfl, rfl⟩, rfl, rfl, rfl⟩
  · cases h : Value.cmp a b with
    | lt =>
      exact Or.inl ⟨rfl, by simp, lawCmp_cmp.lt_asymm h⟩
    | eq =>
      refine Or.inr (Or.inl ⟨by simp, rfl, ?_⟩)
      rw [lawCmp_cmp.eq_symm h]; decide
    | gt =>
      exact Or.inr (Or.inr ⟨by simp, by simp, lawCmp_cmp.gt_iff.mp h⟩)
  · intro h1 h2
    exact cmp_lt_trans_of lawCmp_cmp.symm (lawCmp_cmp.transAt c a b) h1 h2
  · intro h
    rw [cmp_eq_bucket, cmpVia_lt_iff.mpr h]

/-- C1 (witness): the amended total-order theorem applied at concrete
values, discharging the transitivity and bucket hypotheses at
`Null < Int64 0 < Boolean true`. -/
theorem C1_witness : Value.cmp .null (.boolean true) = .lt :=
  (C1_total_order_amended .null (.int 0) (.boolean true) 0 (.fin 0) true
    "" [] [] []).2.1 (by decide) (by decide)

/-! ## JSON interop (values/mod.rs `From` impls, claim C7) -/

/-- `serde_json::Number`: an integer variant (`PosInt`/`NegInt`, modelled
with unbounded `ℤ`; real Rust values always fit `u64`/`i64`) or a float
variant. -/
inductive JNum where
  | int (i : ℤ)
  | float (f : F64)

/-- `serde_json::Value`. -/
inductive Json where
  | null
  | bool (b : Bool)
  | num (n : JNum)
  | str (s : String)
  | arr (xs : List Json)
  | obj (kvs : List (String × Json))

def i64Min : ℤ := -(2 ^ 63)

def i64Max : ℤ := 2 ^ 63 - 1

/-- `Number::as_i64`: `Some` exactly for integer variants in `i64` range. -/
def JNum.asI64 : JNum → Option ℤ
  | .int i => if i64Min ≤ i ∧ i ≤ i64Max then some i else none
  | .float _ => none

/-- `Number::as_f64` (on the values `From<serde_json::Value>` reaches). -/
def JNum.asF64 : JNum → F64
  | .int i => castF i
  | .float f => f

def F64.isFinite : F64 → Bool
  | .fin _ => true
  | .zero _ => true
  | _ => false

mutual

/-- `impl From<ConvexValue> for serde_json::Value`.  `json!(f)` for an
`f64` goes through `Number::from_f64`, which yields JSON `null` for
non-finite floats; `Bytes` become `{"$bytes": [..]}`. -/
def Value.toJson : Value → Json
  | .null => .null
  | .boolean b => .bool b
  | .int i => .num (.int i)
  | .float f => if f.isFinite then .num (.float f) else .null
  | .str s => .str s
  | .bytes b => .obj [("$bytes", .arr (b.map (fun n => .num (.int n))))]
  | .arr xs => .arr (Value.toJsonList xs)
  | .obj kvs => .obj (Value.toJsonObj kvs)

def Value.toJsonList : List Value → List Json
  | [] => []
  | x :: rest => Value.toJson x :: Value.toJsonList rest

def Value.toJsonObj : List (String × Value) → List (String × Json)
  | [] => []
  | (k, v) :: rest => (k, Value.toJson v) :: Value.toJsonObj rest

end

mutual

/-- `impl From<serde_json::Value> for ConvexValue`: numbers fitting `i64`
become `Int64`, otherwise `Float64`. -/
def Value.fromJson : Json → Value
  | .null => .null
  | .bool b => .boolean b
  | .num n =>
    match n.asI64 with
    | some i => .int i
    | none => .float n.asF64
  | .str s => .str s
  | .arr xs => .arr (Value.fromJsonList xs)
  | .obj kvs => .obj (Value.fromJsonObj kvs)

def Value.fromJsonList : List Json → List Value
  | [] => []
  | x :: rest => Value.fromJson x :: Value.fromJsonList rest

def Value.fromJsonObj : List (String × Json) → List (String × Value)
  | [] => []
  | (k, v) :: rest => (k, Value.fromJson v) :: Value.fromJsonObj rest

end

mutual

/-- Values whose JSON round trip is structure-preserving: no `Bytes`,
every `Float64` finite (NaN and infinities are collapsed to JSON `null`
by `Number::from_f64`), `Int64` payloads inside `i64` range (automatic in
Rust, explicit here because the model widens `i64` to `ℤ`). -/
def Value.jsonRoundSafe : Value → Bool
  | .null => true
  | .int i => decide (i64Min ≤ i) && decide (i ≤ i64Max)
  | .float f => f.isFinite
  | .boolean _ => true
  | .str _ => true
  | .bytes _ => false
  | .arr xs => Value.jsonRoundSafeList xs
  | .obj kvs => Value.jsonRoundSafeObj kvs

def Value.jsonRoundSafeList : List Value → Bool
  | [] => true
  | x :: rest => Value.jsonRoundSafe x && Value.jsonRoundSafeList rest

def Value.jsonRoundSafeObj : List (String × Value) → Bool
  | [] => true
  | (_, v) :: rest => Value.jsonRoundSafe v && Value.jsonRoundSafeObj rest

end

mutual

theorem roundtrip_eq : ∀ v : Value, Value.jsonRoundSafe v = true →
    Value.fromJson (Value.toJson v) = v
  | .null, _ => rfl
  | .int i, h => by
    simp only [Value.jsonRoundSafe, Bool.and_eq_true, decide_eq_true_eq] at h
    simp [Value.toJson, Value.fromJson, JNum.asI64, h.1, h.2]
  | .float f, h => by
    simp only [Value.jsonRoundSafe] at h
    simp [Value.toJson, Value.fromJson, h, JNum.asI64, JNum.asF64]
  | .boolean b, _ => rfl
  | .str s, _ => rfl
  | .arr xs, h => by
    simp only [Value.jsonRoundSafe] at h
    simp only [Value.toJson, Value.fromJson]
    rw [roundtrip_eq_list xs h]
  | .obj kvs, h => by
    simp only [Value.jsonRoundSafe] at h
    simp only [Value.toJson, Value.fromJson]
    rw [roundtrip_eq_obj kvs h]

theorem roundtrip_eq_list : ∀ xs : List Value,
    Value.jsonRoundSafeList xs = true →
    Value.fromJsonList (Value.toJsonList xs) = xs
  | [], _ => rfl
  | x :: rest, h => by
    simp only [Value.jsonRoundSafeList, Bool.and_eq_true] at h
    simp only [Value.toJsonList, Value.fromJsonList, roundtrip_eq x h.1,
      roundtrip_eq_list rest h.2]

theorem roundtrip_eq_obj : ∀ kvs : List (String × Value),
    Value.jsonRoundSafeObj kvs = true →
    Value.fromJsonObj (Value.toJsonObj kvs) = kvs
  | [], _ => rfl
  | (k, v) :: rest, h => by
    simp only [Value.jsonRoundSafeObj, Bool.and_eq_true] at h
    simp only [Value.toJsonObj, Value.fromJsonObj, roundtrip_eq v h.1,
      roundtrip_eq_obj rest h.2]

end

mutual

theorem valueEq_refl_safe : ∀ v : Value, Value.jsonRoundSafe v = true →
    Value.valueEq v v = true
  | .null, _ => rfl
  | .int i, _ => by simp [Value.valueEq]
  | .float f, h => by
    cases f <;> simp_all [Value.jsonRoundSafe, F64.isFinite, Value.valueEq, feq]
  | .boolean b, _ => by simp [Value.valueEq]
  | .str s, _ => by simp [Value.valueEq]
  | .arr xs, h => by
    simp only [Value.jsonRoundSafe] at h
    simp only [Value.valueEq]
    exact valueEq_refl_safe_list xs h
  | .obj kvs, h => by
    simp only [Value.jsonRoundSafe] at h
    simp only [Value.valueEq]
    exact valueEq_refl_safe_obj kvs h

theorem valueEq_refl_safe_list : ∀ xs : List Value,
    Value.jsonRoundSafeList xs = true → Value.valueEqList xs xs = true
  | [], _ => rfl
  | x :: rest, h => by
    simp only [Value.jsonRoundSafeList, Bool.and_eq_true] at h
    simp only [Value.valueEqList, Bool.and_eq_true]
    exact ⟨valueEq_refl_safe x h.1, valueEq_refl_safe_list rest h.2⟩

theorem valueEq_refl_safe_obj : ∀ kvs : List (String × Value),
    Value.jsonRoundSafeObj kvs = true → Value.valueEqObj kvs kvs = true
  | [], _ => rfl
  | (k, v) :: rest, h => by
    simp only [Value.jsonRoundSafeObj, Bool.and_eq_true] at h
    simp only [Value.valueEqObj, Bool.and_eq_true]
    exact ⟨⟨by simp, valueEq_refl_safe v h.1⟩, valueEq_refl_safe_obj rest h.2⟩

end

/-! ## Claim C7: JSON round trip -/

/-- C7 (counterexample): `Float64(NaN)` contains no `Bytes`, yet
`json!(NaN)` is JSON `null` (`Number::from_f64` rejects non-finite
floats), so the round trip returns `Null`, which is not equal to the
original value; the claim as stated fails. -/
theorem C7_counterexample :
    Value.jsonRoundSafeList [Value.float (.nan false)] = false
    ∧ (Value.float (.nan false)).toJson = .null
    ∧ Value.fromJson ((Value.float (.nan false)).toJson) = .null
    ∧ Value.valueEq (Value.fromJson ((Value.float (.nan false)).toJson))
        (.float (.nan false)) = false := by
  refine ⟨rfl, rfl, rfl, rfl⟩

/-- C7 (amended): for every value whose subtree contains no `Bytes` and no
non-finite `Float64` (and whose `Int64` payloads are in `i64` range, which
is automatic in Rust), `fromJson (toJson v)` is structurally equal to `v`
and `PartialEq`-equal to it. -/
theorem C7_json_roundtrip_amended (v : Value)
    (h : Value.jsonRoundSafe v = true) :
    Value.fromJson (Value.toJson v) = v
    ∧ Value.valueEq (Value.fromJson (Value.toJson v)) v = true := by
  refine ⟨roundtrip_eq v h, ?_⟩
  rw [roundtrip_eq v h]
  exact valueEq_refl_safe v h

/-- C7 (witness): the round trip theorem applied to the concrete value
`{"active": true, "age": 30, "name": "Alice", "scores": [1, 2.5]}`. -/
theorem C7_witness :
    Value.fromJson (Value.toJson (.obj [("active", .boolean true),
        ("age", .int 30), ("name", .str "Alice"),
        ("scores", .arr [.int 1, .float (.fin (5 / 2))])]))
      = .obj [("active", .boolean true), ("age", .int 30),
          ("name", .str "Alice"),
          ("scores", .arr [.int 1, .float (.fin (5 / 2))])] :=
  (C7_json_roundtrip_amended _ (by decide)).1

/-! ## Ordered association lists (the `BTreeMap` / `BTreeSet` model)

A `BTreeMap` keyed by a comparator `c` is modelled as an association list
whose keys are strictly ascending under `c`; a `BTreeSet` likewise.
`mapAlter` mirrors `entry(k)` / `insert(k, v)`: when an existing key
compares `Equal` the *stored* key representative is kept, exactly as
`BTreeMap` keeps the first-inserted key. -/

def mapGet (c : κ → κ → Ordering) (k : κ) : List (κ × ν) → Option ν
  | [] => none
  | (k', v) :: rest => if c k k' = .eq then some v else mapGet c k rest

def mapAlter (c : κ → κ → Ordering) (k : κ) (f : Option ν → ν) :
    List (κ × ν) → List (κ × ν)
  | [] => [(k, f none)]
  | (k', v') :: rest =>
    match c k k' with
    | .lt => (k, f none) :: (k', v') :: rest
    | .eq => (k', f (some v')) :: rest
    | .gt => (k', v') :: mapAlter c k f rest

/-- `BTreeMap::insert` (keeps the stored key on update). -/
def mapInsert (c : κ → κ → Ordering) (k : κ) (v : ν) (m : List (κ × ν)) :
    List (κ × ν) :=
  mapAlter c k (fun _ => v) m

def mapRemove (c : κ → κ → Ordering) (k : κ) : List (κ × ν) → List (κ × ν)
  | [] => []
  | (k', v') :: rest =>
    match c k k' with
    | .lt => (k', v') :: rest
    | .eq => rest
    | .gt => (k', v') :: mapRemove c k rest

def setInsert (c : κ → κ → Ordering) (x : κ) : List κ → List κ
  | [] => [x]
  | y :: rest =>
    match c x y with
    | .lt => x :: y :: rest
    | .eq => y :: rest
    | .gt => y :: setInsert c x rest

def setRemove (c : κ → κ → Ordering) (x : κ) : List κ → List κ
  | [] => []
  | y :: rest =>
    match c x y with
    | .lt => y :: rest
    | .eq => rest
    | .gt => y :: setRemove c x rest

def setMem (c : κ → κ → Ordering) (x : κ) (s : List κ) : Bool :=
  s.any (fun y => c x y = .eq)

/-- Keys strictly ascending under the comparator. -/
def SortedKeys (c : κ → κ → Ordering) (m : List (κ × ν)) : Prop :=
  m.Pairwise (fun a b => c a.1 b.1 = .lt)

/-- Elements strictly ascending under the comparator. -/
def SortedList (c : κ → κ → Ordering) (s : List κ) : Prop :=
  s.Pairwise (fun a b => c a b = .lt)

theorem mapGet_cons {c : κ → κ → Ordering} {k k0 : κ} {v0 : ν}
    {rest : List (κ × ν)} :
    mapGet c k ((k0, v0) :: rest) =
      if c k k0 = .eq then some v0 else mapGet c k rest := rfl

theorem mapGet_none_of_lt {c : κ → κ → Ordering} (hc : LawCmp c) {k : κ} :
    ∀ {m : List (κ × ν)}, SortedKeys c m →
    (∀ e ∈ m, c k e.1 = .lt) → mapGet c k m = none
  | [], _, _ => rfl
  | (k0, v0) :: rest, hm, hall => by
    have h0 := hall (k0, v0) (by simp)
    rw [mapGet_cons, if_neg (by rw [h0]; exact fun h => Ordering.noConfusion h)]
    exact mapGet_none_of_lt hc (List.Pairwise.of_cons hm)
      (fun e he => hall e (by simp [he]))

theorem mapGet_head_lt_cons {c : κ → κ → Ordering} (hc : LawCmp c) {k k0 : κ}
    {v0 : ν} {rest : List (κ × ν)} (h : c k k0 ≠ .eq) :
    mapGet c k ((k0, v0) :: rest) = mapGet c k rest := by
  rw [mapGet_cons, if_neg h]

theorem mapGet_alter {c : κ → κ → Ordering} (hc : LawCmp c) (k k' : κ)
    (f : Option ν → ν) :
    ∀ (m : List (κ × ν)), SortedKeys c m →
    mapGet c k' (mapAlter c k f m) =
      if c k' k = .eq then some (f (mapGet c k m)) else mapGet c k' m
  | [], _ => by simp [mapAlter, mapGet]
  | (k0, v0) :: rest, hm => by
    have hrest : SortedKeys c rest := List.Pairwise.of_cons hm
    cases hck : c k k0 with
    | lt =>
      simp only [mapAlter, hck]
      rw [mapGet_cons]
      by_cases h' : c k' k = .eq
      · rw [if_pos h', if_pos h']
        congr 2
        refine (mapGet_none_of_lt hc hm ?_).symm
        intro e he
        rcases List.mem_cons.mp he with rfl | he'
        · exact hck
        · rcases hm with _ | ⟨h0, _⟩
          exact cmp_lt_trans_of hc.symm (hc.transAt _ _ _) hck (h0 e he')
      · rw [if_neg h', if_neg h']
    | eq =>
      simp only [mapAlter, hck]
      rw [mapGet_cons]
      by_cases h' : c k' k = .eq
      · have h0' : c k' k0 = .eq :=
          cmp_eq_trans_of hc.symm (hc.transAt _ _ _) (hc.transAt _ _ _) h' hck
        rw [if_pos h0', if_pos h', mapGet_cons, if_pos hck]
      · have h0' : c k' k0 ≠ .eq := fun he =>
          h' (cmp_eq_trans_of hc.symm (hc.transAt _ _ _) (hc.transAt _ _ _) he
            (hc.eq_symm hck))
        rw [if_neg h0', if_neg h', mapGet_cons, if_neg h0']
    | gt =>
      simp only [mapAlter, hck]
      rw [mapGet_cons]
      by_cases h0' : c k' k0 = .eq
      · have h' : c k' k ≠ .eq := fun he => by
          have : c k k0 = .eq :=
            cmp_eq_trans_of hc.symm (hc.transAt _ _ _) (hc.transAt _ _ _)
              (hc.eq_symm he) h0'
          rw [hck] at this; exact Ordering.noConfusion this
        rw [if_pos h0', if_neg h', mapGet_cons, if_pos h0']
      · rw [if_neg h0', mapGet_alter hc k k' f rest hrest,
          mapGet_head_lt_cons hc (k := k)
            (by rw [hck]; exact fun h => Ordering.noConfusion h),
          mapGet_head_lt_cons hc h0']

theorem mapGet_remove {c : κ → κ → Ordering} (hc : LawCmp c) (k k' : κ) :
    ∀ (m : List (κ × ν)), SortedKeys c m →
    mapGet c k' (mapRemove c k m) =
      if c k' k = .eq then none else mapGet c k' m
  | [], _ => by simp [mapRemove, mapGet]
  | (k0, v0) :: rest, hm => by
    have hrest : SortedKeys c rest := List.Pairwise.of_cons hm
    cases hck : c k k0 with
    | lt =>
      simp only [mapRemove, hck]
      by_cases h' : c k' k = .eq
      · rw [if_pos h']
        refine mapGet_none_of_lt hc hm ?_
        intro e he
        have hk'k0 : c k' k0 = .lt :=
          cmp_lt_of_eq_of_lt hc.symm (hc.transAt _ _ _) h' hck
        rcases List.mem_cons.mp he with rfl | he'
        · exact hk'k0
        · rcases hm with _ | ⟨h0, _⟩
          exact cmp_lt_trans_of hc.symm (hc.transAt _ _ _) hk'k0 (h0 e he')
      · rw [if_neg h']
    | eq =>
      simp only [mapRemove, hck]
      by_cases h' : c k' k = .eq
      · rw [if_pos h']
        refine mapGet_none_of_lt hc hrest ?_
        intro e he
        rcases hm with _ | ⟨h0, _⟩
        have hk'k0 : c k' k0 = .eq :=
          cmp_eq_trans_of hc.symm (hc.transAt _ _ _) (hc.transAt _ _ _) h' hck
        exact cmp_lt_of_eq_of_lt hc.symm (hc.transAt _ _ _) hk'k0 (h0 e he)
      · have h0' : c k' k0 ≠ .eq := fun he =>
          h' (cmp_eq_trans_of hc.symm (hc.transAt _ _ _) (hc.transAt _ _ _) he
            (hc.eq_symm hck))
        rw [if_neg h', mapGet_cons, if_neg h0']
    | gt =>
      simp only [mapRemove, hck]
      rw [mapGet_cons]
      by_cases h0' : c k' k0 = .eq
      · have h' : c k' k ≠ .eq := fun he => by
          have : c k k0 = .eq :=
            cmp_eq_trans_of hc.symm (hc.transAt _ _ _) (hc.transAt _ _ _)
              (hc.eq_symm he) h0'
          rw [hck] at this; exact Ordering.noConfusion this
        rw [if_pos h0', if_neg h', mapGet_cons, if_pos h0']
      · rw [if_neg h0', mapGet_remove hc k k' rest hrest,
          mapGet_head_lt_cons hc h0']

theorem mapAlter_keys {c : κ → κ → Ordering} {k : κ} {f : Option ν → ν} :
    ∀ {m : List (κ × ν)}, ∀ e ∈ mapAlter c k f m,
      e.1 = k ∨ e.1 ∈ m.map Prod.fst
  | [], e, he => by
    simp only [mapAlter, List.mem_singleton] at he
    exact Or.inl (by rw [he])
  | (k0, v0) :: rest, e, he => by
    simp only [mapAlter] at he
    cases hck : c k k0 <;> rw [hck] at he
    · rcases List.mem_cons.mp he with rfl | he'
      · exact Or.inl rfl
      · exact Or.inr (by
          rcases List.mem_cons.mp he' with rfl | he''
          · simp
          · simp [List.mem_map]
            exact Or.inr ⟨e.2, by simpa using he''⟩)
    · rcases List.mem_cons.mp he with rfl | he'
      · simp
      · exact Or.inr (by simp [List.mem_map]; exact Or.inr ⟨e.2, by simpa using he'⟩)
    · rcases List.mem_cons.mp he with rfl | he'
      · simp
      · rcases mapAlter_keys e he' with h | h
        · exact Or.inl h
        · exact Or.inr (by simp [h])

theorem mapAlter_sorted {c : κ → κ → Ordering} (hc : LawCmp c) {k : κ}
    {f : Option ν → ν} :
    ∀ {m : List (κ × ν)}, SortedKeys c m → SortedKeys c (mapAlter c k f m)
  | [], _ => List.pairwise_singleton _ _
  | (k0, v0) :: rest, hm => by
    rcases List.pairwise_cons.mp hm with ⟨h0, hrest⟩
    simp only [mapAlter]
    cases hck : c k k0
    · refine List.pairwise_cons.mpr ⟨?_, hm⟩
      intro e he
      rcases List.mem_cons.mp he with rfl | he'
      · exact hck
      · exact cmp_lt_trans_of hc.symm (hc.transAt _ _ _) hck (h0 e he')
    · exact List.pairwise_cons.mpr ⟨fun e he => h0 e he, hrest⟩
    · refine List.pairwise_cons.mpr ⟨?_, mapAlter_sorted hc hrest⟩
      intro e he
      rcases mapAlter_keys e he with h | h
      · rw [h]; exact hc.gt_iff.mp hck
      · rcases List.mem_map.mp h with ⟨e', he', hk⟩
        rw [← hk]; exact h0 (e'.1, e'.2) (by simpa using he')

theorem mapRemove_sublist {c : κ → κ → Ordering} {k : κ} :
    ∀ m : List (κ × ν), (mapRemove c k m).Sublist m
  | [] => List.Sublist.refl _
  | (k0, v0) :: rest => by
    simp only [mapRemove]
    cases c k k0
    · exact List.Sublist.refl _
    · exact List.sublist_cons_self _ _
    · exact List.Sublist.cons₂ _ (mapRemove_sublist rest)

theorem mapRemove_sorted {c : κ → κ → Ordering} {k : κ} {m : List (κ × ν)}
    (hm : SortedKeys c m) : SortedKeys c (mapRemove c k m) :=
  hm.sublist (mapRemove_sublist m)

theorem setMem_cons {c : κ → κ → Ordering} {x y : κ} {s : List κ} :
    setMem c x (y :: s) = (decide (c x y = .eq) || setMem c x s) := by
  simp [setMem]

theorem setMem_false_of_lt {c : κ → κ → Ordering} (hc : LawCmp c) {x : κ} :
    ∀ {s : List κ}, SortedList c s → (∀ e ∈ s, c x e = .lt) →
    setMem c x s = false
  | [], _, _ => rfl
  | y :: rest, hs, hall => by
    rw [setMem_cons, Bool.or_eq_false_iff]
    refine ⟨by simp [hall y (by simp)], ?_⟩
    exact setMem_false_of_lt hc (List.Pairwise.of_cons hs)
      (fun e he => hall e (by simp [he]))

theorem setMem_insert {c : κ → κ → Ordering} (hc : LawCmp c) (x y : κ) :
    ∀ s : List κ,
    setMem c x (setInsert c y s) = (decide (c x y = .eq) || setMem c x s)
  | [] => by simp [setInsert, setMem]
  | z :: rest => by
    cases hyz : c y z
    · simp only [setInsert, hyz, setMem_cons]
    · simp only [setInsert, hyz, setMem_cons]
      by_cases hxz : c x z = .eq
      · have hxy : c x y = .eq :=
          cmp_eq_trans_of hc.symm (hc.transAt _ _ _) (hc.transAt _ _ _) hxz
            (hc.eq_symm hyz)
        simp [hxz, hxy]
      · have hxy : c x y ≠ .eq := fun he =>
          hxz (cmp_eq_trans_of hc.symm (hc.transAt _ _ _) (hc.transAt _ _ _) he
            hyz)
        simp [hxz, hxy]
    · simp only [setInsert, hyz, setMem_cons, setMem_insert hc x y rest]
      cases decide (c x y = .eq) <;> cases decide (c x z = .eq) <;>
        cases setMem c x rest <;> rfl

theorem setMem_remove {c : κ → κ → Ordering} (hc : LawCmp c) (x y : κ) :
    ∀ s : List κ, SortedList c s →
    setMem c x (setRemove c y s) = (setMem c x s && !(decide (c x y = .eq)))
  | [], _ => rfl
  | z :: rest, hs => by
    rcases List.pairwise_cons.mp hs with ⟨h0, hrest⟩
    cases hyz : c y z
    · by_cases hxy : c x y = .eq
      · have hxz : c x z = .lt :=
          cmp_lt_of_eq_of_lt hc.symm (hc.transAt _ _ _) hxy hyz
        have hall : setMem c x (z :: rest) = false := by
          refine setMem_false_of_lt hc hs ?_
          intro e he
          rcases List.mem_cons.mp he with rfl | he'
          · exact hxz
          · exact cmp_lt_trans_of hc.symm (hc.transAt _ _ _) hxz (h0 e he')
        simp only [setRemove, hyz, hall, hxy]
        simp [hall]
      · simp only [setRemove, hyz]
        simp [hxy]
    · by_cases hxy : c x y = .eq
      · have hxz : c x z = .eq :=
          cmp_eq_trans_of hc.symm (hc.transAt _ _ _) (hc.transAt _ _ _) hxy hyz
        have hmem : setMem c x rest = false := by
          refine setMem_false_of_lt hc hrest ?_
          intro e he
          exact cmp_lt_of_eq_of_lt hc.symm (hc.transAt _ _ _) hxz (h0 e he)
        simp only [setRemove, hyz]
        simp [hmem, hxy, setMem_cons]
      · have hxz : c x z ≠ .eq := fun he =>
          hxy (cmp_eq_trans_of hc.symm (hc.transAt _ _ _) (hc.transAt _ _ _) he
            (hc.eq_symm hyz))
        simp only [setRemove, hyz, setMem_cons]
        simp [hxz, hxy]
    · simp only [setRemove, hyz, setMem_cons, setMem_remove hc x y rest hrest]
      by_cases hxz : c x z = .eq
      · have hxy : c x y ≠ .eq := fun he => by
          have hzy : c z y = .eq :=
            hc.eq_symm (cmp_eq_trans_of hc.symm (hc.transAt _ _ _)
              (hc.transAt _ _ _) (hc.eq_symm he) hxz)
          rw [hc.gt_iff] at hyz
          rw [hzy] at hyz; exact Ordering.noConfusion hyz
        simp [hxz, hxy]
      · simp [hxz]

theorem setInsert_keys {c : κ → κ → Ordering} {y : κ} :
    ∀ {s : List κ}, ∀ e ∈ setInsert c y s, e = y ∨ e ∈ s
  | [], e, he => by
    simp only [setInsert, List.mem_singleton] at he
    exact Or.inl he
  | z :: rest, e, he => by
    simp only [setInsert] at he
    cases hyz : c y z <;> rw [hyz] at he
    · rcases List.mem_cons.mp he with rfl | he'
      · exact Or.inl rfl
      · exact Or.inr he'
    · exact Or.inr he
    · rcases List.mem_cons.mp he with rfl | he'
      · exact Or.inr (by simp)
      · rcases setInsert_keys e he' with h | h
        · exact Or.inl h
        · exact Or.inr (by simp [h])

theorem setInsert_sorted {c : κ → κ → Ordering} (hc : LawCmp c) {y : κ} :
    ∀ {s : List κ}, SortedList c s → SortedList c (setInsert c y s)
  | [], _ => List.pairwise_singleton _ _
  | z :: rest, hs => by
    rcases List.pairwise_cons.mp hs with ⟨h0, hrest⟩
    simp only [setInsert]
    cases hyz : c y z
    · refine List.pairwise_cons.mpr ⟨?_, hs⟩
      intro e he
      rcases List.mem_cons.mp he with rfl | he'
      · exact hyz
      · exact cmp_lt_trans_of hc.symm (hc.transAt _ _ _) hyz (h0 e he')
    · exact hs
    · refine List.pairwise_cons.mpr ⟨?_, setInsert_sorted hc hrest⟩
      intro e he
      rcases setInsert_keys e he with rfl | h
      · exact hc.gt_iff.mp hyz
      · exact h0 e h

theorem setRemove_sublist {c : κ → κ → Ordering} {y : κ} :
    ∀ s : List κ, (setRemove c y s).Sublist s
  | [] => List.Sublist.refl _
  | z :: rest => by
    simp only [setRemove]
    cases c y z
    · exact List.Sublist.refl _
    · exact List.sublist_cons_self _ _
    · exact List.Sublist.cons₂ _ (setRemove_sublist rest)

theorem setRemove_sorted {c : κ → κ → Ordering} {y : κ} {s : List κ}
    (hs : SortedList c s) : SortedList c (setRemove c y s) :=
  hs.sublist (setRemove_sublist s)

theorem mapGet_mem {c : κ → κ → Ordering} {k : κ} {v : ν} :
    ∀ {m : List (κ × ν)}, mapGet c k m = some v → ∃ k', (k', v) ∈ m
  | [], h => by simp [mapGet] at h
  | (k0, v0) :: rest, h => by
    rw [mapGet_cons] at h
    by_cases h0 : c k k0 = .eq
    · rw [if_pos h0] at h
      injection h with h
      exact ⟨k0, by simp [h]⟩
    · rw [if_neg h0] at h
      obtain ⟨k', hk'⟩ := mapGet_mem h
      exact ⟨k', by simp [hk']⟩

/-! ## Errors (error.rs `CoreError`) -/

inductive CoreError where
  | TableNotFound (s : String)
  | DocumentNotFound (s : String)
  | DuplicateDocument (s : String)
  | SchemaViolation (s : String)
  | InvalidFieldName (s : String)
  | TransactionConflict (s : String)
  | IndexError (s : String)
deriving DecidableEq

/-! ## Schema (schema/mod.rs) -/

/-- User field maps: `BTreeMap<String, ConvexValue>`, keys sorted. -/
def FieldMap := List (String × Value)

/-- `FieldType`.  A `FieldDefinition` `{field_type, optional}` is modelled
as the pair `FieldType × Bool`; `Object` carries its nested field
definitions as a sorted association list. `LiteralNumber` carries the
`f64` payload. -/
inductive FieldType where
  | String
  | Number
  | Boolean
  | Null
  | Bytes
  | Id (table : String)
  | Array (element : FieldType)
  | Object (defs : List (String × FieldType × Bool))
  | Union (variants : List FieldType)
  | LiteralString (s : String)
  | LiteralNumber (n : F64)
  | LiteralBool (b : Bool)
  | Any

/-- `TableSchema { fields, strict }`; fields sorted by name. -/
structure TableSchema where
  fields : List (String × FieldType × Bool)
  strict : Bool

/-- `SchemaDefinition { tables }`, sorted by table name. -/
structure SchemaDefinition where
  tables : List (String × TableSchema)

def SchemaDefinition.get_table_schema (sd : SchemaDefinition) (t : String) :
    Option TableSchema :=
  mapGet scmp t sd.tables

def Value.type_name : Value → String
  | .null => "null"
  | .int _ => "int64"
  | .float _ => "float64"
  | .boolean _ => "boolean"
  | .str _ => "string"
  | .bytes _ => "bytes"
  | .arr _ => "array"
  | .obj _ => "object"

def field_type_name : FieldType → String
  | .String => "string"
  | .Number => "number"
  | .Boolean => "boolean"
  | .Null => "null"
  | .Bytes => "bytes"
  | .Id _ => "id"
  | .Array _ => "array"
  | .Object _ => "object"
  | .Union _ => "union"
  | .LiteralString _ => "literal_string"
  | .LiteralNumber _ => "literal_number"
  | .LiteralBool _ => "literal_bool"
  | .Any => "any"

def type_error (path expected : String) (got : Value) : String :=
  "field `" ++ path ++ "`: expected " ++ expected ++ ", got " ++ got.type_name

/-- Placeholder for Rust's `Display` formatting of an `f64` inside
literal-mismatch messages (the exact digits are not modelled; no claim
depends on them). -/
def showF64 (_ : F64) : String := "<f64>"

/-- `f64::EPSILON` = 2^-52. -/
def f64Epsilon : ℚ := 1 / 2 ^ 52

/-- The rational content of a finite double. -/
def F64.toRatQ : F64 → Option ℚ
  | .zero _ => some 0
  | .fin q => some q
  | _ => none

/-- `(f - expected).abs() < f64::EPSILON`: false whenever NaN or an
infinity is involved (NaN comparisons are false; `inf - x` is infinite,
`inf - inf` is NaN). -/
def nearEps (f e : F64) : Bool :=
  match f.toRatQ, e.toRatQ with
  | some qf, some qe => decide (|qf - qe| < f64Epsilon)
  | _, _ => false

/-- Rust `str::starts_with(char)`, modelled on the character list. -/
def startsWithChar (s : String) (c : Char) : Bool :=
  match s.data with
  | [] => false
  | c0 :: _ => c0 == c

/-- Rust `str::starts_with(&str)`, modelled on the character lists. -/
def strIsPre (p s : String) : Bool := p.data.isPrefixOf s.data

def exceptIsOk : Except String Unit → Bool
  | .ok _ => true
  | .error _ => false

/-- Nested required-field check of the `FieldType::Object` arm:
`"field `path.key`: required but missing"`. -/
def check_required (path : String) (kvs : List (String × Value)) :
    List (String × FieldType × Bool) → Except String Unit
  | [] => .ok ()
  | (key, _, opt) :: rest =>
    if !opt && (mapGet scmp key kvs).isNone then
      .error ("field `" ++ path ++ "." ++ key ++ "`: required but missing")
    else check_required path kvs rest

mutual

/-- `validate_value` (schema/mod.rs): recursive value validation. -/
def validate_value (v : Value) (expected : FieldType) (path : String) :
    Except String Unit :=
  match expected with
  | .Any => .ok ()
  | .Null =>
    match v with
    | .null => .ok ()
    | _ => .error (type_error path "null" v)
  | .String =>
    match v with
    | .str _ => .ok ()
    | _ => .error (type_error path "string" v)
  | .Number =>
    match v with
    | .int _ => .ok ()
    | .float _ => .ok ()
    | _ => .error (type_error path "number" v)
  | .Boolean =>
    match v with
    | .boolean _ => .ok ()
    | _ => .error (type_error path "boolean" v)
  | .Bytes =>
    match v with
    | .bytes _ => .ok ()
    | _ => .error (type_error path "bytes" v)
  | .Id table =>
    match v with
    | .str s =>
      if strIsPre (table ++ ":") s then .ok ()
      else .error ("field `" ++ path ++ "`: expected Id reference to table `"
        ++ table ++ "`, got different reference")
    | _ => .error (type_error path ("Id<" ++ table ++ ">") v)
  | .Array element =>
    match v with
    | .arr items => validate_items element items path 0
    | _ => .error (type_error path "array" v)
  | .Object defs =>
    match v with
    | .obj kvs =>
      match check_required path kvs defs with
      | .error e => .error e
      | .ok () => validate_obj_fields defs kvs path
    | _ => .error (type_error path "object" v)
  | .Union variants =>
    if validate_union_any variants v path then .ok ()
    else .error ("field `" ++ path ++ "`: expected one of ["
      ++ String.intercalate ", " (variants.map field_type_name) ++ "], got "
      ++ v.type_name)
  | .LiteralString expected_val =>
    match v with
    | .str s =>
      if s = expected_val then .ok ()
      else .error ("field `" ++ path ++ "`: expected literal \""
        ++ expected_val ++ "\", got \"" ++ s ++ "\"")
    | _ => .error (type_error path ("literal \"" ++ expected_val ++ "\"") v)
  | .LiteralNumber expected_val =>
    match v with
    | .float f =>
      if nearEps f expected_val then .ok ()
      else .error (type_error path ("literal " ++ showF64 expected_val) v)
    | .int i =>
      if nearEps (castF i) expected_val then .ok ()
      else .error (type_error path ("literal " ++ showF64 expected_val) v)
    | _ => .error (type_error path ("literal " ++ showF64 expected_val) v)
  | .LiteralBool expected_val =>
    match v with
    | .boolean b =>
      if b = expected_val then .ok ()
      else .error (type_error path
        ("literal " ++ (if expected_val then "true" else "false")) v)
    | _ => .error (type_error path
        ("literal " ++ (if expected_val then "true" else "false")) v)
termination_by (sizeOf expected, 1, 0)

/-- The `Array(T)` element loop, with `field[i]` paths. -/
def validate_items (element : FieldType) (items : List Value) (path : String)
    (i : ℕ) : Except String Unit :=
  match items with
  | [] => .ok ()
  | item :: rest =>
    match validate_value item element (path ++ "[" ++ toString i ++ "]") with
    | .error e => .error e
    | .ok () => validate_items element rest path (i + 1)
termination_by (sizeOf element, 2, sizeOf items)

/-- The `Object(schema)` per-key loop: declared keys are validated,
undeclared keys inside nested objects are always allowed. -/
def validate_obj_fields (defs : List (String × FieldType × Bool))
    (kvs : List (String × Value)) (path : String) : Except String Unit :=
  match kvs with
  | [] => .ok ()
  | (key, val) :: rest =>
    match h : mapGet scmp key defs with
    | some d =>
      have hlt : sizeOf d.1 < sizeOf defs := by
        obtain ⟨k', hk'⟩ := mapGet_mem h
        have h1 := List.sizeOf_lt_of_mem hk'
        have h2 : sizeOf d.1 ≤ sizeOf (k', d) := by
          obtain ⟨dt, db⟩ := d
          simp [Prod.mk.sizeOf_spec]
          omega
        omega
      match validate_value val d.1 (path ++ "." ++ key) with
      | .error e => .error e
      | .ok () => validate_obj_fields defs rest path
    | none => validate_obj_fields defs rest path
termination_by (sizeOf defs, 2, sizeOf kvs)

/-- The `Union(variants)` scan: passes if any variant validates. -/
def validate_union_any (variants : List FieldType) (v : Value)
    (path : String) : Bool :=
  match variants with
  | [] => false
  | t :: rest =>
    exceptIsOk (validate_value v t path) || validate_union_any rest v path
termination_by (sizeOf variants, 0, 0)

end

/-- The top-level required-field check of `validate_document`:
`"missing required field: `name`"`. -/
def check_required_top (fields : List (String × Value)) :
    List (String × FieldType × Bool) → Except String Unit
  | [] => .ok ()
  | (name, _, opt) :: rest =>
    if !opt && (mapGet scmp name fields).isNone then
      .error ("missing required field: `" ++ name ++ "`")
    else check_required_top fields rest

/-- The per-key loop of `validate_document`: underscore check, declared
keys validated, unknown keys rejected under a strict schema. -/
def validate_fields_loop (schema : TableSchema) :
    List (String × Value) → Except String Unit
  | [] => .ok ()
  | (k, v) :: rest =>
    if startsWithChar k '_' then
      .error ("field names cannot start with underscore: `" ++ k ++ "`")
    else
      match mapGet scmp k schema.fields with
      | some d =>
        match validate_value v d.1 k with
        | .error e => .error e
        | .ok () => validate_fields_loop schema rest
      | none =>
        if schema.strict then
          .error ("unknown field `" ++ k ++ "` in strict schema")
        else validate_fields_loop schema rest

/-- `validate_document` (schema/mod.rs). -/
def validate_document (fields : List (String × Value))
    (schema : TableSchema) : Except String Unit :=
  match check_required_top fields schema.fields with
  | .error e => .error e
  | .ok () => validate_fields_loop schema fields

/-! ## Documents (values/id.rs, document.rs) -/

/-- `DocumentId { table, id }`. -/
structure DocumentId where
  table : String
  id : String
deriving DecidableEq

/-- `Display for DocumentId`: `table:id`. -/
def DocumentId.toDisplay (d : DocumentId) : String := d.table ++ ":" ++ d.id

/-- `Document { id, creation_time, fields }`; user fields sorted by key. -/
structure Document where
  id : DocumentId
  creation_time : F64
  fields : List (String × Value)

/-- `Document::get` (user fields only). -/
def Document.get (d : Document) (field : String) : Option Value :=
  mapGet scmp field d.fields

/-- `Document::set`: rejects underscore-prefixed (system) field names. -/
def Document.set (d : Document) (field : String) (value : Value) :
    Except CoreError Document :=
  if startsWithChar field '_' then
    .error (.InvalidFieldName ("cannot set system field: " ++ field))
  else .ok { d with fields := mapInsert scmp field value d.fields }

/-- `Document::replace_fields` (no underscore check). -/
def Document.replace_fields (d : Document) (fields : List (String × Value)) :
    Document :=
  { d with fields := fields }

/-! ## Tables (table.rs) -/

/-- `Table { name, docs }`; docs sorted by local id. -/
structure Table where
  name : String
  docs : List (String × Document)

def Table.insert (t : Table) (doc : Document) : Except CoreError Table :=
  if (mapGet scmp doc.id.id t.docs).isSome then
    .error (.DuplicateDocument doc.id.toDisplay)
  else .ok { t with docs := mapInsert scmp doc.id.id doc t.docs }

def Table.get (t : Table) (id : String) : Except CoreError Document :=
  match mapGet scmp id t.docs with
  | some d => .ok d
  | none => .error (.DocumentNotFound (t.name ++ ":" ++ id))

def Table.replace (t : Table) (id : String) (fields : List (String × Value)) :
    Except CoreError Table :=
  match mapGet scmp id t.docs with
  | none => .error (.DocumentNotFound (t.name ++ ":" ++ id))
  | some d => .ok { t with docs := mapInsert scmp id (d.replace_fields fields) t.docs }

/-- The `Table::patch` loop body: `doc.set(key, value)?` for each entry of
the patch map in `BTreeMap` iteration order.  Mutation is in place, so
keys merged before the first failing (underscore-prefixed) key stay
merged. -/
def patchApply (d : Document) :
    List (String × Value) → Document × Option CoreError
  | [] => (d, none)
  | (k, v) :: rest =>
    if startsWithChar k '_' then
      (d, some (.InvalidFieldName ("cannot set system field: " ++ k)))
    else patchApply { d with fields := mapInsert scmp k v d.fields } rest

/-- `Table::patch`: the table keeps the partially patched document even
when the loop fails. -/
def Table.patch (t : Table) (id : String) (fields : List (String × Value)) :
    Table × Except CoreError Unit :=
  match mapGet scmp id t.docs with
  | none => (t, .error (.DocumentNotFound (t.name ++ ":" ++ id)))
  | some d =>
    let r := patchApply d fields
    ({ t with docs := mapInsert scmp id r.1 t.docs },
      match r.2 with
      | none => .ok ()
      | some err => .error err)

def Table.delete (t : Table) (id : String) :
    Except CoreError (Table × Document) :=
  match mapGet scmp id t.docs with
  | none => .error (.DocumentNotFound (t.name ++ ":" ++ id))
  | some d => .ok ({ t with docs := mapRemove scmp id t.docs }, d)

def Table.list (t : Table) : List Document := t.docs.map Prod.snd

def Table.len (t : Table) : ℕ := t.docs.length

def Table.contains (t : Table) (id : String) : Bool :=
  (mapGet scmp id t.docs).isSome

/-! ## Secondary indexes (index/mod.rs, index/registry.rs) -/

/-- The comparator of `IndexValue` (`#[derive(Ord)]` on
`IndexValue(Vec<ConvexValue>)`): lexicographic `ConvexValue` order. -/
def kcmp : List Value → List Value → Ordering := lexCmp Value.cmp

theorem lawCmp_kcmp : LawCmp kcmp := lexCmp_lawful lawCmp_cmp

structure IndexDefinition where
  name : String
  table : String
  fields : List String
deriving DecidableEq

/-- `Index { definition, entries }`: composite key to sorted id set,
entries sorted by key. -/
structure Index where
  definition : IndexDefinition
  entries : List (List Value × List String)

/-- `Index::extract_key`: the declared fields in order, missing fields
contributing `Null`. -/
def Index.extract_key (idx : Index) (fields : List (String × Value)) :
    List Value :=
  idx.definition.fields.map (fun fn => (mapGet scmp fn fields).getD .null)

/-- `Index::insert`: add the id to the set at the extracted key
(`entry(key).or_default().insert(doc_id)`). -/
def Index.insert (idx : Index) (doc_id : String)
    (fields : List (String × Value)) : Index :=
  { idx with entries :=
      (mapAlter kcmp (idx.extract_key fields)
        (fun o => setInsert scmp doc_id (o.getD [])) idx.entries) }

/-- `Index::remove`: drop the id from the set at the key extracted from
the old fields; erase the entry if the set becomes empty. -/
def Index.remove (idx : Index) (doc_id : String)
    (fields : List (String × Value)) : Index :=
  let key := idx.extract_key fields
  match mapGet kcmp key idx.entries with
  | none => idx
  | some ids =>
    let ids' := setRemove scmp doc_id ids
    if ids'.isEmpty then { idx with entries := mapRemove kcmp key idx.entries }
    else { idx with entries := mapInsert kcmp key ids' idx.entries }

/-- `Index::update` = remove with old fields, insert with new fields. -/
def Index.update (idx : Index) (doc_id : String)
    (old_fields new_fields : List (String × Value)) : Index :=
  (idx.remove doc_id old_fields).insert doc_id new_fields

/-- `Index::lookup`: point query at the exact composite key. -/
def Index.lookup (idx : Index) (values : List Value) : List String :=
  (mapGet kcmp values idx.entries).getD []

/-- The contiguous segment `BTreeMap::range((Included l, Excluded u))`
walks on the ordered entries. -/
def rangeSeg : Option (List Value) → Option (List Value) →
    List (List Value × List String) → List (List Value × List String)
  | none, none, entries => entries
  | some l, none, entries =>
    entries.dropWhile (fun e => decide (kcmp e.1 l = Ordering.lt))
  | none, some u, entries =>
    entries.takeWhile (fun e => decide (kcmp e.1 u = Ordering.lt))
  | some l, some u, entries =>
    (entries.dropWhile
      (fun e => decide (kcmp e.1 l = Ordering.lt))).takeWhile
      (fun e => decide (kcmp e.1 u = Ordering.lt))

/-- `Index::range`: half-open `[lower, upper)` scan, flattening the id
sets in ascending key order.  `BTreeMap::range` *panics* when
`lower > upper`; the panic is modelled as `none`. -/
def Index.range (idx : Index) (lower upper : Option (List Value)) :
    Option (List String) :=
  match lower, upper with
  | some l, some u =>
    if kcmp l u = .gt then none
    else some (((rangeSeg (some l) (some u) idx.entries).map Prod.snd).join)
  | l, u => some (((rangeSeg l u idx.entries).map Prod.snd).join)

/-- `IndexRegistry { indexes }`, sorted by index name. -/
structure IndexRegistry where
  indexes : List (String × Index)

def IndexRegistry.add_index (r : IndexRegistry) (d : IndexDefinition) :
    Except CoreError IndexRegistry :=
  if (mapGet scmp d.name r.indexes).isSome then
    .error (.IndexError ("index already exists: " ++ d.name))
  else .ok ⟨mapInsert scmp d.name (Index.mk d []) r.indexes⟩

def IndexRegistry.remove_index (r : IndexRegistry) (name : String) :
    Except CoreError IndexRegistry :=
  if (mapGet scmp name r.indexes).isSome then
    .ok ⟨mapRemove scmp name r.indexes⟩
  else .error (.IndexError ("index not found: " ++ name))

def IndexRegistry.get_index (r : IndexRegistry) (name : String) :
    Except CoreError Index :=
  match mapGet scmp name r.indexes with
  | some idx => .ok idx
  | none => .error (.IndexError ("index not found: " ++ name))

def IndexRegistry.on_insert (r : IndexRegistry) (doc_id : String)
    (fields : List (String × Value)) : IndexRegistry :=
  ⟨r.indexes.map (fun e : String × Index => (e.1, e.2.insert doc_id fields))⟩

def IndexRegistry.on_remove (r : IndexRegistry) (doc_id : String)
    (fields : List (String × Value)) : IndexRegistry :=
  ⟨r.indexes.map (fun e : String × Index => (e.1, e.2.remove doc_id fields))⟩

def IndexRegistry.on_update (r : IndexRegistry) (doc_id : String)
    (old_fields new_fields : List (String × Value)) : IndexRegistry :=
  ⟨r.indexes.map (fun e : String × Index =>
    (e.1, e.2.update doc_id old_fields new_fields))⟩

/-! ## The database (database.rs)

`HashMap<TableName, _>` is modelled as a key-sorted association list; only
`get` / `entry` / `contains_key` are used, so the ordering is
observationally irrelevant.  The boundary inputs (UUID v7 id generation
and the wall-clock time source) are passed as explicit arguments.
Mutating operations return the (possibly partially) mutated database
together with the `Result`, which preserves the source behaviour of
`insert` / `insert_with_id` updating the index registry *before* the
fallible table insert. -/

structure Database where
  tables : List (String × Table)
  indexes : List (String × IndexRegistry)
  schema : Option SchemaDefinition

def Database.new : Database := ⟨[], [], none⟩

/-- `Database::create_table` (idempotent). -/
def Database.create_table (db : Database) (name : String) : Database :=
  { db with
    tables :=
      if (mapGet scmp name db.tables).isSome then db.tables
      else mapInsert scmp name (Table.mk name []) db.tables,
    indexes :=
      if (mapGet scmp name db.indexes).isSome then db.indexes
      else mapInsert scmp name (IndexRegistry.mk []) db.indexes }

def Database.set_schema (db : Database) (schema : SchemaDefinition) : Database :=
  { db with schema := some schema }

/-- `Database::validate_fields`: validation only when a schema is set and
declares the table. -/
def Database.validate_fields (db : Database) (table : String)
    (fields : List (String × Value)) : Except CoreError Unit :=
  match db.schema with
  | some schema =>
    match schema.get_table_schema table with
    | some table_schema =>
      match validate_document fields table_schema with
      | .error msg => .error (.SchemaViolation (table ++ ": " ++ msg))
      | .ok () => .ok ()
    | none => .ok ()
  | none => .ok ()

/-- `Database::insert`; `genId` is the boundary UUID v7 draw and `time`
the wall clock.  Faithful to the source order: validate, notify the index
registry, then the fallible table insert. -/
def Database.insert (db : Database) (table : String) (genId : String)
    (time : F64) (fields : List (String × Value)) :
    Database × Except CoreError DocumentId :=
  match db.validate_fields table fields with
  | .error e => (db, .error e)
  | .ok () =>
    let doc_id : DocumentId := ⟨table, genId⟩
    let doc : Document := ⟨doc_id, time, fields⟩
    let db1 :=
      match mapGet scmp table db.indexes with
      | some registry =>
        { db with indexes :=
            mapInsert scmp table (registry.on_insert genId fields) db.indexes }
      | none => db
    match mapGet scmp table db1.tables with
    | none => (db1, .error (.TableNotFound table))
    | some t =>
      match t.insert doc with
      | .error e => (db1, .error e)
      | .ok t' =>
        ({ db1 with tables := mapInsert scmp table t' db1.tables }, .ok doc_id)

/-- `Database::insert_with_id`: caller-chosen id, same (bugged) order of
index notification before the fallible table insert. -/
def Database.insert_with_id (db : Database) (id : DocumentId) (time : F64)
    (fields : List (String × Value)) : Database × Except CoreError Unit :=
  match db.validate_fields id.table fields with
  | .error e => (db, .error e)
  | .ok () =>
    let doc : Document := ⟨id, time, fields⟩
    let db1 :=
      match mapGet scmp id.table db.indexes with
      | some registry =>
        { db with indexes :=
            mapInsert scmp id.table (registry.on_insert id.id fields) db.indexes }
      | none => db
    match mapGet scmp id.table db1.tables with
    | none => (db1, .error (.TableNotFound id.table))
    | some t =>
      match t.insert doc with
      | .error e => (db1, .error e)
      | .ok t' =>
        ({ db1 with tables := mapInsert scmp id.table t' db1.tables }, .ok ())

/-- `Database::get`. -/
def Database.get (db : Database) (id : DocumentId) :
    Except CoreError Document :=
  match mapGet scmp id.table db.tables with
  | none => .error (.TableNotFound id.table)
  | some t => t.get id.id

/-- `Database::replace`: validate, capture old fields, overwrite, update
indexes with the old→new diff. -/
def Database.replace (db : Database) (id : DocumentId)
    (fields : List (String × Value)) : Database × Except CoreError Unit :=
  match db.validate_fields id.table fields with
  | .error e => (db, .error e)
  | .ok () =>
    match mapGet scmp id.table db.tables with
    | none => (db, .error (.TableNotFound id.table))
    | some t =>
      match t.get id.id with
      | .error e => (db, .error e)
      | .ok oldDoc =>
        match t.replace id.id fields with
        | .error e => (db, .error e)
        | .ok t' =>
          let db1 := { db with tables := mapInsert scmp id.table t' db.tables }
          match t'.get id.id with
          | .error e => (db1, .error e)
          | .ok newDoc =>
            match mapGet scmp id.table db1.indexes with
            | some reg =>
              ({ db1 with indexes :=
                  (mapInsert scmp id.table
                    (reg.on_update id.id oldDoc.fields newDoc.fields)
                    db1.indexes) }, .ok ())
            | none => (db1, .ok ())

/-- `Database::patch`: capture old fields, merge (the table keeps a
partial merge when the patch loop fails), update indexes, then re-validate
the merged document without rollback. -/
def Database.patch (db : Database) (id : DocumentId)
    (fields : List (String × Value)) : Database × Except CoreError Unit :=
  match mapGet scmp id.table db.tables with
  | none => (db, .error (.TableNotFound id.table))
  | some t =>
    match t.get id.id with
    | .error e => (db, .error e)
    | .ok oldDoc =>
      let r := t.patch id.id fields
      let db1 := { db with tables := mapInsert scmp id.table r.1 db.tables }
      match r.2 with
      | .error e => (db1, .error e)
      | .ok () =>
        match r.1.get id.id with
        | .error e => (db1, .error e)
        | .ok newDoc =>
          let db2 :=
            match mapGet scmp id.table db1.indexes with
            | some reg =>
              { db1 with indexes :=
                  (mapInsert scmp id.table
                    (reg.on_update id.id oldDoc.fields newDoc.fields)
                    db1.indexes) }
            | none => db1
          match db2.schema with
          | some schema =>
            match schema.get_table_schema id.table with
            | some table_schema =>
              match validate_document newDoc.fields table_schema with
              | .error msg =>
                (db2, .error (.SchemaViolation (id.table ++ ": " ++ msg)))
              | .ok () => (db2, .ok ())
            | none => (db2, .ok ())
          | none => (db2, .ok ())

/-- `Database::delete`. -/
def Database.delete (db : Database) (id : DocumentId) :
    Database × Except CoreError Document :=
  match mapGet scmp id.table db.tables with
  | none => (db, .error (.TableNotFound id.table))
  | some t =>
    match t.delete id.id with
    | .error e => (db, .error e)
    | .ok td =>
      let db1 := { db with tables := mapInsert scmp id.table td.1 db.tables }
      match mapGet scmp id.table db1.indexes with
      | some reg =>
        ({ db1 with indexes :=
            (mapInsert scmp id.table
              (reg.on_remove id.id td.2.fields) db1.indexes) }, .ok td.2)
      | none => (db1, .ok td.2)

/-- `Database::create_index`: table must exist, duplicate names rejected,
back-fill from current contents in id order. -/
def Database.create_index (db : Database) (d : IndexDefinition) :
    Database × Except CoreError Unit :=
  match mapGet scmp d.table db.tables with
  | none => (db, .error (.TableNotFound d.table))
  | some t =>
    let reg0 := (mapGet scmp d.table db.indexes).getD ⟨[]⟩
    match reg0.add_index d with
    | .error e =>
      ({ db with indexes := mapInsert scmp d.table reg0 db.indexes }, .error e)
    | .ok reg1 =>
      match mapGet scmp d.name reg1.indexes with
      | none =>
        ({ db with indexes := mapInsert scmp d.table reg1 db.indexes },
          .error (.IndexError ("index not found: " ++ d.name)))
      | some idx =>
        let idx' := t.docs.foldl (fun i e => i.insert e.1 e.2.fields) idx
        let reg2 : IndexRegistry := ⟨mapInsert scmp d.name idx' reg1.indexes⟩
        ({ db with indexes := mapInsert scmp d.table reg2 db.indexes }, .ok ())

/-! ## Decidable structural equality for `Value` (model infrastructure;
distinct from `PartialEq`, which is `Value.valueEq`) -/

mutual

def Value.beqS : Value → Value → Bool
  | .null, .null => true
  | .int a, .int b => a == b
  | .float a, .float b => a == b
  | .boolean a, .boolean b => a == b
  | .str a, .str b => a == b
  | .bytes a, .bytes b => a == b
  | .arr a, .arr b => Value.beqSList a b
  | .obj a, .obj b => Value.beqSObj a b
  | _, _ => false

def Value.beqSList : List Value → List Value → Bool
  | [], [] => true
  | a :: as, b :: bs => Value.beqS a b && Value.beqSList as bs
  | _, _ => false

def Value.beqSObj : List (String × Value) → List (String × Value) → Bool
  | [], [] => true
  | (ka, va) :: as, (kb, vb) :: bs =>
    ka == kb && Value.beqS va vb && Value.beqSObj as bs
  | _, _ => false

end

mutual

theorem Value.beqS_iff : ∀ a b : Value, Value.beqS a b = true ↔ a = b := by
  intro a b
  cases a <;> cases b <;> try simp [Value.beqS]
  · show Value.beqSList _ _ = true ↔ _
    rw [Value.beqSList_iff]
  · show Value.beqSObj _ _ = true ↔ _
    rw [Value.beqSObj_iff]

theorem Value.beqSList_iff : ∀ xs ys : List Value,
    Value.beqSList xs ys = true ↔ xs = ys
  | [], [] => by simp [Value.beqSList]
  | [], _ :: _ => by simp [Value.beqSList]
  | _ :: _, [] => by simp [Value.beqSList]
  | x :: xs, y :: ys => by
    simp [Value.beqSList, Bool.and_eq_true, Value.beqS_iff x y,
      Value.beqSList_iff xs ys]

theorem Value.beqSObj_iff : ∀ xs ys : List (String × Value),
    Value.beqSObj xs ys = true ↔ xs = ys
  | [], [] => by simp [Value.beqSObj]
  | [], _ :: _ => by simp [Value.beqSObj]
  | _ :: _, [] => by simp [Value.beqSObj]
  | (ka, va) :: xs, (kb, vb) :: ys => by
    simp [Value.beqSObj, Bool.and_eq_true, Value.beqS_iff va vb,
      Value.beqSObj_iff xs ys, and_assoc]

end

instance : DecidableEq Value := fun a b =>
  decidable_of_iff (Value.beqS a b = true) (Value.beqS_iff a b)

instance : DecidableEq Document := fun a b => by
  rcases a with ⟨ia, ca, fa⟩; rcases b with ⟨ib, cb, fb⟩
  exact decidable_of_iff (ia = ib ∧ ca = cb ∧ fa = fb) (by simp)

instance {ε α : Type _} [DecidableEq ε] [DecidableEq α] :
    DecidableEq (Except ε α)
  | .ok x, .ok y => decidable_of_iff (x = y) (by simp)
  | .error x, .error y => decidable_of_iff (x = y) (by simp)
  | .ok _, .error _ => isFalse (fun h => Except.noConfusion h)
  | .error _, .ok _ => isFalse (fun h => Except.noConfusion h)

/-! ## Patch semantics (claims C6, C10) -/

/-- The merge `old ∪ P` with `P` winning: fold `BTreeMap::insert` over the
patch entries in iteration order. -/
def mergePatched (old : List (String × Value)) (P : List (String × Value)) :
    List (String × Value) :=
  P.foldl (fun acc kv => mapInsert scmp kv.1 kv.2 acc) old

theorem patchApply_ok : ∀ (P : List (String × Value)) (d d' : Document),
    patchApply d P = (d', none) →
    d' = { d with fields := mergePatched d.fields P }
  | [], d, d', h => by
    simp only [patchApply, Prod.mk.injEq] at h
    simp [← h.1, mergePatched]
  | (k, v) :: rest, d, d', h => by
    simp only [patchApply] at h
    by_cases hk : startsWithChar k '_'
    · rw [if_pos hk] at h
      simp at h
    · rw [if_neg hk] at h
      have := patchApply_ok rest _ d' h
      rw [this]
      simp [mergePatched]

theorem patchApply_err : ∀ (P : List (String × Value)) (d : Document) (b : String × Value),
    P.find? (fun kv => startsWithChar kv.1 '_') = some b →
    patchApply d P =
      ({ d with fields :=
          mergePatched d.fields (P.takeWhile (fun kv => !startsWithChar kv.1 '_')) },
        some (.InvalidFieldName ("cannot set system field: " ++ b.1)))
  | [], d, b, h => by simp [List.find?] at h
  | (k, v) :: rest, d, b, h => by
    by_cases hk : startsWithChar k '_'
    · rw [List.find?_cons_of_pos _ (by simpa using hk)] at h
      injection h with h
      subst h
      simp only [patchApply, if_pos hk, List.takeWhile_cons, hk,
        Bool.not_true, mergePatched, List.foldl_nil]
      rfl
    · rw [List.find?_cons_of_neg _ (by simpa using hk)] at h
      have hrec := patchApply_err rest
        { d with fields := mapInsert scmp k v d.fields } b h
      simp only [patchApply, if_neg hk, hrec]
      simp [List.takeWhile_cons, hk, mergePatched]

theorem takeWhile_eq_filter_lt {P : List (String × Value)}
    {b : String × Value} (hs : SortedKeys scmp P)
    (hb : P.find? (fun kv => startsWithChar kv.1 '_') = some b) :
    P.takeWhile (fun kv => !startsWithChar kv.1 '_') =
      P.filter (fun kv => decide (scmp kv.1 b.1 = .lt)) := by
  induction P with
  | nil => simp [List.find?] at hb
  | cons hd rest ih =>
    rcases List.pairwise_cons.mp hs with ⟨h0, hrest⟩
    by_cases hk : startsWithChar hd.1 '_'
    · rw [List.find?_cons_of_pos _ (by simpa using hk)] at hb
      injection hb with hb
      subst hb
      have h1 : List.takeWhile (fun kv => !startsWithChar kv.1 '_')
          (hd :: rest) = [] := by
        rw [List.takeWhile_cons]; simp [hk]
      have h2 : List.filter (fun kv => decide (scmp kv.1 hd.1 = .lt))
          (hd :: rest) = [] := by
        rw [List.filter_eq_nil_iff]
        intro e he
        rcases List.mem_cons.mp he with rfl | he'
        · simp [lawCmp_scmp.refl e.1]
        · have hlt0 := h0 e he'
          simp only [decide_eq_true_eq]
          exact fun hlt => lawCmp_scmp.lt_asymm hlt0 hlt
      rw [h1, h2]
    · rw [List.find?_cons_of_neg _ (by simpa using hk)] at hb
      have hmem := List.mem_of_find?_eq_some hb
      have hlt : scmp hd.1 b.1 = .lt := h0 b hmem
      rw [List.takeWhile_cons, List.filter_cons]
      simp [hk, hlt, ih hrest hb]

/-! ## Claim C10: patch is not atomic -/

/-- C10: when the patch map contains an underscore-prefixed key,
`Table::patch` (and hence `Database::patch`) returns `InvalidFieldName`
for the first such key in `BTreeMap` iteration order, but the stored
document keeps every patch entry whose key sorts before the offending
key — the partial merge is not rolled back. -/
theorem C10_patch_partial_merge (db : Database) (tb : String) (t : Table)
    (id : String) (P : List (String × Value)) (d : Document)
    (b : String × Value)
    (hs : SortedKeys scmp P)
    (hsd : SortedKeys scmp t.docs)
    (hsdb : SortedKeys scmp db.tables)
    (hd : mapGet scmp id t.docs = some d)
    (hdbt : mapGet scmp tb db.tables = some t)
    (hb : P.find? (fun kv => startsWithChar kv.1 '_') = some b) :
    (t.patch id P).2 =
      .error (.InvalidFieldName ("cannot set system field: " ++ b.1))
    ∧ mapGet scmp id (t.patch id P).1.docs =
        some { d with fields := (mergePatched d.fields
          (P.filter (fun kv => decide (scmp kv.1 b.1 = .lt)))) }
    ∧ (Database.patch db ⟨tb, id⟩ P).2 =
        .error (.InvalidFieldName ("cannot set system field: " ++ b.1))
    ∧ Database.get (Database.patch db ⟨tb, id⟩ P).1 ⟨tb, id⟩ =
        .ok { d with fields := (mergePatched d.fields
          (P.filter (fun kv => decide (scmp kv.1 b.1 = .lt)))) } := by
  have hperr := patchApply_err P d b hb
  have hfilter := takeWhile_eq_filter_lt hs hb
  have hpatch : t.patch id P =
      ({ t with docs :=
          (mapInsert scmp id
            { d with fields := (mergePatched d.fields
              (P.filter (fun kv => decide (scmp kv.1 b.1 = .lt)))) } t.docs) },
        .error (.InvalidFieldName ("cannot set system field: " ++ b.1))) := by
    simp only [Table.patch, hd, hperr, hfilter]
  have hstored : mapGet scmp id (t.patch id P).1.docs =
      some { d with fields := (mergePatched d.fields
        (P.filter (fun kv => decide (scmp kv.1 b.1 = .lt)))) } := by
    rw [hpatch]
    show mapGet scmp id (mapInsert scmp id _ t.docs) = _
    rw [mapInsert, mapGet_alter lawCmp_scmp id id _ t.docs hsd,
      if_pos (lawCmp_scmp.refl id)]
  have hdbp : Database.patch db ⟨tb, id⟩ P =
      ({ db with tables := (mapInsert scmp tb (t.patch id P).1 db.tables) },
        .error (.InvalidFieldName ("cannot set system field: " ++ b.1))) := by
    simp only [Database.patch, hdbt, Table.get, hd, hpatch]
  refine ⟨by rw [hpatch], hstored, by rw [hdbp], ?_⟩
  rw [hdbp]
  show Database.get _ _ = _
  simp only [Database.get]
  rw [show mapGet scmp tb (mapInsert scmp tb (t.patch id P).1 db.tables) =
      some (t.patch id P).1 from by
    rw [mapInsert, mapGet_alter lawCmp_scmp tb tb _ db.tables hsdb,
      if_pos (lawCmp_scmp.refl tb)]]
  simp only [Table.get, hpatch]
  rw [show mapGet scmp id (mapInsert scmp id
      { d with fields := (mergePatched d.fields
        (P.filter (fun kv => decide (scmp kv.1 b.1 = .lt)))) } t.docs) =
      some { d with fields := (mergePatched d.fields
        (P.filter (fun kv => decide (scmp kv.1 b.1 = .lt)))) } from by
    rw [mapInsert, mapGet_alter lawCmp_scmp id id _ t.docs hsd,
      if_pos (lawCmp_scmp.refl id)]]

instance {c : κ → κ → Ordering} [DecidableEq Ordering] {m : List (κ × ν)} :
    Decidable (SortedKeys c m) := by
  unfold SortedKeys; exact List.instDecidablePairwise m

instance {c : κ → κ → Ordering} {m : List κ} :
    Decidable (SortedList c m) := by
  unfold SortedList; exact List.instDecidablePairwise m

instance : DecidableEq Table := fun a b => by
  rcases a with ⟨na, da⟩; rcases b with ⟨nb, db⟩
  exact decidable_of_iff (na = nb ∧ da = db) (by simp)

instance : DecidableEq Index := fun a b => by
  rcases a with ⟨na, da⟩; rcases b with ⟨nb, db⟩
  exact decidable_of_iff (na = nb ∧ da = db) (by simp)

instance : DecidableEq IndexRegistry := fun a b => by
  rcases a with ⟨da⟩; rcases b with ⟨db⟩
  exact decidable_of_iff (da = db) (by simp)

/-- C10 (witness): patching `{Age: 30}` with `{Age: 31, _bad: 0}` fails
with `InvalidFieldName` yet leaves `Age` updated to 31. -/
theorem C10_witness :
    (Table.patch ⟨"users", [("d1", ⟨⟨"users", "d1"⟩, .fin 0, [("Age", .int 30)]⟩)]⟩
        "d1" [("Age", .int 31), ("_bad", .int 0)]).2 =
      .error (.InvalidFieldName ("cannot set system field: " ++ "_bad"))
    ∧ mapGet scmp "d1"
        (Table.patch ⟨"users", [("d1", ⟨⟨"users", "d1"⟩, .fin 0, [("Age", .int 30)]⟩)]⟩
          "d1" [("Age", .int 31), ("_bad", .int 0)]).1.docs =
      some ⟨⟨"users", "d1"⟩, .fin 0,
        (mergePatched [("Age", .int 30)]
          ([("Age", .int 31), ("_bad", .int 0)].filter
            (fun kv => decide (scmp kv.1 "_bad" = .lt))))⟩ := by
  have h := C10_patch_partial_merge
    ⟨[("users", ⟨"users", [("d1", ⟨⟨"users", "d1"⟩, .fin 0, [("Age", .int 30)]⟩)]⟩)],
      [("users", ⟨[]⟩)], none⟩
    "users" ⟨"users", [("d1", ⟨⟨"users", "d1"⟩, .fin 0, [("Age", .int 30)]⟩)]⟩
    "d1" [("Age", .int 31), ("_bad", .int 0)]
    ⟨⟨"users", "d1"⟩, .fin 0, [("Age", .int 30)]⟩ ("_bad", .int 0)
    (by decide) (by decide) (by decide) (by decide) (by decide) (by decide)
  exact ⟨h.1, h.2.1⟩

/-! ## Claim C6: patch merges -/

/-- C6: for an existing document with user field map `old`, a successful
`Database::patch(id, P)` leaves the document's user fields equal to
`old ∪ P` with `P` winning on keys present in both, and `patch` fails with
`InvalidFieldName` whenever `P` contains an underscore-prefixed key. -/
theorem C6_patch_merges (db : Database) (id : DocumentId)
    (P : List (String × Value)) (t : Table) (d : Document)
    (hsdb : SortedKeys scmp db.tables)
    (hsd : SortedKeys scmp t.docs)
    (ht : mapGet scmp id.table db.tables = some t)
    (hd : mapGet scmp id.id t.docs = some d) :
    ((Database.patch db id P).2 = .ok () →
      Database.get (Database.patch db id P).1 id =
        .ok { d with fields := (mergePatched d.fields P) })
    ∧ ((∃ kv ∈ P, startsWithChar kv.1 '_' = true) →
      ∃ s, (Database.patch db id P).2 = .error (.InvalidFieldName s)) := by
  constructor
  · intro hok
    rcases hpa : patchApply d P with ⟨d', e⟩
    cases e with
    | some err =>
      have : (Database.patch db id P).2 = .error err := by
        simp only [Database.patch, ht, Table.get, hd, Table.patch, hpa]
      rw [this] at hok
      exact absurd hok (fun h => Except.noConfusion h)
    | none =>
      have hd' : d' = { d with fields := (mergePatched d.fields P) } :=
        patchApply_ok P d d' hpa
      subst hd'
      have hT : t.patch id.id P =
          ({ t with docs := (mapInsert scmp id.id
            { d with fields := (mergePatched d.fields P) } t.docs) }, .ok ()) := by
        simp only [Table.patch, hd, hpa]
      have hget : mapGet scmp id.id (mapInsert scmp id.id
          { d with fields := (mergePatched d.fields P) } t.docs) =
          some { d with fields := (mergePatched d.fields P) } := by
        rw [mapInsert, mapGet_alter lawCmp_scmp id.id id.id _ t.docs hsd,
          if_pos (lawCmp_scmp.refl id.id)]
      have key : ∀ dbx : Database,
          dbx.tables = mapInsert scmp id.table
            ({ t with docs := (mapInsert scmp id.id
              { d with fields := (mergePatched d.fields P) } t.docs) })
            db.tables →
          Database.get dbx id =
            .ok { d with fields := (mergePatched d.fields P) } := by
        intro dbx hx
        simp only [Database.get, hx]
        rw [mapInsert, mapGet_alter lawCmp_scmp _ _ _ db.tables hsdb,
          if_pos (lawCmp_scmp.refl id.table)]
        simp only [Table.get, hget]
      simp only [Database.patch, ht, Table.get, hd, hT] at hok ⊢
      simp only [hget] at hok ⊢
      rcases hreg : mapGet scmp id.table db.indexes with _ | reg <;>
        simp only [hreg] at hok ⊢ <;>
        rcases hsch : db.schema with _ | schema <;>
        simp only [hsch] at hok ⊢
      · exact key _ rfl
      · rcases hts : schema.get_table_schema id.table with _ | table_schema <;>
          simp only [hts] at hok ⊢
        · exact key _ rfl
        · rcases hv : validate_document (mergePatched d.fields P) table_schema
            with msg | u <;> simp only [hv] at hok ⊢
          · exact absurd hok (fun h => Except.noConfusion h)
          · exact key _ rfl
      · exact key _ rfl
      · rcases hts : schema.get_table_schema id.table with _ | table_schema <;>
          simp only [hts] at hok ⊢
        · exact key _ rfl
        · rcases hv : validate_document (mergePatched d.fields P) table_schema
            with msg | u <;> simp only [hv] at hok ⊢
          · exact absurd hok (fun h => Except.noConfusion h)
          · exact key _ rfl
  · intro hex
    rcases hex with ⟨kv, hmem, hus⟩
    have hsome : (P.find? (fun kv => startsWithChar kv.1 '_')).isSome := by
      rw [List.find?_isSome]
      exact ⟨kv, hmem, hus⟩
    rcases hfind : P.find? (fun kv => startsWithChar kv.1 '_') with _ | b
    · rw [hfind] at hsome; exact absurd hsome (by simp)
    · refine ⟨"cannot set system field: " ++ b.1, ?_⟩
      have hperr := patchApply_err P d b hfind
      simp only [Database.patch, ht, Table.get, hd, Table.patch, hperr]

/-- C6 (witness): patching `{age: 30, name: "Alice"}` with `{age: 31}`
merges to `{age: 31, name: "Alice"}`, applied through the patch theorem at
a concrete database. -/
theorem C6_witness :
    Database.get
      (Database.patch
        ⟨[("users", ⟨"users", [("d1", ⟨⟨"users", "d1"⟩, .fin 0,
            [("age", .int 30), ("name", .str "Alice")]⟩)]⟩)],
          [("users", ⟨[]⟩)], none⟩
        ⟨"users", "d1"⟩ [("age", .int 31)]).1 ⟨"users", "d1"⟩ =
      .ok ⟨⟨"users", "d1"⟩, .fin 0,
        (mergePatched [("age", .int 30), ("name", .str "Alice")]
          [("age", .int 31)])⟩ :=
  (C6_patch_merges
    ⟨[("users", ⟨"users", [("d1", ⟨⟨"users", "d1"⟩, .fin 0,
        [("age", .int 30), ("name", .str "Alice")]⟩)]⟩)],
      [("users", ⟨[]⟩)], none⟩
    ⟨"users", "d1"⟩ [("age", .int 31)]
    ⟨"users", [("d1", ⟨⟨"users", "d1"⟩, .fin 0,
      [("age", .int 30), ("name", .str "Alice")]⟩)]⟩
    ⟨⟨"users", "d1"⟩, .fin 0, [("age", .int 30), ("name", .str "Alice")]⟩
    (by decide) (by decide) (by decide) (by decide)).1 (by decide)

/-! ## Claim C2: failing writes and state purity -/

/-- C2 (code bug evaluation): `Database::insert_with_id` notifies the
index registry *before* the fallible table insert, so a failing duplicate
insert returns `DuplicateDocument` while the index has already been
mutated: after the failing call the `by_x` index maps the new key `[2]`
to the id even though the stored document still has `x = 1`.  The table is
unchanged but the index is not, contradicting validation purity. -/
theorem C2_insert_index_desync :
    ((((Database.new.create_table "users").create_index
        ⟨"by_x", "users", ["x"]⟩).1.insert_with_id
        ⟨"users", "d1"⟩ (.fin 0) [("x", .int 1)]).1.insert_with_id
        ⟨"users", "d1"⟩ (.fin 0) [("x", .int 2)]).2 =
      .error (.DuplicateDocument ("users" ++ ":" ++ "d1"))
    ∧ ((((Database.new.create_table "users").create_index
        ⟨"by_x", "users", ["x"]⟩).1.insert_with_id
        ⟨"users", "d1"⟩ (.fin 0) [("x", .int 1)]).1.insert_with_id
        ⟨"users", "d1"⟩ (.fin 0) [("x", .int 2)]).1.tables =
      (((Database.new.create_table "users").create_index
        ⟨"by_x", "users", ["x"]⟩).1.insert_with_id
        ⟨"users", "d1"⟩ (.fin 0) [("x", .int 1)]).1.tables
    ∧ Except.map (fun idx => Index.lookup idx [.int 2])
        (IndexRegistry.get_index
          (Option.getD
            (mapGet scmp "users"
              ((((Database.new.create_table "users").create_index
                ⟨"by_x", "users", ["x"]⟩).1.insert_with_id
                ⟨"users", "d1"⟩ (.fin 0) [("x", .int 1)]).1.indexes)) ⟨[]⟩)
          "by_x") =
      .ok []
    ∧ Except.map (fun idx => Index.lookup idx [.int 2])
        (IndexRegistry.get_index
          (Option.getD
            (mapGet scmp "users"
              (((((Database.new.create_table "users").create_index
                ⟨"by_x", "users", ["x"]⟩).1.insert_with_id
                ⟨"users", "d1"⟩ (.fin 0) [("x", .int 1)]).1.insert_with_id
                ⟨"users", "d1"⟩ (.fin 0) [("x", .int 2)]).1.indexes)) ⟨[]⟩)
          "by_x") =
      .ok ["d1"] := by
  decide

/-! ## Claim C8: index range scans -/

theorem takeWhile_eq_filter_sorted {c : κ → κ → Ordering} (hc : LawCmp c)
    {q : κ × ν → Bool}
    (hq : ∀ e1 e2 : κ × ν, c e1.1 e2.1 = .lt → q e2 = true → q e1 = true) :
    ∀ {m : List (κ × ν)}, SortedKeys c m → m.takeWhile q = m.filter q
  | [], _ => rfl
  | e :: rest, hm => by
    rcases List.pairwise_cons.mp hm with ⟨h0, hrest⟩
    rw [List.takeWhile_cons, List.filter_cons]
    by_cases he : q e = true
    · rw [if_pos he, if_pos he,
        takeWhile_eq_filter_sorted hc hq hrest]
    · rw [if_neg he, if_neg he]
      symm
      rw [List.filter_eq_nil_iff]
      intro x hx hqx
      exact he (hq e x (h0 x hx) hqx)

theorem dropWhile_eq_filter_sorted {c : κ → κ → Ordering} (hc : LawCmp c)
    {p : κ × ν → Bool}
    (hp : ∀ e1 e2 : κ × ν, c e1.1 e2.1 = .lt → p e2 = true → p e1 = true) :
    ∀ {m : List (κ × ν)}, SortedKeys c m →
    m.dropWhile p = m.filter (fun e => !p e)
  | [], _ => rfl
  | e :: rest, hm => by
    rcases List.pairwise_cons.mp hm with ⟨h0, hrest⟩
    rw [List.dropWhile_cons, List.filter_cons]
    by_cases he : p e = true
    · rw [if_pos he]
      simp only [he, Bool.not_true]
      rw [if_neg (by simp), dropWhile_eq_filter_sorted hc hp hrest]
    · rw [if_neg he]
      simp only [show p e = false from by simpa using he, Bool.not_false,
        if_pos rfl]
      congr 1
      symm
      rw [List.filter_eq_self]
      intro x hx
      by_contra hbx
      have hpx : p x = true := by simpa using hbx
      exact he (hp e x (h0 x hx) hpx)

/-- The bound predicate of the claim: `lower ≤ k < upper`, an absent bound
being unbounded. -/
def inRangeBounds (lower upper : Option (List Value)) (k : List Value) : Bool :=
  (match lower with
    | some l => !(decide (kcmp k l = Ordering.lt))
    | none => true)
  && (match upper with
    | some u => decide (kcmp k u = Ordering.lt)
    | none => true)

/-- C8 (counterexample): the claim as stated fails when `lower > upper`:
`BTreeMap::range` panics (modelled as `none`) instead of returning the
(empty) set of ids whose key lies in `[lower, upper)`. -/
theorem C8_counterexample :
    Index.range ⟨⟨"by_x", "users", ["x"]⟩, [([Value.int 1], ["a"])]⟩
      (some [Value.int 2]) (some [Value.int 1]) = none
    ∧ ((([([Value.int 1], ["a"])].filter
        (fun e => inRangeBounds (some [Value.int 2]) (some [Value.int 1]) e.1)).map
          Prod.snd).join = [])
    ∧ Index.range ⟨⟨"by_x", "users", ["x"]⟩, [([Value.int 1], ["a"])]⟩
        (some [Value.int 2]) (some [Value.int 1]) ≠ some [] := by
  refine ⟨by decide, by decide, by decide⟩

/-- C8 (amended): for every index with sorted entries, provided the bounds
are not inverted (`BTreeMap::range` panics when `lower > upper`),
`range(lower, upper)` returns exactly the ids of entries whose composite
key `k` satisfies `lower ≤ k < upper` under the value total order, an
absent bound being unbounded, iterating entries in ascending key order and
flattening each key's id set. -/
theorem C8_range_amended (idx : Index) (lower upper : Option (List Value))
    (hs : SortedKeys kcmp idx.entries)
    (hb : ∀ l u, lower = some l → upper = some u → kcmp l u ≠ .gt) :
    idx.range lower upper =
      some (((idx.entries.filter (fun e => inRangeBounds lower upper e.1)).map
        Prod.snd).join) := by
  have hlift : ∀ u : List Value, ∀ e1 e2 : List Value × List String,
      kcmp e1.1 e2.1 = .lt →
      decide (kcmp e2.1 u = Ordering.lt) = true →
      decide (kcmp e1.1 u = Ordering.lt) = true := by
    intro u e1 e2 hlt h2
    simp only [decide_eq_true_eq] at h2 ⊢
    exact cmp_lt_trans_of lawCmp_kcmp.symm (lawCmp_kcmp.transAt _ _ _) hlt h2
  have hseg : rangeSeg lower upper idx.entries =
      idx.entries.filter (fun e => inRangeBounds lower upper e.1) := by
    cases lower with
    | none =>
      cases upper with
      | none =>
        simp only [rangeSeg]
        symm
        rw [List.filter_eq_self]
        intro e _
        simp [inRangeBounds]
      | some u =>
        simp only [rangeSeg]
        rw [takeWhile_eq_filter_sorted lawCmp_kcmp (hlift u) hs]
        congr 1
    | some l =>
      have hp : ∀ e1 e2 : List Value × List String, kcmp e1.1 e2.1 = .lt →
          decide (kcmp e2.1 l = Ordering.lt) = true →
          decide (kcmp e1.1 l = Ordering.lt) = true := hlift l
      cases upper with
      | none =>
        simp only [rangeSeg]
        rw [dropWhile_eq_filter_sorted lawCmp_kcmp hp hs]
        congr 1
        funext e
        simp [inRangeBounds]
      | some u =>
        simp only [rangeSeg]
        rw [dropWhile_eq_filter_sorted lawCmp_kcmp hp hs,
          takeWhile_eq_filter_sorted lawCmp_kcmp (hlift u)
            (hs.sublist (List.filter_sublist _)),
          List.filter_filter]
        congr 1
        funext e
        simp [inRangeBounds, Bool.and_comm]
  cases lower with
  | none =>
    simp only [Index.range, hseg]
  | some l =>
    cases upper with
    | none => simp only [Index.range, hseg]
    | some u =>
      have : kcmp l u ≠ .gt := hb l u rfl rfl
      simp only [Index.range, if_neg this, hseg]

/-- C8 (witness): the amended range theorem applied to a concrete
four-entry age index with bounds `[25], [35]`. -/
theorem C8_witness :
    Index.range ⟨⟨"by_age", "users", ["age"]⟩,
        [([Value.int 20], ["a"]), ([Value.int 25], ["b"]),
          ([Value.int 30], ["c"]), ([Value.int 35], ["d"])]⟩
      (some [Value.int 25]) (some [Value.int 35]) =
    some ((([([Value.int 20], ["a"]), ([Value.int 25], ["b"]),
        ([Value.int 30], ["c"]), ([Value.int 35], ["d"])].filter
          (fun e => inRangeBounds (some [Value.int 25]) (some [Value.int 35]) e.1)).map
        Prod.snd).join) :=
  C8_range_amended ⟨⟨"by_age", "users", ["age"]⟩,
      [([Value.int 20], ["a"]), ([Value.int 25], ["b"]),
        ([Value.int 30], ["c"]), ([Value.int 35], ["d"])]⟩
    (some [Value.int 25]) (some [Value.int 35]) (by decide)
    (by intro l u hl hu; injection hl with hl; injection hu with hu;
        subst hl; subst hu; decide)

/-! ## C9: strict-schema unknown fields vs nested-object permissiveness -/

/-- Under a strict schema, the per-key loop of `validate_document` errors
whenever some key of the field list is undeclared (with one message or
another: the underscore check and declared-key validation run first). -/
theorem validate_fields_loop_error_of_undeclared (schema : TableSchema)
    (hstrict : schema.strict = true) :
    ∀ fields : List (String × Value), ∀ k v, (k, v) ∈ fields →
    mapGet scmp k schema.fields = none →
    ∃ e, validate_fields_loop schema fields = .error e := by
  intro fields
  induction fields with
  | nil => intro k v h _; simp at h
  | cons p rest ih =>
    intro k v hmem hund
    obtain ⟨k', v'⟩ := p
    rcases List.mem_cons.mp hmem with heq | hmem'
    · cases heq
      by_cases hu : startsWithChar k '_'
      · exact ⟨"field names cannot start with underscore: `" ++ k ++ "`",
          by simp [validate_fields_loop, hu]⟩
      · exact ⟨"unknown field `" ++ k ++ "` in strict schema",
          by simp [validate_fields_loop, hu, hund, hstrict]⟩
    · by_cases hu : startsWithChar k' '_'
      · exact ⟨"field names cannot start with underscore: `" ++ k' ++ "`",
          by simp [validate_fields_loop, hu]⟩
      · rcases hd : mapGet scmp k' schema.fields with _ | d
        · exact ⟨"unknown field `" ++ k' ++ "` in strict schema",
            by simp [validate_fields_loop, hu, hd, hstrict]⟩
        · rcases hv : validate_value v' d.1 k' with e | u
          · exact ⟨e, by simp [validate_fields_loop, hu, hd, hv]⟩
          · obtain ⟨e, he⟩ := ih k v hmem' hund
            exact ⟨e, by simp [validate_fields_loop, hu, hd, hv, he]⟩

/-- When every key before `k` is non-underscore, declared and valid, and
`k` is undeclared and non-underscore, the loop reports precisely the
strict-schema unknown-field message. -/
theorem validate_fields_loop_unknown (schema : TableSchema)
    (hstrict : schema.strict = true) :
    ∀ pre : List (String × Value), ∀ k (v : Value) post,
    (∀ p ∈ pre, startsWithChar p.1 '_' = false ∧
      ∃ d, mapGet scmp p.1 schema.fields = some d ∧
        validate_value p.2 d.1 p.1 = .ok ()) →
    startsWithChar k '_' = false →
    mapGet scmp k schema.fields = none →
    validate_fields_loop schema (pre ++ (k, v) :: post) =
      .error ("unknown field `" ++ k ++ "` in strict schema") := by
  intro pre
  induction pre with
  | nil =>
    intro k v post _ hu hund
    simp [validate_fields_loop, hu, hund, hstrict]
  | cons p rest ih =>
    intro k v post hpre hu hund
    obtain ⟨k', v'⟩ := p
    obtain ⟨hu', d, hd, hv⟩ := hpre (k', v') (by simp)
    have hrec := ih k v post (fun q hq => hpre q (by simp [hq])) hu hund
    simp [validate_fields_loop, hu', hd, hv, hrec]

/-- C9 (counterexample): under the strict empty schema the undeclared
top-level key `_bad` makes `validate_document` fail, but with the
underscore-prefix message, not the claimed strict-schema
"unknown field" message. -/
theorem C9_counterexample :
    validate_document [("_bad", Value.null)] ⟨[], true⟩ =
      .error "field names cannot start with underscore: `_bad`" ∧
    validate_document [("_bad", Value.null)] ⟨[], true⟩ ≠
      .error ("unknown field `_bad` in strict schema") := by
  constructor
  · rfl
  · intro h
    rw [show validate_document [("_bad", Value.null)] ⟨[], true⟩ =
      .error "field names cannot start with underscore: `_bad`" from rfl] at h
    simp at h

/-- C9 (amended): under a strict schema, (1) `validate_document` always
fails when some top-level key is undeclared; (2) it fails with precisely
the message "unknown field `k` in strict schema" when no required field
is missing, `k` is undeclared and not underscore-prefixed, and every key
iterated before `k` is non-underscore, declared and valid; and (3) a key
undeclared inside a nested `Object` field type is skipped by the nested
per-key loop, independently of any strictness flag. -/
theorem C9_strict_schema_amended (schema : TableSchema)
    (hstrict : schema.strict = true) :
    (∀ fields : List (String × Value), ∀ k v, (k, v) ∈ fields →
      mapGet scmp k schema.fields = none →
      ∃ e, validate_document fields schema = .error e) ∧
    (∀ pre : List (String × Value), ∀ k (v : Value) post,
      check_required_top (pre ++ (k, v) :: post) schema.fields = .ok () →
      (∀ p ∈ pre, startsWithChar p.1 '_' = false ∧
        ∃ d, mapGet scmp p.1 schema.fields = some d ∧
          validate_value p.2 d.1 p.1 = .ok ()) →
      startsWithChar k '_' = false →
      mapGet scmp k schema.fields = none →
      validate_document (pre ++ (k, v) :: post) schema =
        .error ("unknown field `" ++ k ++ "` in strict schema")) ∧
    (∀ defs : List (String × FieldType × Bool), ∀ key val kvs path,
      mapGet scmp key defs = none →
      validate_obj_fields defs ((key, val) :: kvs) path =
        validate_obj_fields defs kvs path) := by
  refine ⟨?_, ?_, ?_⟩
  · intro fields k v hmem hund
    obtain ⟨e, he⟩ :=
      validate_fields_loop_error_of_undeclared schema hstrict fields k v
        hmem hund
    rcases hreq : check_required_top fields schema.fields with e' | u
    · exact ⟨e', by simp [validate_document, hreq]⟩
    · exact ⟨e, by simp [validate_document, hreq, he]⟩
  · intro pre k v post hreq hpre hu hund
    simp [validate_document, hreq,
      validate_fields_loop_unknown schema hstrict pre k v post hpre hu hund]
  · intro defs key val kvs path h
    simp only [validate_obj_fields]
    split
    · next d heq => rw [h] at heq; exact Option.noConfusion heq
    · rfl

/-- C9 (witness): the amended theorem applied to the strict schema
`{age : Number}` and the document `{age: 30, zz: 1}`: the undeclared
key `zz` yields precisely the strict-schema unknown-field error. -/
theorem C9_witness :
    validate_document [("age", Value.int 30), ("zz", Value.int 1)]
      ⟨[("age", FieldType.Number, false)], true⟩ =
      .error ("unknown field `zz` in strict schema") := by
  have h := (C9_strict_schema_amended
      ⟨[("age", FieldType.Number, false)], true⟩ rfl).2.1
    [("age", Value.int 30)] "zz" (Value.int 1) [] (by decide)
    (by
      intro p hp
      simp only [List.mem_singleton] at hp
      subst hp
      refine ⟨by decide, (FieldType.Number, false), by rfl, ?_⟩
      simp [validate_value])
    (by decide) (by rfl)
  simpa using h

/-! ## C5: index-consistency invariant of reachable database states -/

/-- Convenience: transitivity of comparator equality. -/
theorem cmp_eq_trans {f : α → α → Ordering} (hf : LawCmp f) {a b c : α}
    (hab : f a b = .eq) (hbc : f b c = .eq) : f a c = .eq :=
  cmp_eq_trans_of hf.symm (hf.transAt _ _ _) (hf.transAt _ _ _) hab hbc

/-- `mapGet` after `BTreeMap::insert` on a sorted map. -/
theorem mapGet_insert {κ ν : Type _} {c : κ → κ → Ordering} (hc : LawCmp c)
    (k k' : κ) (v : ν) (m : List (κ × ν)) (hm : SortedKeys c m) :
    mapGet c k' (mapInsert c k v m) =
      if c k' k = .eq then some v else mapGet c k' m := by
  simpa [mapInsert] using mapGet_alter hc k k' (fun _ => v) m hm

/-- Queried keys that compare equal retrieve the same entry. -/
theorem mapGet_congr {κ ν : Type _} {c : κ → κ → Ordering} (hc : LawCmp c)
    {k k' : κ} (h : c k k' = .eq) :
    ∀ m : List (κ × ν), mapGet c k m = mapGet c k' m
  | [] => rfl
  | (k0, v0) :: rest => by
    rw [mapGet_cons, mapGet_cons, mapGet_congr hc h rest]
    by_cases h0 : c k k0 = .eq
    · rw [if_pos h0, if_pos (cmp_eq_trans hc (hc.eq_symm h) h0)]
    · rw [if_neg h0, if_neg (fun h0' => h0 (cmp_eq_trans hc h h0'))]

/-- A key comparing equal to no stored key is absent. -/
theorem mapGet_none_of_all_ne {κ ν : Type _} {c : κ → κ → Ordering} {k : κ} :
    ∀ {m : List (κ × ν)}, (∀ e ∈ m, c k e.1 ≠ .eq) → mapGet c k m = none
  | [], _ => rfl
  | (k0, v0) :: rest, h => by
    rw [mapGet_cons, if_neg (h (k0, v0) (by simp))]
    exact mapGet_none_of_all_ne (fun e he => h e (by simp [he]))

/-- Re-inserting the stored value at its own key leaves a sorted map
unchanged. -/
theorem mapInsert_get_self {κ ν : Type _} {c : κ → κ → Ordering}
    (hc : LawCmp c) {k : κ} {v : ν} :
    ∀ {m : List (κ × ν)}, SortedKeys c m → mapGet c k m = some v →
    mapInsert c k v m = m
  | [], _, h => by simp [mapGet] at h
  | (k0, v0) :: rest, hm, h => by
    rw [mapGet_cons] at h
    simp only [mapInsert, mapAlter]
    cases hck : c k k0
    · rw [if_neg (by rw [hck]; exact fun hh => Ordering.noConfusion hh)] at h
      have hnone : mapGet c k rest = none := by
        refine mapGet_none_of_lt hc (List.Pairwise.of_cons hm) ?_
        intro e he
        rcases List.pairwise_cons.mp hm with ⟨h0, _⟩
        exact cmp_lt_trans_of hc.symm (hc.transAt _ _ _) hck (h0 e he)
      rw [hnone] at h
      exact Option.noConfusion h
    · rw [if_pos hck] at h
      injection h with h
      subst h
      rfl
    · rw [if_neg (by rw [hck]; exact fun hh => Ordering.noConfusion hh)] at h
      show (k0, v0) :: mapAlter c k (fun _ => v) rest = (k0, v0) :: rest
      exact congrArg (List.cons (k0, v0))
        (mapInsert_get_self hc (List.Pairwise.of_cons hm) h)

/-- The values of an altered sorted map: the entry at the altered key, or
an original entry. -/
theorem mapAlter_values {κ ν : Type _} {c : κ → κ → Ordering} (hc : LawCmp c)
    {k : κ} {f : Option ν → ν} :
    ∀ {m : List (κ × ν)}, SortedKeys c m → ∀ e ∈ mapAlter c k f m,
      e.2 = f (mapGet c k m) ∨ e ∈ m
  | [], _, e, he => by
    simp only [mapAlter, List.mem_singleton] at he
    exact Or.inl (by subst he; rfl)
  | (k0, v0) :: rest, hm, e, he => by
    simp only [mapAlter] at he
    cases hck : c k k0 <;> rw [hck] at he
    · rcases List.mem_cons.mp he with rfl | he'
      · left
        have hnone : mapGet c k ((k0, v0) :: rest) = none := by
          refine mapGet_none_of_lt hc hm ?_
          intro e' he'
          rcases List.mem_cons.mp he' with rfl | he''
          · exact hck
          · rcases List.pairwise_cons.mp hm with ⟨h0, _⟩
            exact cmp_lt_trans_of hc.symm (hc.transAt _ _ _) hck (h0 e' he'')
        rw [hnone]
      · exact Or.inr he'
    · rcases List.mem_cons.mp he with rfl | he'
      · left
        rw [mapGet_cons, if_pos hck]
      · exact Or.inr (by simp [he'])
    · rcases List.mem_cons.mp he with rfl | he'
      · exact Or.inr (by simp)
      · rcases mapAlter_values hc (List.Pairwise.of_cons hm) e he' with h | h
        · left
          rw [h, mapGet_head_lt_cons hc
            (by rw [hck]; exact fun hh => Ordering.noConfusion hh)]
        · exact Or.inr (by simp [h])

/-- Mapping over the values of an association list keeps the key order. -/
theorem sorted_on_map {κ ν ν' : Type _} {c : κ → κ → Ordering}
    {l : List (κ × ν)} (g : κ × ν → ν') (hm : SortedKeys c l) :
    SortedKeys c (l.map (fun e => (e.1, g e))) := by
  unfold SortedKeys at *
  rw [List.pairwise_map]
  exact hm

/-- `mapGet` through `IndexRegistry::on_insert`'s per-index map. -/
theorem mapGet_map_insert (doc_id : String) (fs : List (String × Value))
    (iname : String) :
    ∀ l : List (String × Index),
    mapGet scmp iname (l.map (fun e => (e.1, e.2.insert doc_id fs))) =
      (mapGet scmp iname l).map (fun idx => idx.insert doc_id fs)
  | [] => rfl
  | (k0, v0) :: rest => by
    simp only [List.map_cons, mapGet_cons]
    by_cases h0 : scmp iname k0 = .eq
    · rw [if_pos h0, if_pos h0]
      rfl
    · rw [if_neg h0, if_neg h0, mapGet_map_insert doc_id fs iname rest]

/-- `mapGet` through `IndexRegistry::on_remove`'s per-index map. -/
theorem mapGet_map_remove (doc_id : String) (fs : List (String × Value))
    (iname : String) :
    ∀ l : List (String × Index),
    mapGet scmp iname (l.map (fun e => (e.1, e.2.remove doc_id fs))) =
      (mapGet scmp iname l).map (fun idx => idx.remove doc_id fs)
  | [] => rfl
  | (k0, v0) :: rest => by
    simp only [List.map_cons, mapGet_cons]
    by_cases h0 : scmp iname k0 = .eq
    · rw [if_pos h0, if_pos h0]
      rfl
    · rw [if_neg h0, if_neg h0, mapGet_map_remove doc_id fs iname rest]

/-- `mapGet` through `IndexRegistry::on_update`'s per-index map. -/
theorem mapGet_map_update (doc_id : String)
    (oldf newf : List (String × Value)) (iname : String) :
    ∀ l : List (String × Index),
    mapGet scmp iname (l.map (fun e => (e.1, e.2.update doc_id oldf newf))) =
      (mapGet scmp iname l).map (fun idx => idx.update doc_id oldf newf)
  | [] => rfl
  | (k0, v0) :: rest => by
    simp only [List.map_cons, mapGet_cons]
    by_cases h0 : scmp iname k0 = .eq
    · rw [if_pos h0, if_pos h0]
      rfl
    · rw [if_neg h0, if_neg h0, mapGet_map_update doc_id oldf newf iname rest]

/-- A patch whose keys are all non-underscore applies fully. -/
theorem patchApply_noerr :
    ∀ (P : List (String × Value)) (d : Document),
    (∀ p ∈ P, startsWithChar p.1 '_' = false) →
    patchApply d P = ({ d with fields := mergePatched d.fields P }, none)
  | [], d, _ => by simp [patchApply, mergePatched]
  | (k, v) :: rest, d, h => by
    have hk : startsWithChar k '_' = false := h (k, v) (by simp)
    simp only [patchApply]
    rw [if_neg (by simp [hk]),
      patchApply_noerr rest _ (fun p hp => h p (by simp [hp]))]
    rfl

/-- Consistency of one secondary index with a table's document map: the
entries are sorted by composite key, each id set is sorted, and an id is
found under a queried key exactly when the table stores a document with
that id whose extracted composite key compares equal to the query. -/
def IndexGood (idx : Index) (docs : List (String × Document)) : Prop :=
  SortedKeys kcmp idx.entries ∧
  (∀ e ∈ idx.entries, SortedList scmp e.2) ∧
  ∀ key docId,
    setMem scmp docId (idx.lookup key) = true ↔
      ∃ d, mapGet scmp docId docs = some d ∧
        kcmp (idx.extract_key d.fields) key = .eq

/-- A freshly created index is consistent with an empty table. -/
theorem IndexGood_empty (df : IndexDefinition) :
    IndexGood (Index.mk df []) [] := by
  refine ⟨List.Pairwise.nil, ?_, ?_⟩
  · intro e he
    simp at he
  · intro key docId
    constructor
    · intro h
      simp [Index.lookup, mapGet, setMem] at h
    · rintro ⟨d, hd, _⟩
      simp [mapGet] at hd

/-- `Index::insert` of a fresh document keeps the index consistent. -/
theorem IndexGood_insert {idx : Index} {docs : List (String × Document)}
    {i : String} {doc : Document}
    (hdocs : SortedKeys scmp docs)
    (hfresh : mapGet scmp i docs = none)
    (hg : IndexGood idx docs) :
    IndexGood (idx.insert i doc.fields) (mapInsert scmp i doc docs) := by
  obtain ⟨hs, hb, hm⟩ := hg
  refine ⟨mapAlter_sorted lawCmp_kcmp hs, ?_, ?_⟩
  · intro e he
    rcases mapAlter_values lawCmp_kcmp hs e he with h | h
    · rw [h]
      rcases hbk : mapGet kcmp (idx.extract_key doc.fields) idx.entries
        with _ | ids
      · exact setInsert_sorted lawCmp_scmp List.Pairwise.nil
      · refine setInsert_sorted lawCmp_scmp ?_
        obtain ⟨k', hk'⟩ := mapGet_mem hbk
        exact hb (k', ids) hk'
    · exact hb e h
  · intro key docId
    have hL : (idx.insert i doc.fields).lookup key =
        (if kcmp key (idx.extract_key doc.fields) = .eq
          then setInsert scmp i (idx.lookup (idx.extract_key doc.fields))
          else idx.lookup key) := by
      show (mapGet kcmp key (mapAlter kcmp (idx.extract_key doc.fields)
          (fun o => setInsert scmp i (o.getD [])) idx.entries)).getD [] = _
      rw [mapGet_alter lawCmp_kcmp _ key _ idx.entries hs]
      by_cases hkey : kcmp key (idx.extract_key doc.fields) = .eq
      · rw [if_pos hkey, if_pos hkey]
        rfl
      · rw [if_neg hkey, if_neg hkey]
        rfl
    show setMem scmp docId ((idx.insert i doc.fields).lookup key) = true ↔
      ∃ d, mapGet scmp docId (mapInsert scmp i doc docs) = some d ∧
        kcmp (idx.extract_key d.fields) key = .eq
    rw [hL]
    by_cases hkey : kcmp key (idx.extract_key doc.fields) = .eq
    · rw [if_pos hkey, setMem_insert lawCmp_scmp]
      constructor
      · intro h
        by_cases hdi : scmp docId i = .eq
        · have hdi' : docId = i := scmp_eq_iff.mp hdi
          subst hdi'
          refine ⟨doc, ?_, lawCmp_kcmp.eq_symm hkey⟩
          rw [mapGet_insert lawCmp_scmp docId docId doc docs hdocs,
            if_pos (lawCmp_scmp.refl docId)]
        · have h2 : setMem scmp docId
              (idx.lookup (idx.extract_key doc.fields)) = true := by
            simpa [hdi] using h
          obtain ⟨d, hd, hkd⟩ := (hm (idx.extract_key doc.fields) docId).mp h2
          refine ⟨d, ?_, cmp_eq_trans lawCmp_kcmp hkd (lawCmp_kcmp.eq_symm hkey)⟩
          rw [mapGet_insert lawCmp_scmp i docId doc docs hdocs, if_neg ?_]
          · exact hd
          · intro he
            rw [scmp_eq_iff.mp he, hfresh] at hd
            exact Option.noConfusion hd
      · rintro ⟨d, hd, hkd⟩
        rw [mapGet_insert lawCmp_scmp i docId doc docs hdocs] at hd
        by_cases hdi : scmp docId i = .eq
        · simp [hdi]
        · rw [if_neg hdi] at hd
          have h2 := (hm _ docId).mpr ⟨d, hd, cmp_eq_trans lawCmp_kcmp hkd hkey⟩
          simp [h2]
    · rw [if_neg hkey, hm key docId]
      constructor
      · rintro ⟨d, hd, hkd⟩
        refine ⟨d, ?_, hkd⟩
        rw [mapGet_insert lawCmp_scmp i docId doc docs hdocs, if_neg ?_]
        · exact hd
        · intro he
          rw [scmp_eq_iff.mp he, hfresh] at hd
          exact Option.noConfusion hd
      · rintro ⟨d, hd, hkd⟩
        rw [mapGet_insert lawCmp_scmp i docId doc docs hdocs] at hd
        by_cases hdi : scmp docId i = .eq
        · rw [if_pos hdi] at hd
          injection hd with hd
          subst hd
          exact absurd (lawCmp_kcmp.eq_symm hkd) hkey
        · rw [if_neg hdi] at hd
          exact ⟨d, hd, hkd⟩

/-- `Index::remove` of a stored document keeps the index consistent. -/
theorem IndexGood_remove {idx : Index} {docs : List (String × Document)}
    {i : String} {d : Document}
    (hdocs : SortedKeys scmp docs)
    (hget : mapGet scmp i docs = some d)
    (hg : IndexGood idx docs) :
    IndexGood (idx.remove i d.fields) (mapRemove scmp i docs) := by
  obtain ⟨hs, hb, hm⟩ := hg
  have hKmem : setMem scmp i (idx.lookup (idx.extract_key d.fields)) = true :=
    (hm _ i).mpr ⟨d, hget, lawCmp_kcmp.refl _⟩
  rcases hbk : mapGet kcmp (idx.extract_key d.fields) idx.entries with _ | ids
  · exfalso
    have hL0 : idx.lookup (idx.extract_key d.fields) = [] := by
      show (mapGet kcmp (idx.extract_key d.fields) idx.entries).getD [] = []
      rw [hbk]
      rfl
    rw [hL0] at hKmem
    simp [setMem] at hKmem
  · have hids : SortedList scmp ids := by
      obtain ⟨k', hk'⟩ := mapGet_mem hbk
      exact hb (k', ids) hk'
    have hLK : idx.lookup (idx.extract_key d.fields) = ids := by
      show (mapGet kcmp (idx.extract_key d.fields) idx.entries).getD [] = ids
      rw [hbk]
      rfl
    simp only [Index.remove, hbk]
    by_cases hemp : (setRemove scmp i ids).isEmpty
    · rw [if_pos hemp]
      have hids' : setRemove scmp i ids = [] := by
        cases hx : setRemove scmp i ids
        · rfl
        · rw [hx] at hemp
          simp [List.isEmpty] at hemp
      refine ⟨mapRemove_sorted hs, ?_, ?_⟩
      · intro e he
        exact hb e ((mapRemove_sublist _).subset he)
      · intro key docId
        have hL : ({ idx with entries :=
            (mapRemove kcmp (idx.extract_key d.fields) idx.entries) } :
              Index).lookup key =
            (if kcmp key (idx.extract_key d.fields) = .eq then ([] : List String)
              else idx.lookup key) := by
          show (mapGet kcmp key
            (mapRemove kcmp (idx.extract_key d.fields) idx.entries)).getD [] = _
          rw [mapGet_remove lawCmp_kcmp _ key idx.entries hs]
          by_cases hkey : kcmp key (idx.extract_key d.fields) = .eq
          · rw [if_pos hkey, if_pos hkey]
            rfl
          · rw [if_neg hkey, if_neg hkey]
            rfl
        show setMem scmp docId (({ idx with entries :=
            (mapRemove kcmp (idx.extract_key d.fields) idx.entries) } :
              Index).lookup key) = true ↔
          ∃ dd, mapGet scmp docId (mapRemove scmp i docs) = some dd ∧
            kcmp (idx.extract_key dd.fields) key = .eq
        rw [hL]
        by_cases hkey : kcmp key (idx.extract_key d.fields) = .eq
        · rw [if_pos hkey]
          constructor
          · intro h
            simp [setMem] at h
          · rintro ⟨dd, hdd, hkd⟩
            rw [mapGet_remove lawCmp_scmp i docId docs hdocs] at hdd
            by_cases hdi : scmp docId i = .eq
            · rw [if_pos hdi] at hdd
              exact Option.noConfusion hdd
            · rw [if_neg hdi] at hdd
              have h1 : setMem scmp docId
                  (idx.lookup (idx.extract_key d.fields)) = true :=
                (hm _ docId).mpr ⟨dd, hdd, cmp_eq_trans lawCmp_kcmp hkd hkey⟩
              rw [hLK] at h1
              have h3 := setMem_remove lawCmp_scmp docId i ids hids
              rw [hids', h1] at h3
              simp [setMem, hdi] at h3
        · rw [if_neg hkey, hm key docId]
          constructor
          · rintro ⟨dd, hdd, hkd⟩
            refine ⟨dd, ?_, hkd⟩
            rw [mapGet_remove lawCmp_scmp i docId docs hdocs, if_neg ?_]
            · exact hdd
            · intro he
              rw [scmp_eq_iff.mp he, hget] at hdd
              injection hdd with hdd
              subst hdd
              exact hkey (lawCmp_kcmp.eq_symm hkd)
          · rintro ⟨dd, hdd, hkd⟩
            rw [mapGet_remove lawCmp_scmp i docId docs hdocs] at hdd
            by_cases hdi : scmp docId i = .eq
            · rw [if_pos hdi] at hdd
              exact Option.noConfusion hdd
            · rw [if_neg hdi] at hdd
              exact ⟨dd, hdd, hkd⟩
    · rw [if_neg hemp]
      refine ⟨mapAlter_sorted lawCmp_kcmp hs, ?_, ?_⟩
      · intro e he
        rcases mapAlter_values lawCmp_kcmp hs e he with h | h
        · rw [h]
          exact setRemove_sorted hids
        · exact hb e h
      · intro key docId
        have hL : ({ idx with entries :=
            (mapInsert kcmp (idx.extract_key d.fields) (setRemove scmp i ids)
              idx.entries) } : Index).lookup key =
            (if kcmp key (idx.extract_key d.fields) = .eq
              then setRemove scmp i ids else idx.lookup key) := by
          show (mapGet kcmp key (mapInsert kcmp (idx.extract_key d.fields)
            (setRemove scmp i ids) idx.entries)).getD [] = _
          rw [mapGet_insert lawCmp_kcmp _ key _ idx.entries hs]
          by_cases hkey : kcmp key (idx.extract_key d.fields) = .eq
          · rw [if_pos hkey, if_pos hkey]
            rfl
          · rw [if_neg hkey, if_neg hkey]
            rfl
        show setMem scmp docId (({ idx with entries :=
            (mapInsert kcmp (idx.extract_key d.fields) (setRemove scmp i ids)
              idx.entries) } : Index).lookup key) = true ↔
          ∃ dd, mapGet scmp docId (mapRemove scmp i docs) = some dd ∧
            kcmp (idx.extract_key dd.fields) key = .eq
        rw [hL]
        by_cases hkey : kcmp key (idx.extract_key d.fields) = .eq
        · rw [if_pos hkey, setMem_remove lawCmp_scmp docId i ids hids]
          constructor
          · intro h
            have h1 : setMem scmp docId ids = true := by
              cases hx : setMem scmp docId ids
              · rw [hx] at h
                simp at h
              · rfl
            have hdi : ¬(scmp docId i = .eq) := by
              intro he
              rw [decide_eq_true he] at h
              simp at h
            obtain ⟨dd, hdd, hkd⟩ := (hm (idx.extract_key d.fields) docId).mp
              (by rw [hLK]; exact h1)
            refine ⟨dd, ?_,
              cmp_eq_trans lawCmp_kcmp hkd (lawCmp_kcmp.eq_symm hkey)⟩
            rw [mapGet_remove lawCmp_scmp i docId docs hdocs, if_neg hdi]
            exact hdd
          · rintro ⟨dd, hdd, hkd⟩
            rw [mapGet_remove lawCmp_scmp i docId docs hdocs] at hdd
            by_cases hdi : scmp docId i = .eq
            · rw [if_pos hdi] at hdd
              exact Option.noConfusion hdd
            · rw [if_neg hdi] at hdd
              have h1 : setMem scmp docId ids = true := by
                rw [← hLK]
                exact (hm _ docId).mpr
                  ⟨dd, hdd, cmp_eq_trans lawCmp_kcmp hkd hkey⟩
              rw [h1]
              simp [hdi]
        · rw [if_neg hkey, hm key docId]
          constructor
          · rintro ⟨dd, hdd, hkd⟩
            refine ⟨dd, ?_, hkd⟩
            rw [mapGet_remove lawCmp_scmp i docId docs hdocs, if_neg ?_]
            · exact hdd
            · intro he
              rw [scmp_eq_iff.mp he, hget] at hdd
              injection hdd with hdd
              subst hdd
              exact hkey (lawCmp_kcmp.eq_symm hkd)
          · rintro ⟨dd, hdd, hkd⟩
            rw [mapGet_remove lawCmp_scmp i docId docs hdocs] at hdd
            by_cases hdi : scmp docId i = .eq
            · rw [if_pos hdi] at hdd
              exact Option.noConfusion hdd
            · rw [if_neg hdi] at hdd
              exact ⟨dd, hdd, hkd⟩

/-- `IndexGood` only inspects the document map through `mapGet`. -/
theorem IndexGood_congr {idx : Index} {docs docs' : List (String × Document)}
    (h : ∀ k, mapGet scmp k docs = mapGet scmp k docs')
    (hg : IndexGood idx docs) : IndexGood idx docs' := by
  obtain ⟨hs, hb, hm⟩ := hg
  refine ⟨hs, hb, ?_⟩
  intro key docId
  rw [hm key docId]
  constructor
  · rintro ⟨d, hd, hkd⟩
    exact ⟨d, by rw [← h docId]; exact hd, hkd⟩
  · rintro ⟨d, hd, hkd⟩
    exact ⟨d, by rw [h docId]; exact hd, hkd⟩

/-- `Index::update` (remove old, insert new) keeps the index consistent
with the overwritten document map. -/
theorem IndexGood_update {idx : Index} {docs : List (String × Document)}
    {i : String} {oldd newd : Document}
    (hdocs : SortedKeys scmp docs)
    (hget : mapGet scmp i docs = some oldd)
    (hg : IndexGood idx docs) :
    IndexGood (idx.update i oldd.fields newd.fields)
      (mapInsert scmp i newd docs) := by
  have h1 := IndexGood_remove hdocs hget hg
  have h2 : mapGet scmp i (mapRemove scmp i docs) = none := by
    rw [mapGet_remove lawCmp_scmp i i docs hdocs,
      if_pos (lawCmp_scmp.refl i)]
  have h3 := @IndexGood_insert (idx.remove i oldd.fields)
    (mapRemove scmp i docs) i newd (mapRemove_sorted hdocs) h2 h1
  refine IndexGood_congr ?_ h3
  intro k
  rw [mapGet_insert lawCmp_scmp i k newd _ (mapRemove_sorted hdocs),
    mapGet_insert lawCmp_scmp i k newd docs hdocs]
  by_cases hk : scmp k i = .eq
  · rw [if_pos hk, if_pos hk]
  · rw [if_neg hk, if_neg hk, mapGet_remove lawCmp_scmp i k docs hdocs,
      if_neg hk]

/-- Backfilling an index by folding `Index::insert` over fresh documents
keeps it consistent with the correspondingly grown document map. -/
theorem IndexGood_backfill :
    ∀ (l : List (String × Document)) (idx : Index)
      (docs0 : List (String × Document)),
    SortedKeys scmp docs0 → IndexGood idx docs0 →
    (∀ e ∈ l, mapGet scmp e.1 docs0 = none) →
    List.Pairwise (fun a b : String × Document => a.1 ≠ b.1) l →
    IndexGood (l.foldl (fun acc e => acc.insert e.1 e.2.fields) idx)
      (l.foldl (fun acc e => mapInsert scmp e.1 e.2 acc) docs0)
  | [], _, _, _, hg, _, _ => hg
  | (i, d) :: rest, idx, docs0, hd0, hg, hfresh, hpw => by
    simp only [List.foldl_cons]
    rcases List.pairwise_cons.mp hpw with ⟨hhead, htail⟩
    refine IndexGood_backfill rest _ _ (mapAlter_sorted lawCmp_scmp hd0)
      (IndexGood_insert hd0 (hfresh (i, d) (by simp)) hg) ?_ htail
    intro e he
    rw [mapGet_insert lawCmp_scmp i e.1 d docs0 hd0, if_neg ?_]
    · exact hfresh e (by simp [he])
    · intro hc
      exact hhead e he ((scmp_eq_iff.mp hc).symm)

/-- Folding `BTreeMap::insert` of distinct-key entries over a sorted map
retrieves like the entry list first, the base map second. -/
theorem mapGet_foldl_insert :
    ∀ (l : List (String × Document)) (docs0 : List (String × Document)),
    SortedKeys scmp docs0 →
    List.Pairwise (fun a b : String × Document => a.1 ≠ b.1) l →
    ∀ k, mapGet scmp k
        (l.foldl (fun acc e => mapInsert scmp e.1 e.2 acc) docs0) =
      (match mapGet scmp k l with
        | some v => some v
        | none => mapGet scmp k docs0)
  | [], docs0, _, _, k => by simp [mapGet]
  | (i, d) :: rest, docs0, hd0, hpw, k => by
    simp only [List.foldl_cons]
    rcases List.pairwise_cons.mp hpw with ⟨hhead, htail⟩
    rw [mapGet_foldl_insert rest (mapInsert scmp i d docs0)
      (mapAlter_sorted lawCmp_scmp hd0) htail k, mapGet_cons]
    by_cases hk : scmp k i = .eq
    · rw [if_pos hk]
      have hrest : mapGet scmp k rest = none := by
        refine mapGet_none_of_all_ne ?_
        intro e he heq
        exact hhead e he (((scmp_eq_iff.mp hk).symm).trans (scmp_eq_iff.mp heq))
      rw [hrest]
      show mapGet scmp k (mapInsert scmp i d docs0) = some d
      rw [mapGet_insert lawCmp_scmp i k d docs0 hd0, if_pos hk]
    · rw [if_neg hk]
      rcases hr : mapGet scmp k rest with _ | v
      · show mapGet scmp k (mapInsert scmp i d docs0) = mapGet scmp k docs0
        rw [mapGet_insert lawCmp_scmp i k d docs0 hd0, if_neg hk]
      · rfl

/-- The database invariant: all association lists sorted, every table
registry points at an existing table, and every index is consistent with
its table's documents. -/
def DBGood (db : Database) : Prop :=
  SortedKeys scmp db.tables ∧
  SortedKeys scmp db.indexes ∧
  (∀ p ∈ db.tables, SortedKeys scmp p.2.docs) ∧
  (∀ q ∈ db.indexes, SortedKeys scmp q.2.indexes) ∧
  (∀ tname reg, mapGet scmp tname db.indexes = some reg →
    ∃ t, mapGet scmp tname db.tables = some t ∧
      ∀ iname idx, mapGet scmp iname reg.indexes = some idx →
        IndexGood idx t.docs)

theorem DBGood_new : DBGood Database.new := by
  refine ⟨List.Pairwise.nil, List.Pairwise.nil, ?_, ?_, ?_⟩
  · intro p hp
    simp [Database.new] at hp
  · intro q hq
    simp [Database.new] at hq
  · intro tname reg h
    simp [Database.new, mapGet] at h

theorem DBGood_create_table {db : Database} (h : DBGood db) (name : String) :
    DBGood (db.create_table name) := by
  obtain ⟨hts, his, htd, hii, hlink⟩ := h
  have htab : (db.create_table name).tables =
      (if (mapGet scmp name db.tables).isSome then db.tables
        else mapInsert scmp name (Table.mk name []) db.tables) := rfl
  have hidx : (db.create_table name).indexes =
      (if (mapGet scmp name db.indexes).isSome then db.indexes
        else mapInsert scmp name (IndexRegistry.mk []) db.indexes) := rfl
  refine ⟨?_, ?_, ?_, ?_, ?_⟩
  · rw [htab]
    split
    · exact hts
    · exact mapAlter_sorted lawCmp_scmp hts
  · rw [hidx]
    split
    · exact his
    · exact mapAlter_sorted lawCmp_scmp his
  · intro p hp
    rw [htab] at hp
    revert hp
    split
    · intro hp
      exact htd p hp
    · intro hp
      rcases mapAlter_values lawCmp_scmp hts p hp with h2 | h2
      · rw [h2]
        exact List.Pairwise.nil
      · exact htd p h2
  · intro q hq
    rw [hidx] at hq
    revert hq
    split
    · intro hq
      exact hii q hq
    · intro hq
      rcases mapAlter_values lawCmp_scmp his q hq with h2 | h2
      · rw [h2]
        exact List.Pairwise.nil
      · exact hii q h2
  · intro tname reg hreg
    rw [hidx] at hreg
    rw [htab]
    by_cases hg2 : (mapGet scmp name db.indexes).isSome = true
    · rw [if_pos hg2] at hreg
      obtain ⟨t, ht, hI⟩ := hlink tname reg hreg
      by_cases hg1 : (mapGet scmp name db.tables).isSome = true
      · rw [if_pos hg1]
        exact ⟨t, ht, hI⟩
      · rw [if_neg hg1]
        refine ⟨t, ?_, hI⟩
        rw [mapGet_insert lawCmp_scmp name tname _ db.tables hts]
        by_cases htn : scmp tname name = .eq
        · exfalso
          have h2 := ht
          rw [mapGet_congr lawCmp_scmp htn db.tables] at h2
          simp [h2] at hg1
        · rw [if_neg htn]
          exact ht
    · rw [if_neg hg2] at hreg
      rw [mapGet_insert lawCmp_scmp name tname _ db.indexes his] at hreg
      by_cases htn : scmp tname name = .eq
      · rw [if_pos htn] at hreg
        injection hreg with hreg
        subst hreg
        by_cases hg1 : (mapGet scmp name db.tables).isSome = true
        · rw [if_pos hg1]
          obtain ⟨t0, ht0⟩ := Option.isSome_iff_exists.mp hg1
          refine ⟨t0, ?_, ?_⟩
          · rw [mapGet_congr lawCmp_scmp htn db.tables]
            exact ht0
          · intro iname idx hidx'
            simp [mapGet] at hidx'
        · rw [if_neg hg1]
          refine ⟨Table.mk name [], ?_, ?_⟩
          · rw [mapGet_insert lawCmp_scmp name tname _ db.tables hts,
              if_pos htn]
          · intro iname idx hidx'
            simp [mapGet] at hidx'
      · rw [if_neg htn] at hreg
        obtain ⟨t, ht, hI⟩ := hlink tname reg hreg
        by_cases hg1 : (mapGet scmp name db.tables).isSome = true
        · rw [if_pos hg1]
          exact ⟨t, ht, hI⟩
        · rw [if_neg hg1]
          refine ⟨t, ?_, hI⟩
          rw [mapGet_insert lawCmp_scmp name tname _ db.tables hts, if_neg htn]
          exact ht

theorem DBGood_insert_op {db : Database} (h : DBGood db)
    (table genId : String) (time : F64) (fields : List (String × Value))
    (hfresh : ∀ t, mapGet scmp table db.tables = some t →
      mapGet scmp genId t.docs = none) :
    DBGood (db.insert table genId time fields).1 := by
  obtain ⟨hts, his, htd, hii, hlink⟩ := h
  rcases hv : db.validate_fields table fields with e | u
  · simp only [Database.insert, hv]
    exact ⟨hts, his, htd, hii, hlink⟩
  · obtain ⟨⟩ := u
    rcases hreg : mapGet scmp table db.indexes with _ | registry
    · rcases htab : mapGet scmp table db.tables with _ | t
      · simp only [Database.insert, hv, hreg, htab]
        exact ⟨hts, his, htd, hii, hlink⟩
      · have hst : SortedKeys scmp t.docs := by
          obtain ⟨k', hk'⟩ := mapGet_mem htab
          exact htd (k', t) hk'
        have hf := hfresh t htab
        have hins : t.insert ⟨⟨table, genId⟩, time, fields⟩ =
            .ok { t with docs :=
              (mapInsert scmp genId ⟨⟨table, genId⟩, time, fields⟩ t.docs) } := by
          simp only [Table.insert]
          rw [if_neg (by simp [hf])]
        simp only [Database.insert, hv, hreg, htab, hins]
        refine ⟨mapAlter_sorted lawCmp_scmp hts, his, ?_, hii, ?_⟩
        · intro p hp
          rcases mapAlter_values lawCmp_scmp hts p hp with h2 | h2
          · rw [h2]
            exact mapAlter_sorted lawCmp_scmp hst
          · exact htd p h2
        · intro tname reg' hreg'
          obtain ⟨t2, ht2, hI⟩ := hlink tname reg' hreg'
          by_cases htn : scmp tname table = .eq
          · exfalso
            rw [mapGet_congr lawCmp_scmp htn db.indexes, hreg] at hreg'
            exact Option.noConfusion hreg'
          · refine ⟨t2, ?_, hI⟩
            rw [mapGet_insert lawCmp_scmp table tname _ db.tables hts,
              if_neg htn]
            exact ht2
    · rcases htab : mapGet scmp table db.tables with _ | t
      · exfalso
        obtain ⟨t2, ht2, _⟩ := hlink table registry hreg
        rw [htab] at ht2
        exact Option.noConfusion ht2
      · have hst : SortedKeys scmp t.docs := by
          obtain ⟨k', hk'⟩ := mapGet_mem htab
          exact htd (k', t) hk'
        have hf := hfresh t htab
        have hins : t.insert ⟨⟨table, genId⟩, time, fields⟩ =
            .ok { t with docs :=
              (mapInsert scmp genId ⟨⟨table, genId⟩, time, fields⟩ t.docs) } := by
          simp only [Table.insert]
          rw [if_neg (by simp [hf])]
        simp only [Database.insert, hv, hreg, htab, hins]
        refine ⟨mapAlter_sorted lawCmp_scmp hts,
          mapAlter_sorted lawCmp_scmp his, ?_, ?_, ?_⟩
        · intro p hp
          rcases mapAlter_values lawCmp_scmp hts p hp with h2 | h2
          · rw [h2]
            exact mapAlter_sorted lawCmp_scmp hst
          · exact htd p h2
        · intro q hq
          rcases mapAlter_values lawCmp_scmp his q hq with h2 | h2
          · rw [h2]
            show SortedKeys scmp (registry.indexes.map
              (fun e => (e.1, e.2.insert genId fields)))
            refine sorted_on_map _ ?_
            obtain ⟨k', hk'⟩ := mapGet_mem hreg
            exact hii (k', registry) hk'
          · exact hii q h2
        · intro tname reg' hreg'
          rw [mapGet_insert lawCmp_scmp table tname _ db.indexes his] at hreg'
          by_cases htn : scmp tname table = .eq
          · rw [if_pos htn] at hreg'
            injection hreg' with hreg'
            subst hreg'
            obtain ⟨t2, ht2, hI⟩ := hlink table registry hreg
            rw [htab] at ht2
            injection ht2 with ht2
            subst ht2
            refine ⟨{ t with docs :=
              (mapInsert scmp genId ⟨⟨table, genId⟩, time, fields⟩ t.docs) },
              ?_, ?_⟩
            · rw [mapGet_insert lawCmp_scmp table tname _ db.tables hts,
                if_pos htn]
            · intro iname idx hidx
              rw [show (registry.on_insert genId fields).indexes =
                  registry.indexes.map (fun e => (e.1, e.2.insert genId fields))
                  from rfl,
                mapGet_map_insert genId fields iname registry.indexes] at hidx
              rcases hold : mapGet scmp iname registry.indexes with _ | idx0
              · rw [hold] at hidx
                exact Option.noConfusion hidx
              · rw [hold] at hidx
                injection hidx with hidx
                subst hidx
                exact @IndexGood_insert idx0 t.docs genId
                  ⟨⟨table, genId⟩, time, fields⟩ hst hf (hI iname idx0 hold)
          · rw [if_neg htn] at hreg'
            obtain ⟨t2, ht2, hI⟩ := hlink tname reg' hreg'
            refine ⟨t2, ?_, hI⟩
            rw [mapGet_insert lawCmp_scmp table tname _ db.tables hts,
              if_neg htn]
            exact ht2

/-- A successful `Table::get` is a successful map lookup. -/
theorem table_get_ok {t : Table} {id : String} {d : Document}
    (h : t.get id = .ok d) : mapGet scmp id t.docs = some d := by
  rcases hg0 : mapGet scmp id t.docs with _ | d0
  · simp only [Table.get, hg0] at h
    exact Except.noConfusion h
  · simp only [Table.get, hg0] at h
    injection h with h
    rw [h]

theorem DBGood_replace {db : Database} (h : DBGood db) (id : DocumentId)
    (fields : List (String × Value)) :
    DBGood (db.replace id fields).1 := by
  obtain ⟨hts, his, htd, hii, hlink⟩ := h
  rcases hv : db.validate_fields id.table fields with e | u
  · simp only [Database.replace, hv]
    exact ⟨hts, his, htd, hii, hlink⟩
  · obtain ⟨⟩ := u
    rcases htab : mapGet scmp id.table db.tables with _ | t
    · simp only [Database.replace, hv, htab]
      exact ⟨hts, his, htd, hii, hlink⟩
    · have hst : SortedKeys scmp t.docs := by
        obtain ⟨k', hk'⟩ := mapGet_mem htab
        exact htd (k', t) hk'
      rcases hgd : t.get id.id with e2 | oldDoc
      · simp only [Database.replace, hv, htab, hgd]
        exact ⟨hts, his, htd, hii, hlink⟩
      · have hgd' : mapGet scmp id.id t.docs = some oldDoc := table_get_ok hgd
        have hrep : t.replace id.id fields = .ok { t with docs :=
            (mapInsert scmp id.id (oldDoc.replace_fields fields) t.docs) } := by
          simp only [Table.replace, hgd']
        have hndoc : ({ t with docs :=
            (mapInsert scmp id.id (oldDoc.replace_fields fields) t.docs) } :
              Table).get id.id = .ok (oldDoc.replace_fields fields) := by
          simp only [Table.get]
          rw [mapGet_insert lawCmp_scmp id.id id.id _ t.docs hst,
            if_pos (lawCmp_scmp.refl id.id)]
        rcases hreg : mapGet scmp id.table db.indexes with _ | reg
        · simp only [Database.replace, hv, htab, hgd, hrep, hndoc, hreg]
          refine ⟨mapAlter_sorted lawCmp_scmp hts, his, ?_, hii, ?_⟩
          · intro p hp
            rcases mapAlter_values lawCmp_scmp hts p hp with h2 | h2
            · rw [h2]
              exact mapAlter_sorted lawCmp_scmp hst
            · exact htd p h2
          · intro tname reg' hreg'
            obtain ⟨t2, ht2, hI⟩ := hlink tname reg' hreg'
            by_cases htn : scmp tname id.table = .eq
            · exfalso
              rw [mapGet_congr lawCmp_scmp htn db.indexes, hreg] at hreg'
              exact Option.noConfusion hreg'
            · refine ⟨t2, ?_, hI⟩
              rw [mapGet_insert lawCmp_scmp id.table tname _ db.tables hts,
                if_neg htn]
              exact ht2
        · simp only [Database.replace, hv, htab, hgd, hrep, hndoc, hreg]
          refine ⟨mapAlter_sorted lawCmp_scmp hts,
            mapAlter_sorted lawCmp_scmp his, ?_, ?_, ?_⟩
          · intro p hp
            rcases mapAlter_values lawCmp_scmp hts p hp with h2 | h2
            · rw [h2]
              exact mapAlter_sorted lawCmp_scmp hst
            · exact htd p h2
          · intro q hq
            rcases mapAlter_values lawCmp_scmp his q hq with h2 | h2
            · rw [h2]
              show SortedKeys scmp (reg.indexes.map (fun e => (e.1,
                e.2.update id.id oldDoc.fields
                  (oldDoc.replace_fields fields).fields)))
              refine sorted_on_map _ ?_
              obtain ⟨k', hk'⟩ := mapGet_mem hreg
              exact hii (k', reg) hk'
            · exact hii q h2
          · intro tname reg' hreg'
            rw [mapGet_insert lawCmp_scmp id.table tname _ db.indexes his]
              at hreg'
            by_cases htn : scmp tname id.table = .eq
            · rw [if_pos htn] at hreg'
              injection hreg' with hreg'
              subst hreg'
              obtain ⟨t2, ht2, hI⟩ := hlink id.table reg hreg
              rw [htab] at ht2
              injection ht2 with ht2
              subst ht2
              refine ⟨{ t with docs :=
                (mapInsert scmp id.id (oldDoc.replace_fields fields) t.docs) },
                ?_, ?_⟩
              · rw [mapGet_insert lawCmp_scmp id.table tname _ db.tables hts,
                  if_pos htn]
              · intro iname idx hidx
                rw [show (reg.on_update id.id oldDoc.fields
                    (oldDoc.replace_fields fields).fields).indexes =
                    reg.indexes.map (fun e => (e.1, e.2.update id.id
                      oldDoc.fields (oldDoc.replace_fields fields).fields))
                    from rfl,
                  mapGet_map_update id.id oldDoc.fields
                    (oldDoc.replace_fields fields).fields iname reg.indexes]
                  at hidx
                rcases hold : mapGet scmp iname reg.indexes with _ | idx0
                · rw [hold] at hidx
                  exact Option.noConfusion hidx
                · rw [hold] at hidx
                  injection hidx with hidx
                  subst hidx
                  exact IndexGood_update hst hgd' (hI iname idx0 hold)
            · rw [if_neg htn] at hreg'
              obtain ⟨t2, ht2, hI⟩ := hlink tname reg' hreg'
              refine ⟨t2, ?_, hI⟩
              rw [mapGet_insert lawCmp_scmp id.table tname _ db.tables hts,
                if_neg htn]
              exact ht2

theorem DBGood_delete {db : Database} (h : DBGood db) (id : DocumentId) :
    DBGood (db.delete id).1 := by
  obtain ⟨hts, his, htd, hii, hlink⟩ := h
  rcases htab : mapGet scmp id.table db.tables with _ | t
  · simp only [Database.delete, htab]
    exact ⟨hts, his, htd, hii, hlink⟩
  · have hst : SortedKeys scmp t.docs := by
      obtain ⟨k', hk'⟩ := mapGet_mem htab
      exact htd (k', t) hk'
    rcases hgd : mapGet scmp id.id t.docs with _ | d
    · have hdel : t.delete id.id =
          .error (.DocumentNotFound (t.name ++ ":" ++ id.id)) := by
        simp only [Table.delete, hgd]
      simp only [Database.delete, htab, hdel]
      exact ⟨hts, his, htd, hii, hlink⟩
    · have hdel : t.delete id.id =
          .ok ({ t with docs := (mapRemove scmp id.id t.docs) }, d) := by
        simp only [Table.delete, hgd]
      rcases hreg : mapGet scmp id.table db.indexes with _ | reg
      · simp only [Database.delete, htab, hdel, hreg]
        refine ⟨mapAlter_sorted lawCmp_scmp hts, his, ?_, hii, ?_⟩
        · intro p hp
          rcases mapAlter_values lawCmp_scmp hts p hp with h2 | h2
          · rw [h2]
            exact mapRemove_sorted hst
          · exact htd p h2
        · intro tname reg' hreg'
          obtain ⟨t2, ht2, hI⟩ := hlink tname reg' hreg'
          by_cases htn : scmp tname id.table = .eq
          · exfalso
            rw [mapGet_congr lawCmp_scmp htn db.indexes, hreg] at hreg'
            exact Option.noConfusion hreg'
          · refine ⟨t2, ?_, hI⟩
            rw [mapGet_insert lawCmp_scmp id.table tname _ db.tables hts,
              if_neg htn]
            exact ht2
      · simp only [Database.delete, htab, hdel, hreg]
        refine ⟨mapAlter_sorted lawCmp_scmp hts,
          mapAlter_sorted lawCmp_scmp his, ?_, ?_, ?_⟩
        · intro p hp
          rcases mapAlter_values lawCmp_scmp hts p hp with h2 | h2
          · rw [h2]
            exact mapRemove_sorted hst
          · exact htd p h2
        · intro q hq
          rcases mapAlter_values lawCmp_scmp his q hq with h2 | h2
          · rw [h2]
            show SortedKeys scmp (reg.indexes.map
              (fun e => (e.1, e.2.remove id.id d.fields)))
            refine sorted_on_map _ ?_
            obtain ⟨k', hk'⟩ := mapGet_mem hreg
            exact hii (k', reg) hk'
          · exact hii q h2
        · intro tname reg' hreg'
          rw [mapGet_insert lawCmp_scmp id.table tname _ db.indexes his]
            at hreg'
          by_cases htn : scmp tname id.table = .eq
          · rw [if_pos htn] at hreg'
            injection hreg' with hreg'
            subst hreg'
            obtain ⟨t2, ht2, hI⟩ := hlink id.table reg hreg
            rw [htab] at ht2
            injection ht2 with ht2
            subst ht2
            refine ⟨{ t with docs := (mapRemove scmp id.id t.docs) }, ?_, ?_⟩
            · rw [mapGet_insert lawCmp_scmp id.table tname _ db.tables hts,
                if_pos htn]
            · intro iname idx hidx
              rw [show (reg.on_remove id.id d.fields).indexes =
                  reg.indexes.map (fun e => (e.1, e.2.remove id.id d.fields))
                  from rfl,
                mapGet_map_remove id.id d.fields iname reg.indexes] at hidx
              rcases hold : mapGet scmp iname reg.indexes with _ | idx0
              · rw [hold] at hidx
                exact Option.noConfusion hidx
              · rw [hold] at hidx
                injection hidx with hidx
                subst hidx
                exact IndexGood_remove hst hgd (hI iname idx0 hold)
          · rw [if_neg htn] at hreg'
            obtain ⟨t2, ht2, hI⟩ := hlink tname reg' hreg'
            refine ⟨t2, ?_, hI⟩
            rw [mapGet_insert lawCmp_scmp id.table tname _ db.tables hts,
              if_neg htn]
            exact ht2

theorem DBGood_patch {db : Database} (h : DBGood db) (id : DocumentId)
    (fields : List (String × Value))
    (hkeys : ∀ p ∈ fields, startsWithChar p.1 '_' = false) :
    DBGood (db.patch id fields).1 := by
  obtain ⟨hts, his, htd, hii, hlink⟩ := h
  rcases htab : mapGet scmp id.table db.tables with _ | t
  · simp only [Database.patch, htab]
    exact ⟨hts, his, htd, hii, hlink⟩
  · have hst : SortedKeys scmp t.docs := by
      obtain ⟨k', hk'⟩ := mapGet_mem htab
      exact htd (k', t) hk'
    rcases hgd : t.get id.id with e2 | oldDoc
    · simp only [Database.patch, htab, hgd]
      exact ⟨hts, his, htd, hii, hlink⟩
    · have hgd' : mapGet scmp id.id t.docs = some oldDoc := table_get_ok hgd
      have hpt : t.patch id.id fields = ({ t with docs :=
          (mapInsert scmp id.id
            { oldDoc with fields := (mergePatched oldDoc.fields fields) }
            t.docs) }, .ok ()) := by
        simp only [Table.patch, hgd', patchApply_noerr fields oldDoc hkeys]
      have hndoc : ({ t with docs :=
          (mapInsert scmp id.id
            { oldDoc with fields := (mergePatched oldDoc.fields fields) }
            t.docs) } : Table).get id.id =
          .ok { oldDoc with fields := (mergePatched oldDoc.fields fields) } := by
        simp only [Table.get]
        rw [mapGet_insert lawCmp_scmp id.id id.id _ t.docs hst,
          if_pos (lawCmp_scmp.refl id.id)]
      rcases hreg : mapGet scmp id.table db.indexes with _ | reg
      · simp only [Database.patch, htab, hgd, hpt, hndoc, hreg]
        have hdb2 : DBGood { db with tables :=
            (mapInsert scmp id.table { t with docs :=
              (mapInsert scmp id.id
                { oldDoc with fields := (mergePatched oldDoc.fields fields) }
                t.docs) } db.tables) } := by
          refine ⟨mapAlter_sorted lawCmp_scmp hts, his, ?_, hii, ?_⟩
          · intro p hp
            rcases mapAlter_values lawCmp_scmp hts p hp with h2 | h2
            · rw [h2]
              exact mapAlter_sorted lawCmp_scmp hst
            · exact htd p h2
          · intro tname reg' hreg'
            obtain ⟨t2, ht2, hI⟩ := hlink tname reg' hreg'
            by_cases htn : scmp tname id.table = .eq
            · exfalso
              rw [mapGet_congr lawCmp_scmp htn db.indexes, hreg] at hreg'
              exact Option.noConfusion hreg'
            · refine ⟨t2, ?_, hI⟩
              rw [mapGet_insert lawCmp_scmp id.table tname _ db.tables hts,
                if_neg htn]
              exact ht2
        rcases hsc : db.schema with _ | schema
        · simpa only [hsc] using hdb2
        · rcases hts2 : schema.get_table_schema id.table with _ | ts
          · simpa only [hsc, hts2] using hdb2
          · rcases hvd : validate_document (mergePatched oldDoc.fields fields)
              ts with msg | u2
            · simpa only [hsc, hts2, hvd] using hdb2
            · obtain ⟨⟩ := u2
              simpa only [hsc, hts2, hvd] using hdb2
      · simp only [Database.patch, htab, hgd, hpt, hndoc, hreg]
        have hdb2 : DBGood { db with
            tables :=
              (mapInsert scmp id.table { t with docs :=
                (mapInsert scmp id.id
                  { oldDoc with fields := (mergePatched oldDoc.fields fields) }
                  t.docs) } db.tables),
            indexes :=
              (mapInsert scmp id.table (reg.on_update id.id oldDoc.fields
                (mergePatched oldDoc.fields fields)) db.indexes) } := by
          refine ⟨mapAlter_sorted lawCmp_scmp hts,
            mapAlter_sorted lawCmp_scmp his, ?_, ?_, ?_⟩
          · intro p hp
            rcases mapAlter_values lawCmp_scmp hts p hp with h2 | h2
            · rw [h2]
              exact mapAlter_sorted lawCmp_scmp hst
            · exact htd p h2
          · intro q hq
            rcases mapAlter_values lawCmp_scmp his q hq with h2 | h2
            · rw [h2]
              show SortedKeys scmp (reg.indexes.map (fun e => (e.1,
                e.2.update id.id oldDoc.fields
                  (mergePatched oldDoc.fields fields))))
              refine sorted_on_map _ ?_
              obtain ⟨k', hk'⟩ := mapGet_mem hreg
              exact hii (k', reg) hk'
            · exact hii q h2
          · intro tname reg' hreg'
            rw [mapGet_insert lawCmp_scmp id.table tname _ db.indexes his]
              at hreg'
            by_cases htn : scmp tname id.table = .eq
            · rw [if_pos htn] at hreg'
              injection hreg' with hreg'
              subst hreg'
              obtain ⟨t2, ht2, hI⟩ := hlink id.table reg hreg
              rw [htab] at ht2
              injection ht2 with ht2
              subst ht2
              refine ⟨{ t with docs :=
                (mapInsert scmp id.id
                  { oldDoc with fields := (mergePatched oldDoc.fields fields) }
                  t.docs) }, ?_, ?_⟩
              · rw [mapGet_insert lawCmp_scmp id.table tname _ db.tables hts,
                  if_pos htn]
              · intro iname idx hidx
                rw [show (reg.on_update id.id oldDoc.fields
                    (mergePatched oldDoc.fields fields)).indexes =
                    reg.indexes.map (fun e => (e.1, e.2.update id.id
                      oldDoc.fields (mergePatched oldDoc.fields fields)))
                    from rfl,
                  mapGet_map_update id.id oldDoc.fields
                    (mergePatched oldDoc.fields fields) iname reg.indexes]
                  at hidx
                rcases hold : mapGet scmp iname reg.indexes with _ | idx0
                · rw [hold] at hidx
                  exact Option.noConfusion hidx
                · rw [hold] at hidx
                  injection hidx with hidx
                  subst hidx
                  exact @IndexGood_update idx0 t.docs id.id oldDoc
                    { oldDoc with fields :=
                      (mergePatched oldDoc.fields fields) }
                    hst hgd' (hI iname idx0 hold)
            · rw [if_neg htn] at hreg'
              obtain ⟨t2, ht2, hI⟩ := hlink tname reg' hreg'
              refine ⟨t2, ?_, hI⟩
              rw [mapGet_insert lawCmp_scmp id.table tname _ db.tables hts,
                if_neg htn]
              exact ht2
        rcases hsc : db.schema with _ | schema
        · simpa only [hsc] using hdb2
        · rcases hts2 : schema.get_table_schema id.table with _ | ts
          · simpa only [hsc, hts2] using hdb2
          · rcases hvd : validate_document (mergePatched oldDoc.fields fields)
              ts with msg | u2
            · simpa only [hsc, hts2, hvd] using hdb2
            · obtain ⟨⟩ := u2
              simpa only [hsc, hts2, hvd] using hdb2

theorem DBGood_create_index {db : Database} (h : DBGood db)
    (d : IndexDefinition) : DBGood (db.create_index d).1 := by
  obtain ⟨hts, his, htd, hii, hlink⟩ := h
  rcases htab : mapGet scmp d.table db.tables with _ | t
  · simp only [Database.create_index, htab]
    exact ⟨hts, his, htd, hii, hlink⟩
  · have hst : SortedKeys scmp t.docs := by
      obtain ⟨k', hk'⟩ := mapGet_mem htab
      exact htd (k', t) hk'
    have hdist : List.Pairwise (fun a b : String × Document => a.1 ≠ b.1)
        t.docs := by
      refine hst.imp ?_
      intro a b hab heq
      rw [heq, lawCmp_scmp.refl b.1] at hab
      exact Ordering.noConfusion hab
    have hidxGood : IndexGood
        (t.docs.foldl (fun i e => i.insert e.1 e.2.fields) (Index.mk d []))
        t.docs := by
      have hb := IndexGood_backfill t.docs (Index.mk d []) []
        List.Pairwise.nil (IndexGood_empty d) (fun e he => rfl) hdist
      refine IndexGood_congr ?_ hb
      intro k
      rw [mapGet_foldl_insert t.docs [] List.Pairwise.nil hdist k]
      rcases hx : mapGet scmp k t.docs with _ | v
      · rfl
      · rfl
    rcases hreg : mapGet scmp d.table db.indexes with _ | regOld
    · have hadd : (IndexRegistry.mk []).add_index d =
          .ok ⟨mapInsert scmp d.name (Index.mk d [])
            ([] : List (String × Index))⟩ := rfl
      have hget1 : mapGet scmp d.name (mapInsert scmp d.name (Index.mk d [])
          ([] : List (String × Index))) = some (Index.mk d []) := by
        rw [mapGet_insert lawCmp_scmp d.name d.name _ [] List.Pairwise.nil,
          if_pos (lawCmp_scmp.refl d.name)]
      simp only [Database.create_index, htab, hreg, Option.getD_none, hadd,
        hget1]
      refine ⟨hts, mapAlter_sorted lawCmp_scmp his, htd, ?_, ?_⟩
      · intro q hq
        rcases mapAlter_values lawCmp_scmp his q hq with h2 | h2
        · rw [h2]
          exact mapAlter_sorted lawCmp_scmp
            (mapAlter_sorted lawCmp_scmp List.Pairwise.nil)
        · exact hii q h2
      · intro tname reg' hreg'
        rw [mapGet_insert lawCmp_scmp d.table tname _ db.indexes his] at hreg'
        by_cases htn : scmp tname d.table = .eq
        · rw [if_pos htn] at hreg'
          injection hreg' with hreg'
          subst hreg'
          refine ⟨t, ?_, ?_⟩
          · rw [mapGet_congr lawCmp_scmp htn db.tables]
            exact htab
          · intro iname idx hidx
            have hidx' : mapGet scmp iname (mapInsert scmp d.name
                (t.docs.foldl (fun i e => i.insert e.1 e.2.fields)
                  (Index.mk d []))
                (mapInsert scmp d.name (Index.mk d [])
                  ([] : List (String × Index)))) = some idx := hidx
            rw [mapGet_insert lawCmp_scmp d.name iname _ _
              (show SortedKeys scmp (mapInsert scmp d.name (Index.mk d [])
                  ([] : List (String × Index))) from
                mapAlter_sorted lawCmp_scmp List.Pairwise.nil)] at hidx'
            by_cases hin : scmp iname d.name = .eq
            · rw [if_pos hin] at hidx'
              injection hidx' with hidx'
              subst hidx'
              exact hidxGood
            · rw [if_neg hin, mapGet_insert lawCmp_scmp d.name iname _
                ([] : List (String × Index)) List.Pairwise.nil, if_neg hin]
                at hidx'
              simp [mapGet] at hidx'
        · rw [if_neg htn] at hreg'
          exact hlink tname reg' hreg'
    · have hsreg : SortedKeys scmp regOld.indexes := by
        obtain ⟨k', hk'⟩ := mapGet_mem hreg
        exact hii (k', regOld) hk'
      rcases hdup : mapGet scmp d.name regOld.indexes with _ | oldIdx
      · have hadd : regOld.add_index d =
            .ok ⟨mapInsert scmp d.name (Index.mk d []) regOld.indexes⟩ := by
          simp only [IndexRegistry.add_index]
          rw [if_neg (by simp [hdup])]
        have hget1 : mapGet scmp d.name
            (mapInsert scmp d.name (Index.mk d []) regOld.indexes) =
            some (Index.mk d []) := by
          rw [mapGet_insert lawCmp_scmp d.name d.name _ regOld.indexes hsreg,
            if_pos (lawCmp_scmp.refl d.name)]
        simp only [Database.create_index, htab, hreg, Option.getD_some, hadd,
          hget1]
        refine ⟨hts, mapAlter_sorted lawCmp_scmp his, htd, ?_, ?_⟩
        · intro q hq
          rcases mapAlter_values lawCmp_scmp his q hq with h2 | h2
          · rw [h2]
            exact mapAlter_sorted lawCmp_scmp
              (mapAlter_sorted lawCmp_scmp hsreg)
          · exact hii q h2
        · intro tname reg' hreg'
          rw [mapGet_insert lawCmp_scmp d.table tname _ db.indexes his]
            at hreg'
          by_cases htn : scmp tname d.table = .eq
          · rw [if_pos htn] at hreg'
            injection hreg' with hreg'
            subst hreg'
            refine ⟨t, ?_, ?_⟩
            · rw [mapGet_congr lawCmp_scmp htn db.tables]
              exact htab
            · intro iname idx hidx
              have hidx' : mapGet scmp iname (mapInsert scmp d.name
                  (t.docs.foldl (fun i e => i.insert e.1 e.2.fields)
                    (Index.mk d []))
                  (mapInsert scmp d.name (Index.mk d []) regOld.indexes)) =
                  some idx := hidx
              rw [mapGet_insert lawCmp_scmp d.name iname _ _
                (show SortedKeys scmp (mapInsert scmp d.name (Index.mk d [])
                    regOld.indexes) from
                  mapAlter_sorted lawCmp_scmp hsreg)] at hidx'
              by_cases hin : scmp iname d.name = .eq
              · rw [if_pos hin] at hidx'
                injection hidx' with hidx'
                subst hidx'
                exact hidxGood
              · rw [if_neg hin, mapGet_insert lawCmp_scmp d.name iname _
                  regOld.indexes hsreg, if_neg hin] at hidx'
                obtain ⟨t2, ht2, hI⟩ := hlink d.table regOld hreg
                rw [htab] at ht2
                injection ht2 with ht2
                subst ht2
                exact hI iname idx hidx'
          · rw [if_neg htn] at hreg'
            exact hlink tname reg' hreg'
      · have hadd : regOld.add_index d =
            .error (.IndexError ("index already exists: " ++ d.name)) := by
          simp only [IndexRegistry.add_index]
          rw [if_pos (by simp [hdup])]
        simp only [Database.create_index, htab, hreg, Option.getD_some, hadd]
        rw [mapInsert_get_self lawCmp_scmp his hreg]
        exact ⟨hts, his, htd, hii, hlink⟩

/-- Database states reachable through the public write operations,
starting from `Database::new` with tables created on the way: `insert`
with a fresh auto-generated id (UUID v7 draws never collide with stored
ids), `replace`, `patch` restricted to maps without underscore-prefixed
keys, `delete`, and `create_index`. -/
inductive Reach : Database → Prop where
  | new : Reach Database.new
  | create_table (db : Database) (name : String) :
      Reach db → Reach (db.create_table name)
  | insert (db : Database) (table genId : String) (time : F64)
      (fields : List (String × Value)) : Reach db →
      (∀ t, mapGet scmp table db.tables = some t →
        mapGet scmp genId t.docs = none) →
      Reach (db.insert table genId time fields).1
  | replace (db : Database) (id : DocumentId)
      (fields : List (String × Value)) : Reach db →
      Reach (db.replace id fields).1
  | patch (db : Database) (id : DocumentId)
      (fields : List (String × Value)) : Reach db →
      (∀ p ∈ fields, startsWithChar p.1 '_' = false) →
      Reach (db.patch id fields).1
  | delete (db : Database) (id : DocumentId) : Reach db →
      Reach (db.delete id).1
  | create_index (db : Database) (d : IndexDefinition) : Reach db →
      Reach (db.create_index d).1

/-- Every reachable state satisfies the database invariant. -/
theorem DBGood_of_reach : ∀ {db : Database}, Reach db → DBGood db := by
  intro db h
  induction h with
  | new => exact DBGood_new
  | create_table db name _ ih => exact DBGood_create_table ih name
  | insert db table genId time fields _ hfresh ih =>
    exact DBGood_insert_op ih table genId time fields hfresh
  | replace db id fields _ ih => exact DBGood_replace ih id fields
  | patch db id fields _ hkeys ih => exact DBGood_patch ih id fields hkeys
  | delete db id _ ih => exact DBGood_delete ih id
  | create_index db d _ ih => exact DBGood_create_index ih d

/-- C5 (amended): in every database state reachable via create_table,
insert (fresh generated id), replace, patch with no underscore-prefixed
key, delete and create_index, every secondary index is consistent with
its table: for every stored document d, lookup at d's composite key (the
declared fields in order, missing fields contributing Null) contains
d's local id, and lookup at any key not comparing equal to it does not. -/
theorem C5_index_consistency_amended {db : Database} (h : Reach db) :
    ∀ tname reg, mapGet scmp tname db.indexes = some reg →
    ∀ iname idx, mapGet scmp iname reg.indexes = some idx →
    ∃ t, mapGet scmp tname db.tables = some t ∧
      ∀ i d, mapGet scmp i t.docs = some d →
        setMem scmp i (idx.lookup (idx.extract_key d.fields)) = true ∧
        ∀ key, kcmp key (idx.extract_key d.fields) ≠ .eq →
          setMem scmp i (idx.lookup key) = false := by
  obtain ⟨hts, his, htd, hii, hlink⟩ := DBGood_of_reach h
  intro tname reg hreg iname idx hidx
  obtain ⟨t, ht, hI⟩ := hlink tname reg hreg
  obtain ⟨hs, hb, hm⟩ := hI iname idx hidx
  refine ⟨t, ht, ?_⟩
  intro i d hd
  constructor
  · exact (hm _ i).mpr ⟨d, hd, lawCmp_kcmp.refl _⟩
  · intro key hkey
    cases hx : setMem scmp i (idx.lookup key)
    · rfl
    · exfalso
      obtain ⟨d2, hd2, hk2⟩ := (hm key i).mp hx
      rw [hd] at hd2
      injection hd2 with hd2
      subst hd2
      exact hkey (lawCmp_kcmp.eq_symm hk2)

/-- A concrete reachable database: table `users` holding one document
`u1 = {Age: 30}` and index `by_age` on `["Age"]`. -/
def dbAge : Database :=
  ((((Database.new.create_table "users").insert "users" "u1" (F64.zero false)
    [("Age", Value.int 30)]).1).create_index ⟨"by_age", "users", ["Age"]⟩).1

/-- The `by_age` index contents of `dbAge`. -/
def idxAge : Index :=
  ⟨⟨"by_age", "users", ["Age"]⟩, [([Value.int 30], ["u1"])]⟩

theorem reach_dbAge : Reach dbAge :=
  Reach.create_index _ _
    (Reach.insert _ "users" "u1" (F64.zero false) [("Age", Value.int 30)]
      (Reach.create_table _ "users" Reach.new)
      (by
        intro t ht
        have ht2 : (some (Table.mk "users" ([] : List (String × Document))) :
            Option Table) = some t := ht
        injection ht2 with ht2
        rw [← ht2]
        rfl))

/-- C5 (counterexample): `dbAge` is reachable, and one further `patch`
with the sorted map `{Age: 31, _bad: 0}` — a step the claim's list of
operations includes — applies `Age := 31` in place, fails at `_bad`, and
returns before the index update: the stored document becomes
`{Age: 31}` while `by_age` still maps key `[30]` to `u1`.  Lookup at the
document's composite key `[31]` misses its id and lookup at the stale
key `[30]` still contains it, so the claimed invariant fails. -/
theorem C5_counterexample :
    Reach dbAge ∧
    mapGet scmp "users" ((dbAge.patch ⟨"users", "u1"⟩
        [("Age", Value.int 31), ("_bad", Value.int 0)]).1).tables =
      some ⟨"users", [("u1", ⟨⟨"users", "u1"⟩, F64.zero false,
        [("Age", Value.int 31)]⟩)]⟩ ∧
    mapGet scmp "users" ((dbAge.patch ⟨"users", "u1"⟩
        [("Age", Value.int 31), ("_bad", Value.int 0)]).1).indexes =
      some ⟨[("by_age", idxAge)]⟩ ∧
    setMem scmp "u1"
      (idxAge.lookup (idxAge.extract_key [("Age", Value.int 31)])) = false ∧
    setMem scmp "u1" (idxAge.lookup [Value.int 30]) = true ∧
    kcmp [Value.int 30] (idxAge.extract_key [("Age", Value.int 31)]) ≠ .eq :=
  ⟨reach_dbAge, by decide, by decide, by decide, by decide, by decide⟩

/-- C5 (witness): the amended consistency theorem applied at the
concrete reachable database `dbAge` and its `by_age` index. -/
theorem C5_witness :
    ∃ t, mapGet scmp "users" dbAge.tables = some t ∧
      ∀ i d, mapGet scmp i t.docs = some d →
        setMem scmp i (idxAge.lookup (idxAge.extract_key d.fields)) = true ∧
        ∀ key, kcmp key (idxAge.extract_key d.fields) ≠ .eq →
          setMem scmp i (idxAge.lookup key) = false :=
  C5_index_consistency_amended reach_dbAge "users" ⟨[("by_age", idxAge)]⟩
    (by decide) "by_age" idxAge (by decide)

/-! ## C3/C4: versioned database and transactions

`transaction.rs` defines the `Transaction` struct and its operations, and
its tests exercise `Database::version` / `begin` / `commit`, but
`database.rs` in the source tree is truncated before the version field
and those three methods.  The missing pieces are modelled from the spec
(§4.6 "version() returns the monotonic counter", §4.7 "Commit protocol"),
on top of the translated `Database` operations. -/

/-- Modelled from the spec: the database owns a monotonic version counter
(u64, here ℕ) starting at 0 next to the translated `Database` state. -/
structure VDatabase where
  db : Database
  version : ℕ

/-- Modelled from the spec: a fresh database starts at version 0. -/
def VDatabase.new : VDatabase := ⟨Database.new, 0⟩

/-- `Transaction` (transaction.rs): working copies, read/write sets and
the begin version, plus `snapTables` — Modelled from the spec: the
*initial snapshot* the commit protocol compares the base against (§4.7
step 1); the Rust struct does not store it separately, which the spec
flags as an equivalent-implementation point. -/
structure Transaction where
  tables : List (String × Table)
  indexes : List (String × IndexRegistry)
  schema : Option SchemaDefinition
  read_set : List (String × String)
  write_set : List (String × String)
  begin_version : ℕ
  snapTables : List (String × Table)

/-- `HashSet::insert` on the (table, id) pair sets, modelled
order-preserving. -/
def setAdd (p : String × String) (s : List (String × String)) :
    List (String × String) :=
  if p ∈ s then s else s ++ [p]

/-- Modelled from the spec: `Database::begin` deep-copies tables,
indexes and schema into a transaction with empty read/write sets and the
current version (§4.7). -/
def VDatabase.begin (v : VDatabase) : Transaction :=
  ⟨v.db.tables, v.db.indexes, v.db.schema, [], [], v.version, v.db.tables⟩

/-- `Transaction::get` (transaction.rs): record the read, then look up in
the working copy. -/
def Transaction.get (tx : Transaction) (id : DocumentId) :
    Transaction × Except CoreError Document :=
  let tx1 := { tx with read_set := setAdd (id.table, id.id) tx.read_set }
  (tx1,
    match mapGet scmp id.table tx.tables with
    | none => .error (.TableNotFound id.table)
    | some t => t.get id.id)

/-- `Transaction::validate_fields` (transaction.rs). -/
def Transaction.validate_fields (tx : Transaction) (table : String)
    (fields : List (String × Value)) : Except CoreError Unit :=
  match tx.schema with
  | some schema =>
    match schema.get_table_schema table with
    | some table_schema =>
      match validate_document fields table_schema with
      | .error msg => .error (.SchemaViolation (table ++ ": " ++ msg))
      | .ok () => .ok ()
    | none => .ok ()
  | none => .ok ()

/-- `Transaction::replace` (transaction.rs): validate, record the read,
capture old fields, overwrite in the working copy, update the working
indexes, record the write. -/
def Transaction.replace (tx : Transaction) (id : DocumentId)
    (fields : List (String × Value)) : Transaction × Except CoreError Unit :=
  match tx.validate_fields id.table fields with
  | .error e => (tx, .error e)
  | .ok () =>
    let tx1 := { tx with read_set := setAdd (id.table, id.id) tx.read_set }
    match mapGet scmp id.table tx1.tables with
    | none => (tx1, .error (.TableNotFound id.table))
    | some t =>
      match t.get id.id with
      | .error e => (tx1, .error e)
      | .ok oldDoc =>
        match t.replace id.id fields with
        | .error e => (tx1, .error e)
        | .ok t' =>
          let tx2 := { tx1 with tables := mapInsert scmp id.table t' tx1.tables }
          match t'.get id.id with
          | .error e => (tx2, .error e)
          | .ok newDoc =>
            let tx3 :=
              match mapGet scmp id.table tx2.indexes with
              | some reg =>
                { tx2 with indexes :=
                    (mapInsert scmp id.table
                      (reg.on_update id.id oldDoc.fields newDoc.fields)
                      tx2.indexes) }
              | none => tx2
            ({ tx3 with write_set := setAdd (id.table, id.id) tx3.write_set },
              .ok ())

/-- The document stored under `(table, id)`, if any. -/
def docAt (tables : List (String × Table)) (tb i : String) :
    Option Document :=
  match mapGet scmp tb tables with
  | none => none
  | some t => mapGet scmp i t.docs

/-- Modelled from the spec: `Database::commit` (§4.7).  If the version
moved since `begin`, every `(table, id)` of the read and write sets is
compared between the base database and the transaction's initial
snapshot; a differing or disappeared document is a conflict and the base
is left untouched.  Otherwise the working tables, indexes and schema are
installed and the version increments by one. -/
def VDatabase.commit (v : VDatabase) (tx : Transaction) :
    VDatabase × Except CoreError Unit :=
  if v.version = tx.begin_version then
    (⟨⟨tx.tables, tx.indexes, tx.schema⟩, v.version + 1⟩, .ok ())
  else
    if (tx.read_set ++ tx.write_set).any
        (fun p => decide (docAt v.db.tables p.1 p.2 ≠
          docAt tx.snapTables p.1 p.2)) then
      (v, .error (.TransactionConflict
        "document modified since transaction began"))
    else
      (⟨⟨tx.tables, tx.indexes, tx.schema⟩, v.version + 1⟩, .ok ())

/-- Is the operation's result a success? -/
def exceptOk {α : Type _} : Except CoreError α → Bool
  | .ok _ => true
  | .error _ => false

/-- Modelled from the spec: non-transactional writes go through the
translated `Database` operation and bump the version by one exactly on
success (§4.6 "Non-transactional writes increment `version` by 1 each"). -/
def VDatabase.insert (v : VDatabase) (table genId : String) (time : F64)
    (fields : List (String × Value)) : VDatabase × Except CoreError DocumentId :=
  let r := v.db.insert table genId time fields
  (⟨r.1, if exceptOk r.2 then v.version + 1 else v.version⟩, r.2)

/-- Modelled from the spec: versioned direct `replace`. -/
def VDatabase.replace (v : VDatabase) (id : DocumentId)
    (fields : List (String × Value)) : VDatabase × Except CoreError Unit :=
  let r := v.db.replace id fields
  (⟨r.1, if exceptOk r.2 then v.version + 1 else v.version⟩, r.2)

/-- Modelled from the spec: versioned direct `patch`. -/
def VDatabase.patch (v : VDatabase) (id : DocumentId)
    (fields : List (String × Value)) : VDatabase × Except CoreError Unit :=
  let r := v.db.patch id fields
  (⟨r.1, if exceptOk r.2 then v.version + 1 else v.version⟩, r.2)

/-- Modelled from the spec: versioned direct `delete`. -/
def VDatabase.delete (v : VDatabase) (id : DocumentId) :
    VDatabase × Except CoreError Document :=
  let r := v.db.delete id
  (⟨r.1, if exceptOk r.2 then v.version + 1 else v.version⟩, r.2)

/-- C4: the version counter starts at 0 and moves by exactly one on each
successful direct write (insert, replace, patch, delete) and each
successful commit, staying put when the operation fails. -/
theorem C4_version_counter :
    VDatabase.new.version = 0 ∧
    (∀ (v : VDatabase) (table genId : String) (time : F64)
      (fields : List (String × Value)),
      (VDatabase.insert v table genId time fields).1.version =
        (if exceptOk (VDatabase.insert v table genId time fields).2
          then v.version + 1 else v.version)) ∧
    (∀ (v : VDatabase) (id : DocumentId) (fields : List (String × Value)),
      (VDatabase.replace v id fields).1.version =
        (if exceptOk (VDatabase.replace v id fields).2
          then v.version + 1 else v.version)) ∧
    (∀ (v : VDatabase) (id : DocumentId) (fields : List (String × Value)),
      (VDatabase.patch v id fields).1.version =
        (if exceptOk (VDatabase.patch v id fields).2
          then v.version + 1 else v.version)) ∧
    (∀ (v : VDatabase) (id : DocumentId),
      (VDatabase.delete v id).1.version =
        (if exceptOk (VDatabase.delete v id).2
          then v.version + 1 else v.version)) ∧
    (∀ (v : VDatabase) (tx : Transaction),
      (VDatabase.commit v tx).1.version =
        (if exceptOk (VDatabase.commit v tx).2
          then v.version + 1 else v.version)) := by
  refine ⟨rfl, fun v table genId time fields => rfl, fun v id fields => rfl,
    fun v id fields => rfl, fun v id => rfl, ?_⟩
  intro v tx
  simp only [VDatabase.commit]
  split
  · rfl
  · split
    · rfl
    · rfl

/-- C3 (amended): if two transactions begin at the same version, the
first commit succeeds unconditionally, and when it actually changed a
document at some (table, id) pair of the second transaction's read or
write set relative to the second's snapshot, the second commit fails
with TransactionConflict and leaves the base database unchanged. -/
theorem C3_first_committer_amended (v : VDatabase) (tx1 tx2 : Transaction)
    (h1 : tx1.begin_version = v.version)
    (h2 : tx2.begin_version = v.version)
    (hsnap : tx2.snapTables = v.db.tables)
    (p : String × String)
    (hp : p ∈ tx2.read_set ∨ p ∈ tx2.write_set)
    (hdiff : docAt ((v.commit tx1).1).db.tables p.1 p.2 ≠
      docAt v.db.tables p.1 p.2) :
    (v.commit tx1).2 = .ok () ∧
    ((v.commit tx1).1).commit tx2 =
      ((v.commit tx1).1, .error (.TransactionConflict
        "document modified since transaction began")) := by
  have hc1 : v.commit tx1 =
      (⟨⟨tx1.tables, tx1.indexes, tx1.schema⟩, v.version + 1⟩, .ok ()) := by
    simp [VDatabase.commit, h1]
  rw [hc1] at hdiff
  constructor
  · rw [hc1]
  · rw [hc1]
    show VDatabase.commit ⟨⟨tx1.tables, tx1.indexes, tx1.schema⟩,
      v.version + 1⟩ tx2 = _
    simp only [VDatabase.commit, h2]
    split
    · next hv =>
      have hv' : v.version + 1 = v.version := hv
      omega
    · split
      · rfl
      · next hno =>
        exfalso
        refine hno ?_
        rw [List.any_eq_true]
        refine ⟨p, ?_, ?_⟩
        · rcases hp with hp | hp
          · exact List.mem_append.mpr (Or.inl hp)
          · exact List.mem_append.mpr (Or.inr hp)
        · rw [decide_eq_true_eq, hsnap]
          exact hdiff

/-- A concrete versioned database: table `users` with document
`u1 = {Age: 30}` at version 0. -/
def vdbW : VDatabase :=
  ⟨((Database.new.create_table "users").insert "users" "u1" (F64.zero false)
    [("Age", Value.int 30)]).1, 0⟩

/-- A transaction on `vdbW` that replaces `u1` with `{Age: 31}`. -/
def txW1 : Transaction :=
  (vdbW.begin.replace ⟨"users", "u1"⟩ [("Age", Value.int 31)]).1

/-- A read-only transaction on `vdbW` that reads `u1`. -/
def txW2 : Transaction := (vdbW.begin.get ⟨"users", "u1"⟩).1

/-- C3 (counterexample): two read-only transactions beginning at the same
version whose read sets overlap on ("users", "u1"): the first commit
succeeds, yet the second commit also succeeds — the overlapping commit
did not change the document, so the snapshot comparison finds no
conflict.  "Exactly one of the two commits succeeds" fails. -/
theorem C3_counterexample :
    txW2.begin_version = vdbW.version ∧
    ("users", "u1") ∈ txW2.read_set ∧
    (vdbW.commit txW2).2 = .ok () ∧
    ((vdbW.commit txW2).1.commit txW2).2 = .ok () :=
  ⟨by decide, by decide, by decide, by decide⟩

/-- C3 (witness): the amended theorem at `vdbW`, a writing transaction
`txW1` and an overlapping reader `txW2`. -/
theorem C3_witness :
    (vdbW.commit txW1).2 = .ok () ∧
    ((vdbW.commit txW1).1).commit txW2 =
      ((vdbW.commit txW1).1, .error (.TransactionConflict
        "document modified since transaction began")) :=
  C3_first_committer_amended vdbW txW1 txW2 (by decide) (by decide)
    (by decide) ("users", "u1") (Or.inl (by decide)) (by decide)
